import Mathlib

/-! The testfs block mapping engine (`read_write.c`).

A shallow embedding of `testfs_read_block`, `testfs_read_data`,
`testfs_allocate_block`, `testfs_write_data` and `testfs_free_blocks`.

* Memory buffers (`char block[BLOCK_SIZE]`, the caller's `buf`) are functions
  from a byte offset to a byte value.
* The layout constants of `testfs.h` (`BLOCK_SIZE`, `NR_DIRECT_BLOCKS`,
  `NR_INDIRECT_BLOCKS`, `I_FLAGS_DIRTY`) are fields of `Config`;
  `MAX_NR_DOUBLY_INDIRECT_BLOCKS` is defined in `read_write.c` itself and is a
  field as well; `testfsConfig` is the layout with the constant of the source.
* The block device is a function from a physical block number to a buffer.
* The free-block allocator is external: its replies are a script consumed one
  reply per call, and the blocks handed to `testfs_free_block_from_inode` are
  logged in call order.
-/

namespace TestFS

/-- Layout constants of the file system. -/
structure Config where
  BLOCK_SIZE : Nat
  NR_DIRECT_BLOCKS : Nat
  NR_INDIRECT_BLOCKS : Nat
  MAX_NR_DOUBLY_INDIRECT_BLOCKS : Nat
  I_FLAGS_DIRTY : Nat

/-- The layout of the original testfs: 8192-byte blocks, 10 direct pointers,
2048 pointers per indirect block; `MAX_NR_DOUBLY_INDIRECT_BLOCKS` is the
constant of `read_write.c`. -/
def testfsConfig : Config :=
  { BLOCK_SIZE := 8192, NR_DIRECT_BLOCKS := 10, NR_INDIRECT_BLOCKS := 2048,
    MAX_NR_DOUBLY_INDIRECT_BLOCKS := 4194304, I_FLAGS_DIRTY := 1 }

/-- Number of logical blocks a file can have. -/
def Config.capacity (cfg : Config) : Nat :=
  cfg.NR_DIRECT_BLOCKS + cfg.NR_INDIRECT_BLOCKS + cfg.MAX_NR_DOUBLY_INDIRECT_BLOCKS

/-- Sanity of a layout: pointers are 4 bytes wide and an indirect block holds
`NR_INDIRECT_BLOCKS` of them, the double-indirect range is at most
`NR_INDIRECT_BLOCKS` indirect blocks, every logical index fits in an `int`. -/
structure Config.ok (cfg : Config) : Prop where
  bs_pos : 0 < cfg.BLOCK_SIZE
  ind_pos : 0 < cfg.NR_INDIRECT_BLOCKS
  ind_fit : 4 * cfg.NR_INDIRECT_BLOCKS ≤ cfg.BLOCK_SIZE
  dbl_fit : cfg.MAX_NR_DOUBLY_INDIRECT_BLOCKS ≤ cfg.NR_INDIRECT_BLOCKS * cfg.NR_INDIRECT_BLOCKS
  cap_int : cfg.capacity < 2147483648
  bs_int : cfg.BLOCK_SIZE < 2147483648

def EFBIG : Int := 27

def ENOSPC : Int := 28

/-- A memory buffer: byte offset to byte value. -/
abbrev Block := Nat → Nat

/-- The buffer after `bzero(block, BLOCK_SIZE)`. -/
def zero_block : Block := fun _ => 0

/-- Conversion of a 64-bit value to `int`. -/
def toInt32 (n : Int) : Int := (n + 2147483648) % 4294967296 - 2147483648

/-- The cast `(off_t) size` of a `size_t`. -/
def toInt64 (n : Nat) : Int :=
  if n % 18446744073709551616 < 9223372036854775808 then ((n % 18446744073709551616 : Nat) : Int)
  else ((n % 18446744073709551616 : Nat) : Int) - 18446744073709551616

/-- Conversion of a signed value to `size_t`. -/
def toSizeT (n : Int) : Nat := (n % 18446744073709551616).toNat

/-- The word `((int *) block)[k]`, little endian, two's complement. -/
def getInt (block : Block) (k : Nat) : Int :=
  toInt32 ((block (4 * k) % 256 + 256 * (block (4 * k + 1) % 256)
    + 65536 * (block (4 * k + 2) % 256) + 16777216 * (block (4 * k + 3) % 256) : Nat) : Int)

/-- The buffer after `((int *) block)[k] = v`. -/
def setInt (block : Block) (k : Nat) (v : Int) : Block := fun i =>
  if i = 4 * k then (v % 4294967296).toNat % 256
  else if i = 4 * k + 1 then (v % 4294967296).toNat / 256 % 256
  else if i = 4 * k + 2 then (v % 4294967296).toNat / 65536 % 256
  else if i = 4 * k + 3 then (v % 4294967296).toNat / 16777216 % 256
  else block i

/-- The buffer `dst` after `memcpy(dst + doff, src + soff, n)`. -/
def memcpy (dst : Block) (doff : Nat) (src : Block) (soff : Nat) (n : Nat) : Block := fun i =>
  if doff ≤ i ∧ i < doff + n then src (soff + (i - doff)) else dst i

/-- The inode fields used by the mapping engine (`in->in.*`, `in->i_flags`),
the block device behind `in->sb`, and the state of the external allocator. -/
structure State where
  i_size : Int
  i_block_nr : Nat → Int
  i_indirect : Int
  i_dindirect : Int
  i_flags : Nat
  disk : Int → Block
  alloc : List Int
  freed : List Int

/-- Outcome of a call: a normal return, an `assert` that fired, or a loop of
the model that ran out of its iteration bound. -/
inductive Res (α : Type) where
  | ok : α → Res α
  | assert_failed : Res α
  | out_of_fuel : Res α

/-- The buffer after `read_blocks(in->sb, block, nr, 1)`. -/
def read_blocks (s : State) (nr : Int) : Block := s.disk nr

/-- The state after `write_blocks(in->sb, block, nr, 1)`. -/
def write_blocks (s : State) (block : Block) (nr : Int) : State :=
  { s with disk := fun b => if b = nr then block else s.disk b }

/-- Modelled from the spec: `testfs_alloc_block_for_inode` is declared in
`inode.h` and defined outside `read_write.c`. It returns a block number owned
by the inode, zero-initialized on the device, or a negative error. The replies
are read off the script `alloc`; an exhausted script answers `-ENOSPC`. -/
def testfs_alloc_block_for_inode (s : State) : Int × State :=
  match s.alloc with
  | [] => (-ENOSPC, s)
  | r :: rest =>
    if r < 0 then (r, { s with alloc := rest })
    else (r, { s with alloc := rest, disk := fun b => if b = r then zero_block else s.disk b })

/-- Modelled from the spec: `testfs_free_block_from_inode` is declared in
`inode.h` and defined outside `read_write.c`. It releases ownership of the
block; the released numbers are logged in call order. -/
def testfs_free_block_from_inode (s : State) (nr : Int) : State :=
  { s with freed := s.freed ++ [nr] }

/-- The argument conversion `long` to `int log_block_nr` at a call of
`testfs_read_block` or `testfs_allocate_block`, followed by their
`assert(log_block_nr >= 0)`. -/
def int_index (block_nr : Nat) : Res Nat :=
  if block_nr % 4294967296 < 2147483648 then .ok (block_nr % 4294967296) else .assert_failed

/-- Lines 70-77 of `testfs_read_block`: load the block found, or zero the
scratch buffer when there is none. -/
def read_block_finish (s : State) (phy_block_nr : Int) : Int × Block :=
  if phy_block_nr > 0 then (phy_block_nr, read_blocks s phy_block_nr)
  else (phy_block_nr, zero_block)

/-- The function `testfs_read_block`: the return value and the scratch buffer
on return. The index is a natural number, so `assert(log_block_nr >= 0)`
holds. -/
def testfs_read_block (cfg : Config) (s : State) (log_block_nr : Nat) (block : Block) :
    Int × Block :=
  if log_block_nr < cfg.NR_DIRECT_BLOCKS then
    read_block_finish s (s.i_block_nr log_block_nr)
  else if log_block_nr - cfg.NR_DIRECT_BLOCKS < cfg.NR_INDIRECT_BLOCKS then
    if s.i_indirect > 0 then
      read_block_finish s
        (getInt (read_blocks s s.i_indirect) (log_block_nr - cfg.NR_DIRECT_BLOCKS))
    else (0, block)
  else if log_block_nr - cfg.NR_DIRECT_BLOCKS - cfg.NR_INDIRECT_BLOCKS
      < cfg.MAX_NR_DOUBLY_INDIRECT_BLOCKS then
    if s.i_dindirect > 0 then
      if getInt (read_blocks s s.i_dindirect)
          ((log_block_nr - cfg.NR_DIRECT_BLOCKS - cfg.NR_INDIRECT_BLOCKS)
            / cfg.NR_INDIRECT_BLOCKS) > 0 then
        read_block_finish s
          (getInt
            (read_blocks s (getInt (read_blocks s s.i_dindirect)
              ((log_block_nr - cfg.NR_DIRECT_BLOCKS - cfg.NR_INDIRECT_BLOCKS)
                / cfg.NR_INDIRECT_BLOCKS)))
            ((log_block_nr - cfg.NR_DIRECT_BLOCKS - cfg.NR_INDIRECT_BLOCKS)
              % cfg.NR_INDIRECT_BLOCKS))
      else (0, read_blocks s s.i_dindirect)
    else (0, block)
  else (-EFBIG, block)

/-- The `while (byte_read != size)` loop of `testfs_read_data`. -/
def read_loop (cfg : Config) (s : State) (size : Nat) :
    Nat → Block → Nat → Nat → Block → Res (Int × Block)
  | 0, _, _, byte_read, buf =>
    if byte_read = size then .ok (toInt32 size, buf) else .out_of_fuel
  | fuel + 1, block, block_nr, byte_read, buf =>
    if byte_read = size then .ok (toInt32 size, buf)
    else
      match int_index block_nr with
      | .ok idx =>
        if (testfs_read_block cfg s idx block).1 < 0 then
          .ok ((testfs_read_block cfg s idx block).1, buf)
        else if size - byte_read ≥ cfg.BLOCK_SIZE then
          read_loop cfg s size fuel (testfs_read_block cfg s idx block).2 (block_nr + 1)
            (byte_read + cfg.BLOCK_SIZE)
            (memcpy buf byte_read (testfs_read_block cfg s idx block).2 0 cfg.BLOCK_SIZE)
        else
          read_loop cfg s size fuel (testfs_read_block cfg s idx block).2 block_nr size
            (memcpy buf byte_read (testfs_read_block cfg s idx block).2 0 (size - byte_read))
      | .assert_failed => .assert_failed
      | .out_of_fuel => .out_of_fuel

/-- The requested size of `testfs_read_data` after the clamp of lines 89-91. -/
def read_clamp (s : State) (start : Nat) (size : Nat) : Nat :=
  if (start : Int) + toInt64 size > s.i_size then toSizeT (s.i_size - start) else size

/-- The function `testfs_read_data`: the return value and the caller's buffer
on return. `size` is a `size_t`, sums with it wrap at `2^64`. -/
def testfs_read_data (cfg : Config) (s : State) (buf : Block) (start : Nat) (size : Nat) :
    Res (Int × Block) :=
  if (start % cfg.BLOCK_SIZE + read_clamp s start size) % 18446744073709551616
      > cfg.BLOCK_SIZE then
    match int_index (start / cfg.BLOCK_SIZE) with
    | .ok idx =>
      read_loop cfg s (read_clamp s start size) (cfg.capacity + 1)
        (testfs_read_block cfg s idx zero_block).2 (start / cfg.BLOCK_SIZE + 1)
        (cfg.BLOCK_SIZE - start % cfg.BLOCK_SIZE)
        (memcpy buf 0 (testfs_read_block cfg s idx zero_block).2 (start % cfg.BLOCK_SIZE)
          (cfg.BLOCK_SIZE - start % cfg.BLOCK_SIZE))
    | .assert_failed => .assert_failed
    | .out_of_fuel => .out_of_fuel
  else
    match int_index (start / cfg.BLOCK_SIZE) with
    | .ok idx =>
      if (testfs_read_block cfg s idx zero_block).1 < 0 then
        .ok ((testfs_read_block cfg s idx zero_block).1, buf)
      else
        .ok (toInt32 (read_clamp s start size),
          memcpy buf 0 (testfs_read_block cfg s idx zero_block).2 (start % cfg.BLOCK_SIZE)
            (read_clamp s start size))
    | .assert_failed => .assert_failed
    | .out_of_fuel => .out_of_fuel

/-- Lines 180-197 of `testfs_allocate_block`: allocate the data block of an
indirect-tier index, with `indirect` the in-memory indirect block. -/
def allocate_indirect_data (s : State) (log_block_nr : Nat) (indirect : Block)
    (indirect_allocated : Bool) (block : Block) : Res (Int × State × Block) :=
  if getInt indirect log_block_nr ≠ 0 then .assert_failed
  else
    if (testfs_alloc_block_for_inode s).1 ≥ 0 then
      .ok ((testfs_alloc_block_for_inode s).1,
        write_blocks (testfs_alloc_block_for_inode s).2
          (setInt indirect log_block_nr (testfs_alloc_block_for_inode s).1)
          (testfs_alloc_block_for_inode s).2.i_indirect,
        block)
    else if indirect_allocated then
      .ok ((testfs_alloc_block_for_inode s).1,
        { testfs_free_block_from_inode (testfs_alloc_block_for_inode s).2
            (testfs_alloc_block_for_inode s).2.i_indirect with i_indirect := 0 },
        block)
    else .ok ((testfs_alloc_block_for_inode s).1, (testfs_alloc_block_for_inode s).2, block)

/-- Lines 165-198 of `testfs_allocate_block`: the single-indirect tier, with
`log_block_nr` already reduced by `NR_DIRECT_BLOCKS`. -/
def allocate_indirect (s : State) (log_block_nr : Nat) (block : Block) :
    Res (Int × State × Block) :=
  if s.i_indirect = 0 then
    if (testfs_alloc_block_for_inode s).1 < 0 then
      .ok ((testfs_alloc_block_for_inode s).1, (testfs_alloc_block_for_inode s).2, block)
    else
      allocate_indirect_data
        { (testfs_alloc_block_for_inode s).2 with
          i_indirect := (testfs_alloc_block_for_inode s).1 }
        log_block_nr zero_block true block
  else allocate_indirect_data s log_block_nr (read_blocks s s.i_indirect) false block

/-- Lines 244-270 of `testfs_allocate_block`: allocate the data block of a
double-indirect-tier index. -/
def allocate_dindirect_data (cfg : Config) (s : State) (log_block_nr : Nat)
    (d_indirect indirect : Block) (doubly_indirect_allocated : Bool)
    (indirect_in_dindirect_allocated : Bool) (block : Block) : Res (Int × State × Block) :=
  if getInt indirect (log_block_nr % cfg.NR_INDIRECT_BLOCKS) ≠ 0 then .assert_failed
  else
    if (testfs_alloc_block_for_inode s).1 < 0 then
      if doubly_indirect_allocated then
        .ok ((testfs_alloc_block_for_inode s).1,
          { testfs_free_block_from_inode
              (if indirect_in_dindirect_allocated then
                testfs_free_block_from_inode (testfs_alloc_block_for_inode s).2
                  (getInt d_indirect (log_block_nr / cfg.NR_INDIRECT_BLOCKS))
              else (testfs_alloc_block_for_inode s).2)
              (testfs_alloc_block_for_inode s).2.i_dindirect with i_dindirect := 0 },
          block)
      else
        .ok ((testfs_alloc_block_for_inode s).1,
          write_blocks
            (if indirect_in_dindirect_allocated then
              testfs_free_block_from_inode (testfs_alloc_block_for_inode s).2
                (getInt d_indirect (log_block_nr / cfg.NR_INDIRECT_BLOCKS))
            else (testfs_alloc_block_for_inode s).2)
            d_indirect (testfs_alloc_block_for_inode s).2.i_dindirect,
          block)
    else
      .ok ((testfs_alloc_block_for_inode s).1,
        write_blocks (testfs_alloc_block_for_inode s).2
          (setInt indirect (log_block_nr % cfg.NR_INDIRECT_BLOCKS)
            (testfs_alloc_block_for_inode s).1)
          (getInt d_indirect (log_block_nr / cfg.NR_INDIRECT_BLOCKS)),
        block)

/-- Lines 222-242 of `testfs_allocate_block`: find or allocate the indirect
block inside the double-indirect block `d_indirect`. -/
def allocate_dindirect_entry (cfg : Config) (s : State) (log_block_nr : Nat)
    (d_indirect : Block) (doubly_indirect_allocated : Bool) (block : Block) :
    Res (Int × State × Block) :=
  if getInt d_indirect (log_block_nr / cfg.NR_INDIRECT_BLOCKS) = 0 then
    if (testfs_alloc_block_for_inode s).1 < 0 then
      if doubly_indirect_allocated then
        .ok ((testfs_alloc_block_for_inode s).1,
          { testfs_free_block_from_inode (testfs_alloc_block_for_inode s).2
              (testfs_alloc_block_for_inode s).2.i_dindirect with i_dindirect := 0 },
          block)
      else .ok ((testfs_alloc_block_for_inode s).1, (testfs_alloc_block_for_inode s).2, block)
    else
      allocate_dindirect_data cfg
        (write_blocks (testfs_alloc_block_for_inode s).2
          (setInt d_indirect (log_block_nr / cfg.NR_INDIRECT_BLOCKS)
            (testfs_alloc_block_for_inode s).1)
          (testfs_alloc_block_for_inode s).2.i_dindirect)
        log_block_nr
        (setInt d_indirect (log_block_nr / cfg.NR_INDIRECT_BLOCKS)
          (testfs_alloc_block_for_inode s).1)
        zero_block doubly_indirect_allocated true block
  else
    allocate_dindirect_data cfg s log_block_nr d_indirect
      (read_blocks s (getInt d_indirect (log_block_nr / cfg.NR_INDIRECT_BLOCKS)))
      doubly_indirect_allocated false block

/-- Lines 202-271 of `testfs_allocate_block`: the double-indirect tier, with
`log_block_nr` already reduced by the two lower tiers. -/
def allocate_dindirect (cfg : Config) (s : State) (log_block_nr : Nat) (block : Block) :
    Res (Int × State × Block) :=
  if s.i_dindirect = 0 then
    if (testfs_alloc_block_for_inode s).1 < 0 then
      .ok ((testfs_alloc_block_for_inode s).1, (testfs_alloc_block_for_inode s).2, block)
    else
      allocate_dindirect_entry cfg
        { (testfs_alloc_block_for_inode s).2 with
          i_dindirect := (testfs_alloc_block_for_inode s).1 }
        log_block_nr zero_block true block
  else
    allocate_dindirect_entry cfg s log_block_nr (read_blocks s s.i_dindirect) false block

/-- The function `testfs_allocate_block`: the return value, the state and the
scratch buffer on return. -/
def testfs_allocate_block (cfg : Config) (s : State) (log_block_nr : Nat) (block : Block) :
    Res (Int × State × Block) :=
  if (testfs_read_block cfg s log_block_nr block).1 ≠ 0 then
    .ok ((testfs_read_block cfg s log_block_nr block).1, s,
      (testfs_read_block cfg s log_block_nr block).2)
  else if log_block_nr < cfg.NR_DIRECT_BLOCKS then
    if s.i_block_nr log_block_nr ≠ 0 then .assert_failed
    else if (testfs_alloc_block_for_inode s).1 ≥ 0 then
      .ok ((testfs_alloc_block_for_inode s).1,
        { (testfs_alloc_block_for_inode s).2 with
          i_block_nr := fun i =>
            if i = log_block_nr then (testfs_alloc_block_for_inode s).1
            else (testfs_alloc_block_for_inode s).2.i_block_nr i },
        (testfs_read_block cfg s log_block_nr block).2)
    else
      .ok ((testfs_alloc_block_for_inode s).1, (testfs_alloc_block_for_inode s).2,
        (testfs_read_block cfg s log_block_nr block).2)
  else if log_block_nr - cfg.NR_DIRECT_BLOCKS < cfg.NR_INDIRECT_BLOCKS then
    allocate_indirect s (log_block_nr - cfg.NR_DIRECT_BLOCKS)
      (testfs_read_block cfg s log_block_nr block).2
  else if log_block_nr - cfg.NR_DIRECT_BLOCKS - cfg.NR_INDIRECT_BLOCKS
      < cfg.MAX_NR_DOUBLY_INDIRECT_BLOCKS then
    allocate_dindirect cfg s (log_block_nr - cfg.NR_DIRECT_BLOCKS - cfg.NR_INDIRECT_BLOCKS)
      (testfs_read_block cfg s log_block_nr block).2
  else .ok (-EFBIG, s, (testfs_read_block cfg s log_block_nr block).2)

/-- The statement `if (size > 0) in->in.i_size = MAX(in->in.i_size, start +
(off_t) n); in->i_flags |= I_FLAGS_DIRTY;` of `testfs_write_data`. -/
def advance_size (cfg : Config) (s : State) (start size n : Nat) : State :=
  { s with
    i_size := if size > 0 then max s.i_size ((start : Int) + toInt64 n) else s.i_size
    i_flags := s.i_flags ||| cfg.I_FLAGS_DIRTY }

/-- The `while (byte_written != size)` loop of `testfs_write_data`. -/
def write_loop (cfg : Config) (buf : Block) (start size : Nat) :
    Nat → State → Block → Nat → Nat → Res (Int × State)
  | 0, s, _, _, byte_written =>
    if byte_written = size then .ok (toInt32 size, advance_size cfg s start size size)
    else .out_of_fuel
  | fuel + 1, s, block, block_nr, byte_written =>
    if byte_written = size then .ok (toInt32 size, advance_size cfg s start size size)
    else
      match int_index block_nr with
      | .ok idx =>
        match testfs_allocate_block cfg s idx block with
        | .ok (ret, s1, block1) =>
          if ret < 0 then .ok (ret, advance_size cfg s1 start size byte_written)
          else if size - byte_written ≥ cfg.BLOCK_SIZE then
            write_loop cfg buf start size fuel
              (write_blocks s1 (memcpy block1 0 buf byte_written cfg.BLOCK_SIZE) ret)
              (memcpy block1 0 buf byte_written cfg.BLOCK_SIZE) (block_nr + 1)
              (byte_written + cfg.BLOCK_SIZE)
          else
            write_loop cfg buf start size fuel
              (write_blocks s1 (memcpy block1 0 buf byte_written (size - byte_written)) ret)
              (memcpy block1 0 buf byte_written (size - byte_written)) block_nr size
        | .assert_failed => .assert_failed
        | .out_of_fuel => .out_of_fuel
      | .assert_failed => .assert_failed
      | .out_of_fuel => .out_of_fuel

/-- The function `testfs_write_data`: the return value and the state on
return. `size` is a `size_t`, sums with it wrap at `2^64`. -/
def testfs_write_data (cfg : Config) (s : State) (buf : Block) (start : Nat) (size : Nat) :
    Res (Int × State) :=
  if (start % cfg.BLOCK_SIZE + size) % 18446744073709551616 > cfg.BLOCK_SIZE then
    match int_index (start / cfg.BLOCK_SIZE) with
    | .ok idx =>
      match testfs_allocate_block cfg s idx zero_block with
      | .ok (ret, s1, block1) =>
        if ret < 0 then .ok (ret, s1)
        else
          write_loop cfg buf start size (cfg.capacity + 1)
            (write_blocks s1
              (memcpy block1 (start % cfg.BLOCK_SIZE) buf 0
                (cfg.BLOCK_SIZE - start % cfg.BLOCK_SIZE)) ret)
            (memcpy block1 (start % cfg.BLOCK_SIZE) buf 0
              (cfg.BLOCK_SIZE - start % cfg.BLOCK_SIZE))
            (start / cfg.BLOCK_SIZE + 1) (cfg.BLOCK_SIZE - start % cfg.BLOCK_SIZE)
      | .assert_failed => .assert_failed
      | .out_of_fuel => .out_of_fuel
    | .assert_failed => .assert_failed
    | .out_of_fuel => .out_of_fuel
  else
    match int_index (start / cfg.BLOCK_SIZE) with
    | .ok idx =>
      match testfs_allocate_block cfg s idx zero_block with
      | .ok (ret, s1, block1) =>
        if ret < 0 then .ok (ret, advance_size cfg s1 start size size)
        else
          .ok (toInt32 size,
            advance_size cfg
              (write_blocks s1 (memcpy block1 (start % cfg.BLOCK_SIZE) buf 0 size) ret)
              start size size)
      | .assert_failed => .assert_failed
      | .out_of_fuel => .out_of_fuel
    | .assert_failed => .assert_failed
    | .out_of_fuel => .out_of_fuel

/-- Modelled from the spec: the macro `DIVROUNDUP` of `testfs.h`, the ceiling
of `a / b` for `a ≥ 0` and `b > 0`. -/
def DIVROUNDUP (a : Int) (b : Nat) : Int := (a + b - 1) / b

/-- Lines 363-368 of `testfs_free_blocks`: the loop over the direct pointers,
from index `i`, with `n` the number of direct slots left. -/
def free_direct (e_block_nr : Int) : Nat → Nat → State → State
  | 0, _, s => s
  | n + 1, i, s =>
    if (i : Int) < e_block_nr then
      if s.i_block_nr i = 0 then free_direct e_block_nr n (i + 1) s
      else
        free_direct e_block_nr n (i + 1)
          { testfs_free_block_from_inode s (s.i_block_nr i) with
            i_block_nr := fun j => if j = i then 0 else s.i_block_nr j }
    else s

/-- Lines 376-381 of `testfs_free_blocks`: the loop over the entries of the
indirect block held in `block`, from index `i`, with `n` entries left. -/
def free_indirect (e_block_nr : Int) : Nat → Nat → Block → State → State
  | 0, _, _, s => s
  | n + 1, i, block, s =>
    if (i : Int) < e_block_nr then
      if getInt block i = 0 then free_indirect e_block_nr n (i + 1) block s
      else
        free_indirect e_block_nr n (i + 1) (setInt block i 0)
          (testfs_free_block_from_inode s (getInt block i))
    else s

/-- Lines 399-404 of `testfs_free_blocks`: the inner loop over the entries of
one indirect block of the double-indirect tier; returns `deleted` and the
state. -/
def free_dindirect_inner (e_block_nr : Int) : Nat → Nat → Block → Int → State → Int × State
  | 0, _, _, deleted, s => (deleted, s)
  | n + 1, j, indirect_block, deleted, s =>
    if deleted < e_block_nr then
      free_dindirect_inner e_block_nr n (j + 1) (setInt indirect_block j 0) (deleted + 1)
        (testfs_free_block_from_inode s (getInt indirect_block j))
    else (deleted, s)

/-- Lines 394-410 of `testfs_free_blocks`: the loop over the entries of the
double-indirect block; `deleted` is an `int`. -/
def free_dindirect_outer (cfg : Config) (e_block_nr : Int) :
    Nat → Nat → Block → Int → State → State
  | 0, _, _, _, s => s
  | n + 1, i, d_indirect_block, deleted, s =>
    if deleted < e_block_nr then
      if getInt d_indirect_block i > 0 then
        free_dindirect_outer cfg e_block_nr n (i + 1) (setInt d_indirect_block i 0)
          (free_dindirect_inner e_block_nr cfg.NR_INDIRECT_BLOCKS 0
            (read_blocks s (getInt d_indirect_block i)) deleted s).1
          (testfs_free_block_from_inode
            (free_dindirect_inner e_block_nr cfg.NR_INDIRECT_BLOCKS 0
              (read_blocks s (getInt d_indirect_block i)) deleted s).2
            (getInt d_indirect_block i))
      else
        free_dindirect_outer cfg e_block_nr n (i + 1) d_indirect_block
          (toInt32 (deleted + cfg.NR_INDIRECT_BLOCKS)) s
    else s

/-- Lines 371-384 of `testfs_free_blocks`: the indirect tier; `e_block_nr` is
already reduced by `NR_DIRECT_BLOCKS`. -/
def free_indirect_tier (cfg : Config) (e_block_nr : Int) (s : State) : Res State :=
  if s.i_indirect > 0 then
    if e_block_nr > 0 then
      .ok { testfs_free_block_from_inode
              (free_indirect e_block_nr cfg.NR_INDIRECT_BLOCKS 0 (read_blocks s s.i_indirect) s)
              s.i_indirect with i_indirect := 0 }
    else .assert_failed
  else .ok s

/-- Lines 386-413 of `testfs_free_blocks`: the double-indirect tier;
`e_block_nr` is already reduced by the two lower tiers. -/
def free_dindirect_tier (cfg : Config) (e_block_nr : Int) (s : State) : State :=
  if e_block_nr > 0 then
    { testfs_free_block_from_inode
        (free_dindirect_outer cfg e_block_nr cfg.NR_INDIRECT_BLOCKS 0
          (read_blocks s s.i_dindirect) 0 s)
        s.i_dindirect with i_dindirect := 0 }
  else s

/-- The function `testfs_free_blocks`: the state on return (the return value
is the constant 0), or the assertion that fired. `e_block_nr` is an `int`: the
value assigned at line 360 and the results of the two `-=` are reduced to 32
bits. -/
def testfs_free_blocks (cfg : Config) (s : State) : Res State :=
  match free_indirect_tier cfg
      (toInt32 (toInt32 (DIVROUNDUP s.i_size cfg.BLOCK_SIZE) - cfg.NR_DIRECT_BLOCKS))
      (free_direct (toInt32 (DIVROUNDUP s.i_size cfg.BLOCK_SIZE)) cfg.NR_DIRECT_BLOCKS 0 s) with
  | .ok s1 =>
    .ok { free_dindirect_tier cfg
            (toInt32 (toInt32 (toInt32 (DIVROUNDUP s.i_size cfg.BLOCK_SIZE)
              - cfg.NR_DIRECT_BLOCKS) - cfg.NR_INDIRECT_BLOCKS))
            s1 with
          i_size := 0
          i_flags := (free_dindirect_tier cfg
            (toInt32 (toInt32 (toInt32 (DIVROUNDUP s.i_size cfg.BLOCK_SIZE)
              - cfg.NR_DIRECT_BLOCKS) - cfg.NR_INDIRECT_BLOCKS))
            s1).i_flags ||| cfg.I_FLAGS_DIRTY }
  | .assert_failed => .assert_failed
  | .out_of_fuel => .out_of_fuel

/-- An inode with no blocks and size 0, on a zeroed device, with the allocator
script `script`. -/
def empty_state (script : List Int) : State :=
  { i_size := 0, i_block_nr := fun _ => 0, i_indirect := 0, i_dindirect := 0, i_flags := 0,
    disk := fun _ => zero_block, alloc := script, freed := [] }

/-- Whether the call ended in a failed `assert`. -/
def Res.is_assert_failed {α : Type} : Res α → Bool
  | .assert_failed => true
  | _ => false

/-- The value returned by a call that returned. -/
def Res.ret {α : Type} : Res (Int × α) → Option Int
  | .ok (r, _) => some r
  | _ => none

/-- The state after `testfs_write_data`; the state before it when the call did
not return. -/
def state_after (s : State) : Res (Int × State) → State
  | .ok (_, s1) => s1
  | _ => s

/-- The state after `testfs_free_blocks`; the state before it when an
assertion fired. -/
def state_freed (s : State) : Res State → State
  | .ok s1 => s1
  | _ => s

/-- The caller's buffer after `testfs_read_data`; the buffer before it when the
call did not return. -/
def buffer_after (buf : Block) : Res (Int × Block) → Block
  | .ok (_, b) => b
  | _ => buf

/-- A caller buffer filled with the byte 65. -/
def bytes65 : Block := fun _ => 65

/-- The three-tier reference mapping: the physical block number stored for
logical index `i`, 0 for a hole. -/
def phys (cfg : Config) (s : State) (i : Nat) : Int :=
  if i < cfg.NR_DIRECT_BLOCKS then s.i_block_nr i
  else if i - cfg.NR_DIRECT_BLOCKS < cfg.NR_INDIRECT_BLOCKS then
    if s.i_indirect > 0 then getInt (s.disk s.i_indirect) (i - cfg.NR_DIRECT_BLOCKS) else 0
  else
    if s.i_dindirect > 0 then
      if getInt (s.disk s.i_dindirect)
          ((i - cfg.NR_DIRECT_BLOCKS - cfg.NR_INDIRECT_BLOCKS) / cfg.NR_INDIRECT_BLOCKS) > 0 then
        getInt
          (s.disk (getInt (s.disk s.i_dindirect)
            ((i - cfg.NR_DIRECT_BLOCKS - cfg.NR_INDIRECT_BLOCKS) / cfg.NR_INDIRECT_BLOCKS)))
          ((i - cfg.NR_DIRECT_BLOCKS - cfg.NR_INDIRECT_BLOCKS) % cfg.NR_INDIRECT_BLOCKS)
      else 0
    else 0

/-- The place of a block in the pointer structure of an inode. -/
inductive Slot where
  | direct : Nat → Slot
  | ind : Slot
  | ind_data : Nat → Slot
  | dind : Slot
  | dentry : Nat → Slot
  | dd_data : Nat → Nat → Slot
  deriving DecidableEq

/-- A pointer value stored at place `l`: 0, or a positive block number that
the ownership map `owner` assigns to `l`. -/
def slot_ok (owner : Int → Option Slot) (p : Int) (l : Slot) : Prop :=
  p = 0 ∨ (0 < p ∧ owner p = some l)

/-- Well-formed pointer structure with respect to an ownership map: every
stored pointer is 0 or a positive block owned by the place that stores it (so
no block is referenced from two places), the entries of every indirect and
double-indirect block in use are such pointers, and every non-negative reply
the allocator still has to give is a positive `int` that is owned by no place
and occurs once. -/
structure WFo (cfg : Config) (s : State) (owner : Int → Option Slot) : Prop where
  direct : ∀ j, j < cfg.NR_DIRECT_BLOCKS → slot_ok owner (s.i_block_nr j) (.direct j)
  ind : slot_ok owner s.i_indirect .ind
  ind_entries : 0 < s.i_indirect → ∀ k, k < cfg.NR_INDIRECT_BLOCKS →
    slot_ok owner (getInt (s.disk s.i_indirect) k) (.ind_data k)
  dind : slot_ok owner s.i_dindirect .dind
  dind_entries : 0 < s.i_dindirect → ∀ k, k < cfg.NR_INDIRECT_BLOCKS →
    slot_ok owner (getInt (s.disk s.i_dindirect) k) (.dentry k)
  dd_entries : 0 < s.i_dindirect → ∀ k, k < cfg.NR_INDIRECT_BLOCKS →
    0 < getInt (s.disk s.i_dindirect) k → ∀ m, m < cfg.NR_INDIRECT_BLOCKS →
    slot_ok owner (getInt (s.disk (getInt (s.disk s.i_dindirect) k)) m) (.dd_data k m)
  fresh : ∀ r, r ∈ s.alloc → 0 ≤ r → 0 < r ∧ r < 2147483648 ∧ owner r = none
  distinct : s.alloc.Pairwise (fun a b => 0 ≤ a → a ≠ b)

/-- Well-formed pointer structure: `WFo` for some ownership map. -/
def WF (cfg : Config) (s : State) : Prop := ∃ owner, WFo cfg s owner

/-- The place that holds the data block of logical index `i`. -/
def slot_of (cfg : Config) (i : Nat) : Slot :=
  if i < cfg.NR_DIRECT_BLOCKS then .direct i
  else if i - cfg.NR_DIRECT_BLOCKS < cfg.NR_INDIRECT_BLOCKS then
    .ind_data (i - cfg.NR_DIRECT_BLOCKS)
  else
    .dd_data ((i - cfg.NR_DIRECT_BLOCKS - cfg.NR_INDIRECT_BLOCKS) / cfg.NR_INDIRECT_BLOCKS)
      ((i - cfg.NR_DIRECT_BLOCKS - cfg.NR_INDIRECT_BLOCKS) % cfg.NR_INDIRECT_BLOCKS)

/-- Places that hold an indirect or double-indirect block. -/
def Slot.is_meta : Slot → Bool
  | .ind => true
  | .dind => true
  | .dentry _ => true
  | _ => false

/-- The ownership map after block `r` is given to place `l`. -/
def own (owner : Int → Option Slot) (r : Int) (l : Slot) : Int → Option Slot :=
  fun b => if b = r then some l else owner b

/-- The state with the device block `q` replaced by `x`. -/
def set_disk (s : State) (q : Int) (x : Block) : State :=
  { s with disk := fun b => if b = q then x else s.disk b }

/-- The state `s1` has the inode fields of `s` and the same content in every
device block owned by a place of the inode. -/
structure Agree (s : State) (o : Int → Option Slot) (s1 : State) : Prop where
  size : s1.i_size = s.i_size
  flags : s1.i_flags = s.i_flags
  direct : s1.i_block_nr = s.i_block_nr
  ind : s1.i_indirect = s.i_indirect
  dind : s1.i_dindirect = s.i_dindirect
  disk : ∀ b l, o b = some l → s1.disk b = s.disk b

/-- The state `s1`, well formed for `o1`, extends the well-formed state `s`:
same size and flags, every owned block keeps its owner, every mapped logical
index keeps its physical block, and every data block keeps its content. -/
structure Ext (cfg : Config) (s : State) (o : Int → Option Slot) (s1 : State)
    (o1 : Int → Option Slot) : Prop where
  wf : WFo cfg s1 o1
  size : s1.i_size = s.i_size
  flags : s1.i_flags = s.i_flags
  owner : ∀ b l, o b = some l → o1 b = some l
  phys_keep : ∀ j, j < cfg.capacity → 0 < phys cfg s j → phys cfg s1 j = phys cfg s j
  data_keep : ∀ b l, o b = some l → l.is_meta = false → s1.disk b = s.disk b

/-- The state `s` is `s0` after a fresh indirect block was stored in
`i_indirect`: what a roll-back to `i_indirect = 0` has to restore. -/
structure BaseI (s0 : State) (o0 : Int → Option Slot) (s : State) (o : Int → Option Slot) :
    Prop where
  size : s.i_size = s0.i_size
  flags : s.i_flags = s0.i_flags
  direct : s.i_block_nr = s0.i_block_nr
  ind : s0.i_indirect = 0
  dind : s.i_dindirect = s0.i_dindirect
  owner : ∀ b l, o0 b = some l → o b = some l
  disk : ∀ b l, o0 b = some l → s.disk b = s0.disk b

/-- The state `s` is `s0` after a fresh double-indirect block was stored in
`i_dindirect`: what a roll-back to `i_dindirect = 0` has to restore. -/
structure BaseD (s0 : State) (o0 : Int → Option Slot) (s : State) (o : Int → Option Slot) :
    Prop where
  size : s.i_size = s0.i_size
  flags : s.i_flags = s0.i_flags
  direct : s.i_block_nr = s0.i_block_nr
  ind : s.i_indirect = s0.i_indirect
  dind : s0.i_dindirect = 0
  top : o0 s.i_dindirect = none
  owner : ∀ b l, o0 b = some l → o b = some l
  disk : ∀ b l, o0 b = some l → s.disk b = s0.disk b

/-- The first `w` bytes of `buf` are in the file from offset `start`: each of
these file offsets lies in a mapped logical block whose device block holds the
byte of `buf`. -/
def Written (cfg : Config) (s : State) (buf : Block) (start w : Nat) : Prop :=
  ∀ x, x < w →
    0 < phys cfg s ((start + x) / cfg.BLOCK_SIZE)
    ∧ s.disk (phys cfg s ((start + x) / cfg.BLOCK_SIZE)) ((start + x) % cfg.BLOCK_SIZE) = buf x

/-- The dirty flag of the inode is set. -/
def is_dirty (cfg : Config) (s : State) : Prop :=
  s.i_flags &&& cfg.I_FLAGS_DIRTY = cfg.I_FLAGS_DIRTY

/-- Outcome of a write that wrote all `size` bytes: the byte count is returned,
the bytes are in the file, and `i_size` covers them. -/
def WriteDone (cfg : Config) (s : State) (buf : Block) (start size : Nat) (r : Int)
    (s1 : State) : Prop :=
  r = (size : Int) ∧ WF cfg s1 ∧ Written cfg s1 buf start size
  ∧ s1.i_size = max s.i_size ((start : Int) + size) ∧ ∃ k, s1.alloc = s.alloc.drop k

/-- Outcome of a write that stopped at a failed allocation after `w` bytes,
with at least `bw` bytes written: the error is returned, the `w` bytes are in
the file, `i_size` covers them, and `w` ends on a block boundary. The error is
a reply of the allocator, or the allocator script was too short, or the
request runs beyond the last logical block. -/
def WriteFailed (cfg : Config) (s : State) (buf : Block) (start size bw : Nat) (r : Int)
    (s1 : State) : Prop :=
  r < 0 ∧ ∃ w, bw ≤ w ∧ w < size ∧ (start + w) % cfg.BLOCK_SIZE = 0
    ∧ s1.i_size = max s.i_size ((start : Int) + w) ∧ Written cfg s1 buf start w ∧ WF cfg s1
    ∧ (r ∈ s.alloc
      ∨ s.alloc.length < 3 * ((size - bw + cfg.BLOCK_SIZE - 1) / cfg.BLOCK_SIZE)
      ∨ (r = -EFBIG ∧ cfg.capacity * cfg.BLOCK_SIZE < start + size))
    ∧ ∃ k, s1.alloc = s.alloc.drop k

/-- A caller buffer holding 8192 bytes 65 followed by bytes 66. -/
def bytes65_66 : Block := fun i => if i < 8192 then 65 else 66

/-- The state after `testfs_allocate_block`; the state `s` when an assertion
fired. -/
def state_allocated (s : State) : Res (Int × State × Block) → State
  | .ok (_, s1, _) => s1
  | _ => s

/-- The block numbers handed out by the allocator replies `l`: the
non-negative ones. -/
def allocated (l : List Int) : List Int := l.filter (fun x => decide (0 ≤ x))

/-- The three-tier mapping in the words of the specification, with its
`== 0` tests: the direct slot; 0 or the entry of the single-indirect block;
0, 0 or the entry of the indirect block a double-indirect entry points to. It
is compared with `testfs_read_block`, which tests `> 0`. -/
def reference_mapping (cfg : Config) (s : State) (i : Nat) : Int :=
  if i < cfg.NR_DIRECT_BLOCKS then s.i_block_nr i
  else if i < cfg.NR_DIRECT_BLOCKS + cfg.NR_INDIRECT_BLOCKS then
    if s.i_indirect = 0 then 0
    else getInt (s.disk s.i_indirect) (i - cfg.NR_DIRECT_BLOCKS)
  else
    if s.i_dindirect = 0 then 0
    else if getInt (s.disk s.i_dindirect)
        ((i - cfg.NR_DIRECT_BLOCKS - cfg.NR_INDIRECT_BLOCKS) / cfg.NR_INDIRECT_BLOCKS) = 0 then 0
    else
      getInt
        (s.disk (getInt (s.disk s.i_dindirect)
          ((i - cfg.NR_DIRECT_BLOCKS - cfg.NR_INDIRECT_BLOCKS) / cfg.NR_INDIRECT_BLOCKS)))
        ((i - cfg.NR_DIRECT_BLOCKS - cfg.NR_INDIRECT_BLOCKS) % cfg.NR_INDIRECT_BLOCKS)

/-- The loop variables of the `while (byte_written != size)` loop of
`testfs_write_data` (lines 305-326) after `n` iterations that allocated and
copied their block: the inode state, the scratch `block`, `block_nr` and
`byte_written`. The value is `none` when the loop has ended before: all bytes
written, a failed allocation, or a failed assertion. -/
def write_steps (cfg : Config) (buf : Block) (start size : Nat) :
    Nat → State → Block → Nat → Nat → Option (State × Block × Nat × Nat)
  | 0, s, block, block_nr, byte_written => some (s, block, block_nr, byte_written)
  | n + 1, s, block, block_nr, byte_written =>
    if byte_written = size then none
    else
      match int_index block_nr with
      | .ok idx =>
        match testfs_allocate_block cfg s idx block with
        | .ok (ret, s1, block1) =>
          if ret < 0 then none
          else if size - byte_written ≥ cfg.BLOCK_SIZE then
            write_steps cfg buf start size n
              (write_blocks s1 (memcpy block1 0 buf byte_written cfg.BLOCK_SIZE) ret)
              (memcpy block1 0 buf byte_written cfg.BLOCK_SIZE) (block_nr + 1)
              (byte_written + cfg.BLOCK_SIZE)
          else
            write_steps cfg buf start size n
              (write_blocks s1 (memcpy block1 0 buf byte_written (size - byte_written)) ret)
              (memcpy block1 0 buf byte_written (size - byte_written)) block_nr size
        | .assert_failed => none
        | .out_of_fuel => none
      | .assert_failed => none
      | .out_of_fuel => none

/-! ## Theorems -/

/-- C9 (code evaluated at the failing input): on the testfs layout, a
zero-byte write at the first indirect-tier offset (`10 * 8192`) to an empty
inode returns 0, allocates the indirect block 5 and leaves `i_size` at 0; the
following `testfs_free_blocks` fails `assert(e_block_nr > 0)`. -/
theorem free_blocks_assert_fires :
    (testfs_write_data testfsConfig (empty_state [5, 6]) bytes65 81920 0).ret = some 0
    ∧ (state_after (empty_state [5, 6])
        (testfs_write_data testfsConfig (empty_state [5, 6]) bytes65 81920 0)).i_indirect = 5
    ∧ (state_after (empty_state [5, 6])
        (testfs_write_data testfsConfig (empty_state [5, 6]) bytes65 81920 0)).i_size = 0
    ∧ (testfs_free_blocks testfsConfig
        (state_after (empty_state [5, 6])
          (testfs_write_data testfsConfig (empty_state [5, 6]) bytes65 81920 0))).is_assert_failed
        = true := by
  decide

/-- C7 (code evaluated at the failing input): on the testfs layout, a
zero-byte write at offset 0 to an empty inode allocates direct block 5 without
advancing `i_size`; `testfs_free_blocks` then returns and leaves
`i_block_nr[0] = 5`, with nothing freed. -/
theorem free_blocks_leaves_direct_pointer :
    (testfs_write_data testfsConfig (empty_state [5]) bytes65 0 0).ret = some 0
    ∧ (testfs_free_blocks testfsConfig
        (state_after (empty_state [5])
          (testfs_write_data testfsConfig (empty_state [5]) bytes65 0 0))).is_assert_failed
        = false
    ∧ (state_freed (empty_state [5]) (testfs_free_blocks testfsConfig
        (state_after (empty_state [5])
          (testfs_write_data testfsConfig (empty_state [5]) bytes65 0 0)))).i_block_nr 0 = 5
    ∧ (state_freed (empty_state [5]) (testfs_free_blocks testfsConfig
        (state_after (empty_state [5])
          (testfs_write_data testfsConfig (empty_state [5]) bytes65 0 0)))).freed = [] := by
  decide

/-- C8 (code evaluated at the failing input): on the testfs layout, a
successful one-byte write at logical block `10 + 2048 + 1` of an empty inode
allocates the blocks 5, 6 and 7; `testfs_free_blocks` then passes block
number 0 to `testfs_free_block_from_inode` before 7, 6 and 5. -/
theorem free_blocks_frees_block_zero :
    (testfs_write_data testfsConfig (empty_state [5, 6, 7]) bytes65 16867328 1).ret = some 1
    ∧ (state_after (empty_state [5, 6, 7])
        (testfs_write_data testfsConfig (empty_state [5, 6, 7]) bytes65 16867328 1)).alloc = []
    ∧ (state_freed (empty_state [5, 6, 7]) (testfs_free_blocks testfsConfig
        (state_after (empty_state [5, 6, 7])
          (testfs_write_data testfsConfig (empty_state [5, 6, 7]) bytes65 16867328 1)))).freed
        = [0, 7, 6, 5] := by
  decide

/-- C6 (code evaluated at the failing input): on the testfs layout, a one-byte
write at offset 0 to an empty inode whose only allocation fails returns the
error and still advances `i_size` from 0 to 1, with no block mapped. -/
theorem failed_single_block_write_advances_size :
    (testfs_write_data testfsConfig (empty_state [-28]) bytes65 0 1).ret = some (-28)
    ∧ (state_after (empty_state [-28])
        (testfs_write_data testfsConfig (empty_state [-28]) bytes65 0 1)).i_size = 1
    ∧ (state_after (empty_state [-28])
        (testfs_write_data testfsConfig (empty_state [-28]) bytes65 0 1)).i_block_nr 0 = 0 := by
  decide

/-- C2 (code evaluated at the failing input): on the testfs layout, after a
one-byte write at logical block `10 + 2048 + 2048` of an empty inode (blocks
5, 6, 7 allocated), logical block `10 + 2048` is a hole inside the file, and
reading its 8192 bytes returns 8192 with byte 4 of the caller's buffer equal to
6, the low byte of the double-indirect block's second entry. -/
theorem hole_read_leaks_dindirect_block :
    (state_after (empty_state [5, 6, 7])
        (testfs_write_data testfsConfig (empty_state [5, 6, 7]) bytes65 33636352 1)).i_size
      = 33636353
    ∧ (testfs_read_block testfsConfig
        (state_after (empty_state [5, 6, 7])
          (testfs_write_data testfsConfig (empty_state [5, 6, 7]) bytes65 33636352 1))
        2058 zero_block).1 = 0
    ∧ (testfs_read_data testfsConfig
        (state_after (empty_state [5, 6, 7])
          (testfs_write_data testfsConfig (empty_state [5, 6, 7]) bytes65 33636352 1))
        zero_block 16859136 8192).ret = some 8192
    ∧ buffer_after zero_block (testfs_read_data testfsConfig
        (state_after (empty_state [5, 6, 7])
          (testfs_write_data testfsConfig (empty_state [5, 6, 7]) bytes65 33636352 1))
        zero_block 16859136 8192) 4 = 6 := by
  decide

theorem int_index_small (n : Nat) (h : n < 2147483648) : int_index n = .ok n := by
  unfold int_index
  have h1 : n % 4294967296 = n := Nat.mod_eq_of_lt (by omega)
  rw [h1, if_pos h]

theorem read_block_out_of_range (cfg : Config) (s : State) (i : Nat) (block : Block)
    (h : cfg.capacity ≤ i) : testfs_read_block cfg s i block = (-EFBIG, block) := by
  unfold Config.capacity at h
  unfold testfs_read_block
  rw [if_neg (by omega), if_neg (by omega), if_neg (by omega)]

theorem read_block_empty (cfg : Config) (script : List Int) (i : Nat) (block : Block)
    (h : i < cfg.capacity) : (testfs_read_block cfg (empty_state script) i block).1 = 0 := by
  unfold Config.capacity at h
  unfold testfs_read_block
  by_cases h1 : i < cfg.NR_DIRECT_BLOCKS
  · simp [h1, read_block_finish, empty_state]
  · by_cases h2 : i - cfg.NR_DIRECT_BLOCKS < cfg.NR_INDIRECT_BLOCKS
    · simp [h1, h2, empty_state]
    · have h3 : i - cfg.NR_DIRECT_BLOCKS - cfg.NR_INDIRECT_BLOCKS
          < cfg.MAX_NR_DOUBLY_INDIRECT_BLOCKS := by omega
      simp [h1, h2, h3, empty_state]

/-- On a file that is all holes, a read loop that cannot reach `size` before
the end of the logical range stops at the range check with `-EFBIG`, having
kept the bytes of the caller's buffer below `byte_read`. -/
theorem read_loop_runs_to_range_check (cfg : Config) (hcfg : cfg.ok) (s : State) (size : Nat)
    (hholes : ∀ i, i < cfg.capacity → ∀ b, (testfs_read_block cfg s i b).1 = 0) :
    ∀ (n fuel : Nat) (block : Block) (block_nr byte_read : Nat) (buf : Block),
      block_nr + n = cfg.capacity → n < fuel →
      byte_read + (n + 1) * cfg.BLOCK_SIZE ≤ size →
      ∃ out, read_loop cfg s size fuel block block_nr byte_read buf = .ok (-EFBIG, out)
        ∧ ∀ j, j < byte_read → out j = buf j := by
  intro n
  induction n with
  | zero =>
    intro fuel block block_nr byte_read buf hb hf hs
    obtain ⟨f, rfl⟩ : ∃ f, fuel = f + 1 := ⟨fuel - 1, by omega⟩
    have hbs := hcfg.bs_pos
    have hne : byte_read ≠ size := by
      simp only [Nat.zero_add, Nat.one_mul] at hs
      omega
    have hidx : int_index block_nr = .ok block_nr :=
      int_index_small _ (by have := hcfg.cap_int; omega)
    have hrb := read_block_out_of_range cfg s block_nr block (by omega)
    refine ⟨buf, ?_, fun _ _ => rfl⟩
    rw [read_loop, if_neg hne, hidx]
    simp [hrb, EFBIG]
  | succ n ih =>
    intro fuel block block_nr byte_read buf hb hf hs
    obtain ⟨f, rfl⟩ : ∃ f, fuel = f + 1 := ⟨fuel - 1, by omega⟩
    have hbs := hcfg.bs_pos
    have hmul : (n + 1 + 1) * cfg.BLOCK_SIZE = (n + 1) * cfg.BLOCK_SIZE + cfg.BLOCK_SIZE := by
      ring
    have hne : byte_read ≠ size := by
      have : 0 < (n + 1) * cfg.BLOCK_SIZE := Nat.mul_pos (by omega) hbs
      omega
    have hidx : int_index block_nr = .ok block_nr :=
      int_index_small _ (by have := hcfg.cap_int; omega)
    have hrb := hholes block_nr (by omega) block
    have hge : size - byte_read ≥ cfg.BLOCK_SIZE := by
      have : 0 < (n + 1) * cfg.BLOCK_SIZE := Nat.mul_pos (by omega) hbs
      omega
    obtain ⟨out, hout, hkeep⟩ := ih f (testfs_read_block cfg s block_nr block).2 (block_nr + 1)
      (byte_read + cfg.BLOCK_SIZE)
      (memcpy buf byte_read (testfs_read_block cfg s block_nr block).2 0 cfg.BLOCK_SIZE)
      (by omega) (by omega) (by omega)
    refine ⟨out, ?_, ?_⟩
    · rw [read_loop, if_neg hne, hidx]
      simp only [hrb, lt_self_iff_false, if_false, if_pos hge]
      exact hout
    · intro j hj
      rw [hkeep j (by omega)]
      simp [memcpy]
      intro h1
      omega

/-- C3 (code evaluated at the failing input): on the testfs layout, with
`i_size = 0`, a one-byte read at offset 8192 (beyond the end of the file)
returns `-EFBIG` instead of 0, and the byte at position 0 of the caller's
buffer, 65 before the call, is 0 after it. -/
theorem read_past_eof_not_clamped :
    (testfs_read_data testfsConfig (empty_state []) bytes65 8192 1).ret = some (-EFBIG)
    ∧ buffer_after bytes65 (testfs_read_data testfsConfig (empty_state []) bytes65 8192 1) 0
        = 0 := by
  have hcfg : testfsConfig.ok := by
    constructor <;> decide
  have hclamp : read_clamp (empty_state []) 8192 1 = 18446744073709543424 := by decide
  have hidx : int_index (8192 / testfsConfig.BLOCK_SIZE) = .ok 1 := int_index_small 1 (by decide)
  obtain ⟨out, hout, hkeep⟩ := read_loop_runs_to_range_check testfsConfig hcfg (empty_state [])
    18446744073709543424 (fun i hi b => read_block_empty testfsConfig [] i b hi)
    (testfsConfig.capacity - 2) (testfsConfig.capacity + 1)
    (testfs_read_block testfsConfig (empty_state []) 1 zero_block).2 2 8192
    (memcpy bytes65 0 (testfs_read_block testfsConfig (empty_state []) 1 zero_block).2 0 8192)
    (by decide) (by decide) (by decide)
  have hrun : testfs_read_data testfsConfig (empty_state []) bytes65 8192 1
      = .ok (-EFBIG, out) := by
    unfold testfs_read_data
    rw [hclamp, hidx]
    rw [if_pos (by decide)]
    exact hout
  rw [hrun]
  refine ⟨rfl, ?_⟩
  show out 0 = 0
  rw [hkeep 0 (by decide)]
  decide

theorem alloc_ret_source (s : State) :
    (testfs_alloc_block_for_inode s).1 = -ENOSPC ∨ (testfs_alloc_block_for_inode s).1 ∈ s.alloc := by
  unfold testfs_alloc_block_for_inode
  cases h : s.alloc with
  | nil => simp
  | cons r rest =>
    by_cases hr : r < 0 <;> simp [hr]

theorem alloc_rest_subset (s : State) (x : Int)
    (h : x ∈ (testfs_alloc_block_for_inode s).2.alloc) : x ∈ s.alloc := by
  unfold testfs_alloc_block_for_inode at h
  cases hs : s.alloc with
  | nil => simp [hs] at h
  | cons r rest =>
    rw [hs] at h
    by_cases hr : r < 0 <;> simp [hr] at h <;> simp [h]

theorem read_block_finish_fst (s : State) (v : Int) : (read_block_finish s v).1 = v := by
  unfold read_block_finish
  split <;> rfl

theorem allocate_indirect_data_ret (s : State) (l : Nat) (ind : Block) (fl : Bool)
    (block : Block) (r : Int) (h : (allocate_indirect_data s l ind fl block).ret = some r) :
    r = -ENOSPC ∨ r ∈ s.alloc := by
  unfold allocate_indirect_data at h
  have ha := alloc_ret_source s
  split at h
  · simp [Res.ret] at h
  · split at h
    · simp only [Res.ret, Option.some.injEq] at h
      rw [← h]; exact ha
    · split at h <;>
      · simp only [Res.ret, Option.some.injEq] at h
        rw [← h]; exact ha

theorem allocate_indirect_ret (s : State) (l : Nat) (block : Block) (r : Int)
    (h : (allocate_indirect s l block).ret = some r) : r = -ENOSPC ∨ r ∈ s.alloc := by
  unfold allocate_indirect at h
  have ha := alloc_ret_source s
  split at h
  · split at h
    · simp only [Res.ret, Option.some.injEq] at h
      rw [← h]; exact ha
    · rcases allocate_indirect_data_ret _ _ _ _ _ _ h with h1 | h1
      · exact Or.inl h1
      · exact Or.inr (alloc_rest_subset s r h1)
  · exact allocate_indirect_data_ret _ _ _ _ _ _ h

theorem allocate_dindirect_data_ret (cfg : Config) (s : State) (l : Nat) (d ind : Block)
    (f1 f2 : Bool) (block : Block) (r : Int)
    (h : (allocate_dindirect_data cfg s l d ind f1 f2 block).ret = some r) :
    r = -ENOSPC ∨ r ∈ s.alloc := by
  unfold allocate_dindirect_data at h
  have ha := alloc_ret_source s
  split at h
  · simp [Res.ret] at h
  · split at h
    · split at h <;>
      · simp only [Res.ret, Option.some.injEq] at h
        rw [← h]; exact ha
    · simp only [Res.ret, Option.some.injEq] at h
      rw [← h]; exact ha

theorem allocate_dindirect_entry_ret (cfg : Config) (s : State) (l : Nat) (d : Block)
    (f1 : Bool) (block : Block) (r : Int)
    (h : (allocate_dindirect_entry cfg s l d f1 block).ret = some r) :
    r = -ENOSPC ∨ r ∈ s.alloc := by
  unfold allocate_dindirect_entry at h
  have ha := alloc_ret_source s
  split at h
  · split at h
    · split at h <;>
      · simp only [Res.ret, Option.some.injEq] at h
        rw [← h]; exact ha
    · rcases allocate_dindirect_data_ret _ _ _ _ _ _ _ _ _ h with h1 | h1
      · exact Or.inl h1
      · exact Or.inr (alloc_rest_subset s r h1)
  · exact allocate_dindirect_data_ret _ _ _ _ _ _ _ _ _ h

theorem allocate_dindirect_ret (cfg : Config) (s : State) (l : Nat) (block : Block) (r : Int)
    (h : (allocate_dindirect cfg s l block).ret = some r) : r = -ENOSPC ∨ r ∈ s.alloc := by
  unfold allocate_dindirect at h
  have ha := alloc_ret_source s
  split at h
  · split at h
    · simp only [Res.ret, Option.some.injEq] at h
      rw [← h]; exact ha
    · rcases allocate_dindirect_entry_ret _ _ _ _ _ _ _ h with h1 | h1
      · exact Or.inl h1
      · exact Or.inr (alloc_rest_subset s r h1)
  · exact allocate_dindirect_entry_ret _ _ _ _ _ _ _ h

/-- The value returned by `testfs_allocate_block` is the value returned by its
call of `testfs_read_block`, a reply of the allocator, or `-EFBIG` from the
range check. -/
theorem allocate_block_ret (cfg : Config) (s : State) (i : Nat) (block : Block) (r : Int)
    (h : (testfs_allocate_block cfg s i block).ret = some r) :
    r = (testfs_read_block cfg s i block).1 ∨ (r = -ENOSPC ∨ r ∈ s.alloc)
      ∨ (cfg.capacity ≤ i ∧ r = -EFBIG) := by
  unfold testfs_allocate_block at h
  have ha := alloc_ret_source s
  split at h
  · simp only [Res.ret, Option.some.injEq] at h
    exact Or.inl h.symm
  · split at h
    · split at h
      · simp [Res.ret] at h
      · split at h <;>
        · simp only [Res.ret, Option.some.injEq] at h
          rw [← h]; exact Or.inr (Or.inl ha)
    · split at h
      · exact Or.inr (Or.inl (allocate_indirect_ret _ _ _ _ h))
      · split at h
        · exact Or.inr (Or.inl (allocate_dindirect_ret _ _ _ _ _ h))
        · simp only [Res.ret, Option.some.injEq] at h
          refine Or.inr (Or.inr ⟨?_, h.symm⟩)
          unfold Config.capacity
          omega

theorem allocate_block_out_of_range (cfg : Config) (s : State) (i : Nat) (block : Block)
    (h : cfg.capacity ≤ i) : testfs_allocate_block cfg s i block = .ok (-EFBIG, s, block) := by
  have hrb := read_block_out_of_range cfg s i block h
  have hne : (-EFBIG, block).1 ≠ 0 := by
    show -EFBIG ≠ 0
    decide
  unfold testfs_allocate_block
  rw [hrb, if_pos hne]

/-- C10: for a logical index at or beyond `NR_DIRECT_BLOCKS +
NR_INDIRECT_BLOCKS + MAX_NR_DOUBLY_INDIRECT_BLOCKS`, `testfs_read_block`
returns `-EFBIG` with the scratch buffer unchanged, and
`testfs_allocate_block` returns `-EFBIG` with the state (inode fields, device,
allocator script, free log) and the scratch buffer unchanged. For an index
below the bound the range check is not what answers: a `-EFBIG` from
`testfs_read_block` is a stored pointer of the tier of the index, and a
`-EFBIG` from `testfs_allocate_block` is that value or a reply of the external
allocator. -/
theorem out_of_range_index (cfg : Config) (s : State) (i : Nat) (block : Block) :
    (cfg.capacity ≤ i →
      testfs_read_block cfg s i block = (-EFBIG, block)
      ∧ testfs_allocate_block cfg s i block = .ok (-EFBIG, s, block))
    ∧ (i < cfg.capacity →
      ((testfs_read_block cfg s i block).1 = -EFBIG →
        s.i_block_nr i = -EFBIG
        ∨ getInt (read_blocks s s.i_indirect) (i - cfg.NR_DIRECT_BLOCKS) = -EFBIG
        ∨ getInt
            (read_blocks s (getInt (read_blocks s s.i_dindirect)
              ((i - cfg.NR_DIRECT_BLOCKS - cfg.NR_INDIRECT_BLOCKS) / cfg.NR_INDIRECT_BLOCKS)))
            ((i - cfg.NR_DIRECT_BLOCKS - cfg.NR_INDIRECT_BLOCKS) % cfg.NR_INDIRECT_BLOCKS)
          = -EFBIG)
      ∧ ((testfs_allocate_block cfg s i block).ret = some (-EFBIG) →
        (testfs_read_block cfg s i block).1 = -EFBIG ∨ -EFBIG ∈ s.alloc)) := by
  refine ⟨fun h => ?_, fun h => ⟨fun hr => ?_, fun hr => ?_⟩⟩
  · exact ⟨read_block_out_of_range cfg s i block h, allocate_block_out_of_range cfg s i block h⟩
  · unfold testfs_read_block at hr
    split at hr
    · rw [read_block_finish_fst] at hr
      exact Or.inl hr
    · split at hr
      · split at hr
        · rw [read_block_finish_fst] at hr
          exact Or.inr (Or.inl hr)
        · simp [EFBIG] at hr
      · split at hr
        · split at hr
          · split at hr
            · rw [read_block_finish_fst] at hr
              exact Or.inr (Or.inr hr)
            · simp [EFBIG] at hr
          · simp [EFBIG] at hr
        · unfold Config.capacity at h
          omega
  · rcases allocate_block_ret cfg s i block _ hr with h1 | h1 | h1
    · exact Or.inl h1.symm
    · rcases h1 with h1 | h1
      · simp [EFBIG, ENOSPC] at h1
      · exact Or.inr h1
    · omega

/-- Witness of `out_of_range_index` on the testfs layout: index 4196362 is
out of range, index 0 is not. -/
theorem out_of_range_index_witness :
    (testfs_read_block testfsConfig (empty_state [5]) 4196362 bytes65 = (-EFBIG, bytes65)
      ∧ testfs_allocate_block testfsConfig (empty_state [5]) 4196362 bytes65
        = .ok (-EFBIG, empty_state [5], bytes65))
    ∧ ((testfs_allocate_block testfsConfig (empty_state [5]) 0 bytes65).ret = some (-EFBIG) →
        (testfs_read_block testfsConfig (empty_state [5]) 0 bytes65).1 = -EFBIG
          ∨ -EFBIG ∈ (empty_state [5]).alloc) :=
  ⟨(out_of_range_index testfsConfig (empty_state [5]) 4196362 bytes65).1 (by decide),
    ((out_of_range_index testfsConfig (empty_state [5]) 0 bytes65).2 (by decide)).2⟩

@[simp] theorem alloc_i_size (s : State) :
    (testfs_alloc_block_for_inode s).2.i_size = s.i_size := by
  unfold testfs_alloc_block_for_inode
  split
  · rfl
  · split <;> rfl

@[simp] theorem alloc_i_flags (s : State) :
    (testfs_alloc_block_for_inode s).2.i_flags = s.i_flags := by
  unfold testfs_alloc_block_for_inode
  split
  · rfl
  · split <;> rfl

@[simp] theorem alloc_i_block_nr (s : State) :
    (testfs_alloc_block_for_inode s).2.i_block_nr = s.i_block_nr := by
  unfold testfs_alloc_block_for_inode
  split
  · rfl
  · split <;> rfl

@[simp] theorem alloc_i_indirect (s : State) :
    (testfs_alloc_block_for_inode s).2.i_indirect = s.i_indirect := by
  unfold testfs_alloc_block_for_inode
  split
  · rfl
  · split <;> rfl

@[simp] theorem alloc_i_dindirect (s : State) :
    (testfs_alloc_block_for_inode s).2.i_dindirect = s.i_dindirect := by
  unfold testfs_alloc_block_for_inode
  split
  · rfl
  · split <;> rfl

@[simp] theorem alloc_freed (s : State) :
    (testfs_alloc_block_for_inode s).2.freed = s.freed := by
  unfold testfs_alloc_block_for_inode
  split
  · rfl
  · split <;> rfl


theorem toInt32_small (n : Int) (h0 : -2147483648 ≤ n) (h1 : n < 2147483648) : toInt32 n = n := by
  unfold toInt32
  omega

theorem getInt_zero_block (k : Nat) : getInt zero_block k = 0 := by
  simp [getInt, zero_block, toInt32]

theorem getInt_setInt_same (block : Block) (k : Nat) (v : Int) (h0 : 0 ≤ v)
    (h1 : v < 2147483648) : getInt (setInt block k v) k = v := by
  unfold getInt setInt
  have e1 : (4 * k + 1 = 4 * k) = False := by simp
  have e2 : (4 * k + 2 = 4 * k) = False := by simp
  have e3 : (4 * k + 3 = 4 * k) = False := by simp
  have e4 : (4 * k + 2 = 4 * k + 1) = False := by simp
  have e5 : (4 * k + 3 = 4 * k + 1) = False := by simp
  have e6 : (4 * k + 3 = 4 * k + 2) = False := by simp
  simp only [if_true, e1, e2, e3, e4, e5, e6, if_false]
  obtain ⟨u, rfl⟩ : ∃ u : Nat, v = (u : Int) := ⟨v.toNat, by omega⟩
  have hu : ((u : Int) % 4294967296).toNat = u := by omega
  rw [hu]
  rw [toInt32_small _ (by omega) (by omega)]
  omega

theorem getInt_setInt_other (block : Block) (k j : Nat) (v : Int) (h : j ≠ k) :
    getInt (setInt block k v) j = getInt block j := by
  unfold getInt setInt
  have e0 : (4 * j = 4 * k) = False := by simp; omega
  have e1 : (4 * j = 4 * k + 1) = False := by simp; omega
  have e2 : (4 * j = 4 * k + 2) = False := by simp; omega
  have e3 : (4 * j = 4 * k + 3) = False := by simp; omega
  have f0 : (4 * j + 1 = 4 * k) = False := by simp; omega
  have f1 : (4 * j + 1 = 4 * k + 1) = False := by simp; omega
  have f2 : (4 * j + 1 = 4 * k + 2) = False := by simp; omega
  have f3 : (4 * j + 1 = 4 * k + 3) = False := by simp; omega
  have g0 : (4 * j + 2 = 4 * k) = False := by simp; omega
  have g1 : (4 * j + 2 = 4 * k + 1) = False := by simp; omega
  have g2 : (4 * j + 2 = 4 * k + 2) = False := by simp; omega
  have g3 : (4 * j + 2 = 4 * k + 3) = False := by simp; omega
  have h0 : (4 * j + 3 = 4 * k) = False := by simp; omega
  have h1 : (4 * j + 3 = 4 * k + 1) = False := by simp; omega
  have h2 : (4 * j + 3 = 4 * k + 2) = False := by simp; omega
  have h3 : (4 * j + 3 = 4 * k + 3) = False := by simp; omega
  simp only [e0, e1, e2, e3, f0, f1, f2, f3, g0, g1, g2, g3, h0, h1, h2, h3, if_false]

/-- The value returned by `testfs_read_block` for an index in range is the
reference mapping `phys`, whatever the scratch buffer holds. -/
theorem read_block_fst (cfg : Config) (s : State) (i : Nat) (block : Block)
    (h : i < cfg.capacity) : (testfs_read_block cfg s i block).1 = phys cfg s i := by
  unfold Config.capacity at h
  unfold testfs_read_block phys read_blocks
  by_cases h1 : i < cfg.NR_DIRECT_BLOCKS
  · simp only [h1, if_true, read_block_finish_fst]
  · by_cases h2 : i - cfg.NR_DIRECT_BLOCKS < cfg.NR_INDIRECT_BLOCKS
    · simp only [h1, h2, if_true, if_false]
      split
      · rw [read_block_finish_fst]
      · rfl
    · have h3 : i - cfg.NR_DIRECT_BLOCKS - cfg.NR_INDIRECT_BLOCKS
          < cfg.MAX_NR_DOUBLY_INDIRECT_BLOCKS := by omega
      simp only [h1, h2, h3, if_true, if_false]
      split
      · split
        · rw [read_block_finish_fst]
        · rfl
      · rfl

theorem slot_ok_nonneg {o : Int → Option Slot} {p : Int} {l : Slot} (h : slot_ok o p l) :
    0 ≤ p := by
  rcases h with h | h
  · omega
  · omega

theorem slot_ok_pos {o : Int → Option Slot} {p : Int} {l : Slot} (h : slot_ok o p l)
    (hp : 0 < p) : o p = some l := by
  rcases h with h | h
  · omega
  · exact h.2

theorem ne_of_owner {o : Int → Option Slot} {a b : Int} {l1 l2 : Slot}
    (ha : o a = some l1) (hb : o b = some l2) (hne : l1 ≠ l2) : a ≠ b := by
  intro hab
  rw [hab, hb] at ha
  exact hne (Option.some.inj ha).symm

theorem ne_of_unowned {o : Int → Option Slot} {a r : Int} {l : Slot}
    (ha : o a = some l) (hr : o r = none) : a ≠ r := by
  intro hab
  rw [hab, hr] at ha
  exact absurd ha (by simp)

theorem slot_ok_own {o : Int → Option Slot} {p : Int} {l : Slot} (h : slot_ok o p l)
    (r : Int) (l1 : Slot) (hr : o r = none) : slot_ok (own o r l1) p l := by
  rcases h with h | h
  · exact Or.inl h
  · refine Or.inr ⟨h.1, ?_⟩
    unfold own
    rw [if_neg (ne_of_unowned h.2 hr)]
    exact h.2

theorem slot_ok_new (o : Int → Option Slot) (r : Int) (l : Slot) (hr : 0 < r) :
    slot_ok (own o r l) r l := by
  refine Or.inr ⟨hr, ?_⟩
  unfold own
  rw [if_pos rfl]

theorem slot_ok_zero (o : Int → Option Slot) (l : Slot) : slot_ok o 0 l := Or.inl rfl

@[simp] theorem set_disk_i_size (s : State) (q : Int) (x : Block) :
    (set_disk s q x).i_size = s.i_size := rfl

@[simp] theorem set_disk_i_flags (s : State) (q : Int) (x : Block) :
    (set_disk s q x).i_flags = s.i_flags := rfl

@[simp] theorem set_disk_i_block_nr (s : State) (q : Int) (x : Block) :
    (set_disk s q x).i_block_nr = s.i_block_nr := rfl

@[simp] theorem set_disk_i_indirect (s : State) (q : Int) (x : Block) :
    (set_disk s q x).i_indirect = s.i_indirect := rfl

@[simp] theorem set_disk_i_dindirect (s : State) (q : Int) (x : Block) :
    (set_disk s q x).i_dindirect = s.i_dindirect := rfl

@[simp] theorem set_disk_alloc (s : State) (q : Int) (x : Block) :
    (set_disk s q x).alloc = s.alloc := rfl

@[simp] theorem set_disk_freed (s : State) (q : Int) (x : Block) :
    (set_disk s q x).freed = s.freed := rfl

theorem set_disk_same (s : State) (q : Int) (x : Block) : (set_disk s q x).disk q = x := by
  simp [set_disk]

theorem set_disk_other (s : State) (q b : Int) (x : Block) (h : b ≠ q) :
    (set_disk s q x).disk b = s.disk b := by
  simp [set_disk, h]

theorem write_blocks_eq (s : State) (x : Block) (q : Int) : write_blocks s x q = set_disk s q x :=
  rfl

/-- Replacing a device block that is not an indirect or double-indirect block
of the inode keeps the pointer structure well formed. -/
theorem WFo_set_disk {cfg : Config} {s : State} {o : Int → Option Slot} (h : WFo cfg s o)
    (q : Int) (x : Block) (hq : ∀ l, o q = some l → l.is_meta = false) :
    WFo cfg (set_disk s q x) o := by
  have hind : 0 < s.i_indirect → s.i_indirect ≠ q := by
    intro hp hq1
    have := hq _ (hq1 ▸ slot_ok_pos h.ind hp)
    simp [Slot.is_meta] at this
  have hdind : 0 < s.i_dindirect → s.i_dindirect ≠ q := by
    intro hp hq1
    have := hq _ (hq1 ▸ slot_ok_pos h.dind hp)
    simp [Slot.is_meta] at this
  have hde : 0 < s.i_dindirect → ∀ k, k < cfg.NR_INDIRECT_BLOCKS →
      0 < getInt (s.disk s.i_dindirect) k → getInt (s.disk s.i_dindirect) k ≠ q := by
    intro hp k hk he hq1
    have := hq _ (hq1 ▸ slot_ok_pos (h.dind_entries hp k hk) he)
    simp [Slot.is_meta] at this
  constructor
  · exact h.direct
  · exact h.ind
  · intro hp k hk
    have hp1 : 0 < s.i_indirect := hp
    show slot_ok o (getInt ((set_disk s q x).disk s.i_indirect) k) _
    rw [set_disk_other _ _ _ _ (hind hp1)]
    exact h.ind_entries hp1 k hk
  · exact h.dind
  · intro hp k hk
    have hp1 : 0 < s.i_dindirect := hp
    show slot_ok o (getInt ((set_disk s q x).disk s.i_dindirect) k) _
    rw [set_disk_other _ _ _ _ (hdind hp1)]
    exact h.dind_entries hp1 k hk
  · intro hp k hk he m hm
    have hp1 : 0 < s.i_dindirect := hp
    have he1 : 0 < getInt ((set_disk s q x).disk s.i_dindirect) k := he
    rw [set_disk_other _ _ _ _ (hdind hp1)] at he1
    show slot_ok o (getInt ((set_disk s q x).disk
      (getInt ((set_disk s q x).disk s.i_dindirect) k)) m) _
    rw [set_disk_other _ _ _ _ (hdind hp1), set_disk_other _ _ _ _ (hde hp1 k hk he1)]
    exact h.dd_entries hp1 k hk he1 m hm
  · exact h.fresh
  · exact h.distinct

/-- Replacing a device block that is not an indirect or double-indirect block
of the inode keeps the mapping of every logical index. -/
theorem phys_set_disk {cfg : Config} (hcfg : cfg.ok) {s : State} {o : Int → Option Slot}
    (h : WFo cfg s o) (q : Int) (x : Block) (hq : ∀ l, o q = some l → l.is_meta = false)
    (j : Nat) (hj : j < cfg.capacity) : phys cfg (set_disk s q x) j = phys cfg s j := by
  have hind : 0 < s.i_indirect → s.i_indirect ≠ q := by
    intro hp hq1
    have := hq _ (hq1 ▸ slot_ok_pos h.ind hp)
    simp [Slot.is_meta] at this
  have hdind : 0 < s.i_dindirect → s.i_dindirect ≠ q := by
    intro hp hq1
    have := hq _ (hq1 ▸ slot_ok_pos h.dind hp)
    simp [Slot.is_meta] at this
  have hde : 0 < s.i_dindirect → ∀ k, k < cfg.NR_INDIRECT_BLOCKS →
      0 < getInt (s.disk s.i_dindirect) k → getInt (s.disk s.i_dindirect) k ≠ q := by
    intro hp k hk he hq1
    have := hq _ (hq1 ▸ slot_ok_pos (h.dind_entries hp k hk) he)
    simp [Slot.is_meta] at this
  unfold phys
  simp only [set_disk_i_block_nr, set_disk_i_indirect, set_disk_i_dindirect]
  by_cases h1 : j < cfg.NR_DIRECT_BLOCKS
  · simp only [h1, if_true]
  · by_cases h2 : j - cfg.NR_DIRECT_BLOCKS < cfg.NR_INDIRECT_BLOCKS
    · simp only [h1, h2, if_true, if_false]
      by_cases hp : s.i_indirect > 0
      · simp only [hp, if_true]
        rw [set_disk_other _ _ _ _ (hind hp)]
      · simp only [hp, if_false]
    · simp only [h1, h2, if_false]
      by_cases hp : s.i_dindirect > 0
      · simp only [hp, if_true]
        rw [set_disk_other _ _ _ _ (hdind hp)]
        have hk : (j - cfg.NR_DIRECT_BLOCKS - cfg.NR_INDIRECT_BLOCKS) / cfg.NR_INDIRECT_BLOCKS
            < cfg.NR_INDIRECT_BLOCKS := by
          rw [Nat.div_lt_iff_lt_mul hcfg.ind_pos]
          have := hcfg.dbl_fit
          unfold Config.capacity at hj
          omega
        by_cases he : getInt (s.disk s.i_dindirect)
            ((j - cfg.NR_DIRECT_BLOCKS - cfg.NR_INDIRECT_BLOCKS) / cfg.NR_INDIRECT_BLOCKS) > 0
        · simp only [he, if_true]
          rw [set_disk_other _ _ _ _ (hde hp _ hk he)]
        · simp only [he, if_false]
      · simp only [hp, if_false]

theorem dentry_index_lt {cfg : Config} (hcfg : cfg.ok) {j : Nat} (hj : j < cfg.capacity) :
    (j - cfg.NR_DIRECT_BLOCKS - cfg.NR_INDIRECT_BLOCKS) / cfg.NR_INDIRECT_BLOCKS
      < cfg.NR_INDIRECT_BLOCKS := by
  rw [Nat.div_lt_iff_lt_mul hcfg.ind_pos]
  have := hcfg.dbl_fit
  have := Nat.mul_pos hcfg.ind_pos hcfg.ind_pos
  unfold Config.capacity at hj
  omega

/-- A mapped logical index maps to a block owned by the data place of that
index. -/
theorem phys_owner {cfg : Config} (hcfg : cfg.ok) {s : State} {o : Int → Option Slot}
    (h : WFo cfg s o) (j : Nat) (hj : j < cfg.capacity) (hp : 0 < phys cfg s j) :
    o (phys cfg s j) = some (slot_of cfg j) := by
  unfold phys at hp ⊢
  unfold slot_of
  by_cases h1 : j < cfg.NR_DIRECT_BLOCKS
  · simp only [h1, if_true] at hp ⊢
    exact slot_ok_pos (h.direct j h1) hp
  · by_cases h2 : j - cfg.NR_DIRECT_BLOCKS < cfg.NR_INDIRECT_BLOCKS
    · simp only [h1, h2, if_true, if_false] at hp ⊢
      by_cases hi : s.i_indirect > 0
      · simp only [hi, if_true] at hp ⊢
        exact slot_ok_pos (h.ind_entries hi _ h2) hp
      · simp only [hi, if_false] at hp
        omega
    · simp only [h1, h2, if_false] at hp ⊢
      have hk := dentry_index_lt hcfg hj
      have hm : (j - cfg.NR_DIRECT_BLOCKS - cfg.NR_INDIRECT_BLOCKS) % cfg.NR_INDIRECT_BLOCKS
          < cfg.NR_INDIRECT_BLOCKS := Nat.mod_lt _ hcfg.ind_pos
      by_cases hi : s.i_dindirect > 0
      · simp only [hi, if_true] at hp ⊢
        by_cases he : getInt (s.disk s.i_dindirect)
            ((j - cfg.NR_DIRECT_BLOCKS - cfg.NR_INDIRECT_BLOCKS) / cfg.NR_INDIRECT_BLOCKS) > 0
        · simp only [he, if_true] at hp ⊢
          exact slot_ok_pos (h.dd_entries hi _ hk he _ hm) hp
        · simp only [he, if_false] at hp
          omega
      · simp only [hi, if_false] at hp
        omega

theorem slot_of_not_meta (cfg : Config) (j : Nat) : (slot_of cfg j).is_meta = false := by
  unfold slot_of
  split
  · rfl
  · split <;> rfl

theorem slot_of_inj {cfg : Config} (hcfg : cfg.ok) {i j : Nat}
    (h : slot_of cfg i = slot_of cfg j) : i = j := by
  have hpos := hcfg.ind_pos
  unfold slot_of at h
  by_cases h1 : i < cfg.NR_DIRECT_BLOCKS <;> by_cases h2 : j < cfg.NR_DIRECT_BLOCKS
  · simp only [h1, h2, if_true, Slot.direct.injEq] at h
    exact h
  · simp only [h1, h2, if_true, if_false] at h
    split at h <;> simp at h
  · simp only [h1, h2, if_true, if_false] at h
    split at h <;> simp at h
  · simp only [h1, h2, if_false] at h
    by_cases h3 : i - cfg.NR_DIRECT_BLOCKS < cfg.NR_INDIRECT_BLOCKS <;>
      by_cases h4 : j - cfg.NR_DIRECT_BLOCKS < cfg.NR_INDIRECT_BLOCKS
    · simp only [h3, h4, if_true, Slot.ind_data.injEq] at h
      omega
    · simp [h3, h4] at h
    · simp [h3, h4] at h
    · simp only [h3, h4, if_false, Slot.dd_data.injEq] at h
      have e1 := Nat.div_add_mod (i - cfg.NR_DIRECT_BLOCKS - cfg.NR_INDIRECT_BLOCKS)
        cfg.NR_INDIRECT_BLOCKS
      have e2 := Nat.div_add_mod (j - cfg.NR_DIRECT_BLOCKS - cfg.NR_INDIRECT_BLOCKS)
        cfg.NR_INDIRECT_BLOCKS
      rw [h.1, h.2] at e1
      omega

/-- Two different mapped logical indices have different physical blocks. -/
theorem phys_inj {cfg : Config} (hcfg : cfg.ok) {s : State} {o : Int → Option Slot}
    (h : WFo cfg s o) {i j : Nat} (hi : i < cfg.capacity) (hj : j < cfg.capacity)
    (hp : 0 < phys cfg s i) (hq : 0 < phys cfg s j) (hne : i ≠ j) :
    phys cfg s i ≠ phys cfg s j :=
  ne_of_owner (phys_owner hcfg h i hi hp) (phys_owner hcfg h j hj hq)
    (fun e => hne (slot_of_inj hcfg e))

/-- Agreement on the inode fields and on the owned blocks keeps the structure
well formed and the mapping unchanged, when the allocator script is a tail of
the previous one. -/
theorem WFo_agree {cfg : Config} {s s1 : State} {o : Int → Option Slot}
    (h : WFo cfg s o) (ha : Agree s o s1) (n : Nat) (hn : s1.alloc = s.alloc.drop n) :
    WFo cfg s1 o := by
  have hI : 0 < s.i_indirect → s1.disk s.i_indirect = s.disk s.i_indirect :=
    fun hp => ha.disk _ _ (slot_ok_pos h.ind hp)
  have hD : 0 < s.i_dindirect → s1.disk s.i_dindirect = s.disk s.i_dindirect :=
    fun hp => ha.disk _ _ (slot_ok_pos h.dind hp)
  constructor
  · intro j hj
    rw [ha.direct]
    exact h.direct j hj
  · rw [ha.ind]
    exact h.ind
  · intro hp k hk
    rw [ha.ind] at hp ⊢
    rw [hI hp]
    exact h.ind_entries hp k hk
  · rw [ha.dind]
    exact h.dind
  · intro hp k hk
    rw [ha.dind] at hp ⊢
    rw [hD hp]
    exact h.dind_entries hp k hk
  · intro hp k hk he m hm
    rw [ha.dind] at hp he ⊢
    rw [hD hp] at he ⊢
    rw [ha.disk _ _ (slot_ok_pos (h.dind_entries hp k hk) he)]
    exact h.dd_entries hp k hk he m hm
  · intro r hr
    rw [hn] at hr
    exact h.fresh r (List.mem_of_mem_drop hr)
  · rw [hn]
    exact h.distinct.sublist (List.drop_sublist n s.alloc)

theorem phys_agree {cfg : Config} (hcfg : cfg.ok) {s s1 : State} {o : Int → Option Slot}
    (h : WFo cfg s o) (ha : Agree s o s1) (j : Nat) (hj : j < cfg.capacity) :
    phys cfg s1 j = phys cfg s j := by
  have hI : 0 < s.i_indirect → s1.disk s.i_indirect = s.disk s.i_indirect :=
    fun hp => ha.disk _ _ (slot_ok_pos h.ind hp)
  have hD : 0 < s.i_dindirect → s1.disk s.i_dindirect = s.disk s.i_dindirect :=
    fun hp => ha.disk _ _ (slot_ok_pos h.dind hp)
  unfold phys
  rw [ha.direct, ha.ind, ha.dind]
  by_cases h1 : j < cfg.NR_DIRECT_BLOCKS
  · simp only [h1, if_true]
  · by_cases h2 : j - cfg.NR_DIRECT_BLOCKS < cfg.NR_INDIRECT_BLOCKS
    · simp only [h1, h2, if_true, if_false]
      by_cases hp : s.i_indirect > 0
      · simp only [hp, if_true]
        rw [hI hp]
      · simp only [hp, if_false]
    · simp only [h1, h2, if_false]
      by_cases hp : s.i_dindirect > 0
      · simp only [hp, if_true]
        rw [hD hp]
        have hk := dentry_index_lt hcfg hj
        by_cases he : getInt (s.disk s.i_dindirect)
            ((j - cfg.NR_DIRECT_BLOCKS - cfg.NR_INDIRECT_BLOCKS) / cfg.NR_INDIRECT_BLOCKS) > 0
        · simp only [he, if_true]
          rw [ha.disk _ _ (slot_ok_pos (h.dind_entries hp _ hk) he)]
        · simp only [he, if_false]
      · simp only [hp, if_false]

theorem Ext_of_agree {cfg : Config} (hcfg : cfg.ok) {s s1 : State} {o : Int → Option Slot}
    (h : WFo cfg s o) (ha : Agree s o s1) (n : Nat) (hn : s1.alloc = s.alloc.drop n) :
    Ext cfg s o s1 o :=
  { wf := WFo_agree h ha n hn
    size := ha.size
    flags := ha.flags
    owner := fun _ _ hb => hb
    phys_keep := fun j hj _ => phys_agree hcfg h ha j hj
    data_keep := fun b l hb _ => ha.disk b l hb }

theorem Ext_refl {cfg : Config} {s : State} {o : Int → Option Slot} (h : WFo cfg s o) :
    Ext cfg s o s o :=
  { wf := h, size := rfl, flags := rfl, owner := fun _ _ hb => hb
    phys_keep := fun _ _ _ => rfl, data_keep := fun _ _ _ _ => rfl }

theorem Ext_trans {cfg : Config} {s s1 s2 : State} {o o1 o2 : Int → Option Slot}
    (h1 : Ext cfg s o s1 o1) (h2 : Ext cfg s1 o1 s2 o2) : Ext cfg s o s2 o2 :=
  { wf := h2.wf
    size := h2.size.trans h1.size
    flags := h2.flags.trans h1.flags
    owner := fun b l hb => h2.owner b l (h1.owner b l hb)
    phys_keep := fun j hj hp => by
      have e1 := h1.phys_keep j hj hp
      have e2 := h2.phys_keep j hj (by rw [e1]; exact hp)
      rw [e2, e1]
    data_keep := fun b l hb hl => by
      rw [h2.data_keep b l (h1.owner b l hb) hl, h1.data_keep b l hb hl] }

/-- What a call of the external allocator does to a well-formed state. -/
theorem alloc_spec {cfg : Config} {s : State} {o : Int → Option Slot} (h : WFo cfg s o) :
    Agree s o (testfs_alloc_block_for_inode s).2
    ∧ (testfs_alloc_block_for_inode s).2.alloc = s.alloc.drop 1
    ∧ (0 ≤ (testfs_alloc_block_for_inode s).1 →
        0 < (testfs_alloc_block_for_inode s).1
        ∧ (testfs_alloc_block_for_inode s).1 < 2147483648
        ∧ o (testfs_alloc_block_for_inode s).1 = none
        ∧ (∀ x, x ∈ (testfs_alloc_block_for_inode s).2.alloc → 0 ≤ x →
            x ≠ (testfs_alloc_block_for_inode s).1)
        ∧ (testfs_alloc_block_for_inode s).2.disk (testfs_alloc_block_for_inode s).1
            = zero_block)
    ∧ (s.alloc ≠ [] → (testfs_alloc_block_for_inode s).1 ∈ s.alloc) := by
  unfold testfs_alloc_block_for_inode
  cases hs : s.alloc with
  | nil =>
    simp only [List.drop_nil, ne_eq, not_true_eq_false, false_implies, and_true]
    refine ⟨⟨rfl, rfl, rfl, rfl, rfl, fun _ _ _ => rfl⟩, hs, ?_⟩
    intro h0
    simp [ENOSPC] at h0
  | cons r rest =>
    have hfr := h.fresh r (by rw [hs]; exact List.mem_cons_self _ _)
    have hd := h.distinct
    rw [hs, List.pairwise_cons] at hd
    by_cases hr : r < 0
    · simp only [hr, if_true]
      refine ⟨⟨rfl, rfl, rfl, rfl, rfl, fun _ _ _ => rfl⟩, by simp, ?_, by simp⟩
      intro h0
      omega
    · simp only [hr, if_false]
      have hr0 : 0 ≤ r := by omega
      obtain ⟨hpos, hlt, hown⟩ := hfr hr0
      refine ⟨⟨rfl, rfl, rfl, rfl, rfl, ?_⟩, by simp, ?_, by simp⟩
      · intro b l hb
        have : b ≠ r := ne_of_unowned hb hown
        simp [this]
      · intro _
        refine ⟨hpos, hlt, hown, ?_, by simp⟩
        intro x hx _ hxr
        exact hd.1 x hx hr0 hxr.symm

/-- Giving the fresh block `r` to the empty direct slot `i`. -/
theorem link_direct {cfg : Config} {s : State} {o : Int → Option Slot}
    (h : WFo cfg s o) (r : Int) (hr : 0 < r) (ho : o r = none)
    (hn : ∀ x, x ∈ s.alloc → 0 ≤ x → x ≠ r) (i : Nat) (hi : i < cfg.NR_DIRECT_BLOCKS)
    (hz : s.i_block_nr i = 0) :
    Ext cfg s o { s with i_block_nr := fun j => if j = i then r else s.i_block_nr j }
      (own o r (.direct i))
    ∧ phys cfg { s with i_block_nr := fun j => if j = i then r else s.i_block_nr j } i = r := by
  refine ⟨?_, ?_⟩
  · constructor
    · constructor
      · intro j hj
        show slot_ok _ (if j = i then r else s.i_block_nr j) _
        by_cases hji : j = i
        · rw [if_pos hji, hji]
          exact slot_ok_new o r _ hr
        · rw [if_neg hji]
          exact slot_ok_own (h.direct j hj) r _ ho
      · exact slot_ok_own h.ind r _ ho
      · intro hp k hk
        exact slot_ok_own (h.ind_entries hp k hk) r _ ho
      · exact slot_ok_own h.dind r _ ho
      · intro hp k hk
        exact slot_ok_own (h.dind_entries hp k hk) r _ ho
      · intro hp k hk he m hm
        exact slot_ok_own (h.dd_entries hp k hk he m hm) r _ ho
      · intro x hx hx0
        obtain ⟨h1, h2, h3⟩ := h.fresh x hx hx0
        refine ⟨h1, h2, ?_⟩
        unfold own
        rw [if_neg (hn x hx hx0)]
        exact h3
      · exact h.distinct
    · rfl
    · rfl
    · intro b l hb
      unfold own
      rw [if_neg (ne_of_unowned hb ho)]
      exact hb
    · intro j hj hp
      unfold phys at hp ⊢
      by_cases h1 : j < cfg.NR_DIRECT_BLOCKS
      · simp only [h1, if_true] at hp ⊢
        have hji : j ≠ i := by
          intro e
          rw [e, hz] at hp
          omega
        rw [if_neg hji]
      · simp only [h1, if_false]
    · intro b l _ _
      rfl
  · unfold phys
    simp [hi]

theorem fresh_own {cfg : Config} {s : State} {o : Int → Option Slot} (h : WFo cfg s o)
    (r : Int) (l : Slot) (hn : ∀ x, x ∈ s.alloc → 0 ≤ x → x ≠ r) :
    ∀ x, x ∈ s.alloc → 0 ≤ x → 0 < x ∧ x < 2147483648 ∧ own o r l x = none := by
  intro x hx hx0
  obtain ⟨h1, h2, h3⟩ := h.fresh x hx hx0
  refine ⟨h1, h2, ?_⟩
  unfold own
  rw [if_neg (hn x hx hx0)]
  exact h3

theorem own_mono {o : Int → Option Slot} {r : Int} (l1 : Slot) (ho : o r = none) :
    ∀ b l, o b = some l → own o r l1 b = some l := by
  intro b l hb
  unfold own
  rw [if_neg (ne_of_unowned hb ho)]
  exact hb

/-- Making the fresh, zeroed block `r` the indirect block of an inode that has
none. -/
theorem link_ind {cfg : Config} {s : State} {o : Int → Option Slot}
    (h : WFo cfg s o) (r : Int) (hr : 0 < r) (ho : o r = none)
    (hn : ∀ x, x ∈ s.alloc → 0 ≤ x → x ≠ r) (hz : s.i_indirect = 0)
    (hzero : ∀ k, getInt (s.disk r) k = 0) :
    Ext cfg s o { s with i_indirect := r } (own o r .ind) := by
  constructor
  · constructor
    · intro j hj
      exact slot_ok_own (h.direct j hj) r _ ho
    · exact slot_ok_new o r _ hr
    · intro _ k _
      show slot_ok _ (getInt (s.disk r) k) _
      rw [hzero k]
      exact slot_ok_zero _ _
    · exact slot_ok_own h.dind r _ ho
    · intro hp k hk
      exact slot_ok_own (h.dind_entries hp k hk) r _ ho
    · intro hp k hk he m hm
      exact slot_ok_own (h.dd_entries hp k hk he m hm) r _ ho
    · exact fresh_own h r _ hn
    · exact h.distinct
  · rfl
  · rfl
  · exact own_mono _ ho
  · intro j hj hp
    unfold phys at hp ⊢
    by_cases h1 : j < cfg.NR_DIRECT_BLOCKS
    · simp only [h1, if_true]
    · by_cases h2 : j - cfg.NR_DIRECT_BLOCKS < cfg.NR_INDIRECT_BLOCKS
      · simp only [h1, h2, if_true, if_false, hz, gt_iff_lt, lt_self_iff_false] at hp
      · simp only [h1, h2, if_false]
  · intro b l _ _
    rfl

/-- Making the fresh, zeroed block `r` the double-indirect block of an inode
that has none. -/
theorem link_dind {cfg : Config} {s : State} {o : Int → Option Slot}
    (h : WFo cfg s o) (r : Int) (hr : 0 < r) (ho : o r = none)
    (hn : ∀ x, x ∈ s.alloc → 0 ≤ x → x ≠ r) (hz : s.i_dindirect = 0)
    (hzero : ∀ k, getInt (s.disk r) k = 0) :
    Ext cfg s o { s with i_dindirect := r } (own o r .dind) := by
  constructor
  · constructor
    · intro j hj
      exact slot_ok_own (h.direct j hj) r _ ho
    · exact slot_ok_own h.ind r _ ho
    · intro hp k hk
      exact slot_ok_own (h.ind_entries hp k hk) r _ ho
    · exact slot_ok_new o r _ hr
    · intro _ k _
      show slot_ok _ (getInt (s.disk r) k) _
      rw [hzero k]
      exact slot_ok_zero _ _
    · intro _ k _ he
      have he1 : 0 < getInt (s.disk r) k := he
      rw [hzero k] at he1
      omega
    · exact fresh_own h r _ hn
    · exact h.distinct
  · rfl
  · rfl
  · exact own_mono _ ho
  · intro j hj hp
    unfold phys at hp ⊢
    by_cases h1 : j < cfg.NR_DIRECT_BLOCKS
    · simp only [h1, if_true]
    · by_cases h2 : j - cfg.NR_DIRECT_BLOCKS < cfg.NR_INDIRECT_BLOCKS
      · simp only [h1, h2, if_true, if_false]
      · simp only [h1, h2, if_false, hz, gt_iff_lt, lt_self_iff_false] at hp
  · intro b l _ _
    rfl

/-- Storing the fresh block `r` in the empty entry `l` of the indirect block. -/
theorem link_ind_data {cfg : Config} (hcfg : cfg.ok) {s : State} {o : Int → Option Slot}
    (h : WFo cfg s o) (r : Int) (hr : 0 < r) (hr1 : r < 2147483648) (ho : o r = none)
    (hn : ∀ x, x ∈ s.alloc → 0 ≤ x → x ≠ r) (hp : 0 < s.i_indirect) (l : Nat)
    (hz : getInt (s.disk s.i_indirect) l = 0) :
    Ext cfg s o (set_disk s s.i_indirect (setInt (s.disk s.i_indirect) l r))
      (own o r (.ind_data l))
    ∧ getInt ((set_disk s s.i_indirect (setInt (s.disk s.i_indirect) l r)).disk s.i_indirect) l
        = r := by
  have hoq := slot_ok_pos h.ind hp
  have hdq : 0 < s.i_dindirect → s.i_dindirect ≠ s.i_indirect := fun hd =>
    ne_of_owner (slot_ok_pos h.dind hd) hoq (by simp)
  have heq : 0 < s.i_dindirect → ∀ k, k < cfg.NR_INDIRECT_BLOCKS →
      0 < getInt (s.disk s.i_dindirect) k → getInt (s.disk s.i_dindirect) k ≠ s.i_indirect :=
    fun hd k hk he => ne_of_owner (slot_ok_pos (h.dind_entries hd k hk) he) hoq (by simp)
  refine ⟨?_, ?_⟩
  · constructor
    · constructor
      · intro j hj
        exact slot_ok_own (h.direct j hj) r _ ho
      · exact slot_ok_own h.ind r _ ho
      · intro _ k hk
        show slot_ok _ (getInt ((set_disk s s.i_indirect _).disk s.i_indirect) k) _
        rw [set_disk_same]
        by_cases hkl : k = l
        · rw [hkl, getInt_setInt_same _ _ _ (by omega) hr1]
          exact slot_ok_new o r _ hr
        · rw [getInt_setInt_other _ _ _ _ hkl]
          exact slot_ok_own (h.ind_entries hp k hk) r _ ho
      · exact slot_ok_own h.dind r _ ho
      · intro hd k hk
        have hd1 : 0 < s.i_dindirect := hd
        show slot_ok _ (getInt ((set_disk s s.i_indirect _).disk s.i_dindirect) k) _
        rw [set_disk_other _ _ _ _ (hdq hd1)]
        exact slot_ok_own (h.dind_entries hd1 k hk) r _ ho
      · intro hd k hk he m hm
        have hd1 : 0 < s.i_dindirect := hd
        have he1 : 0 < getInt ((set_disk s s.i_indirect
          (setInt (s.disk s.i_indirect) l r)).disk s.i_dindirect) k := he
        rw [set_disk_other _ _ _ _ (hdq hd1)] at he1
        show slot_ok _ (getInt ((set_disk s s.i_indirect _).disk
          (getInt ((set_disk s s.i_indirect _).disk s.i_dindirect) k)) m) _
        rw [set_disk_other _ _ _ _ (hdq hd1), set_disk_other _ _ _ _ (heq hd1 k hk he1)]
        exact slot_ok_own (h.dd_entries hd1 k hk he1 m hm) r _ ho
      · exact fresh_own h r _ hn
      · exact h.distinct
    · rfl
    · rfl
    · exact own_mono _ ho
    · intro j hj hpj
      unfold phys at hpj ⊢
      simp only [set_disk_i_block_nr, set_disk_i_indirect, set_disk_i_dindirect]
      by_cases h1 : j < cfg.NR_DIRECT_BLOCKS
      · simp only [h1, if_true]
      · by_cases h2 : j - cfg.NR_DIRECT_BLOCKS < cfg.NR_INDIRECT_BLOCKS
        · simp only [h1, h2, if_true, if_false, hp, gt_iff_lt] at hpj ⊢
          rw [set_disk_same]
          have hjl : j - cfg.NR_DIRECT_BLOCKS ≠ l := by
            intro e
            rw [e, hz] at hpj
            omega
          rw [getInt_setInt_other _ _ _ _ hjl]
        · simp only [h1, h2, if_false] at hpj ⊢
          by_cases hd : s.i_dindirect > 0
          · simp only [hd, if_true] at hpj ⊢
            rw [set_disk_other _ _ _ _ (hdq hd)]
            by_cases he : getInt (s.disk s.i_dindirect)
                ((j - cfg.NR_DIRECT_BLOCKS - cfg.NR_INDIRECT_BLOCKS) / cfg.NR_INDIRECT_BLOCKS)
                > 0
            · simp only [he, if_true]
              have hk := dentry_index_lt hcfg hj
              rw [set_disk_other _ _ _ _ (heq hd _ hk he)]
            · simp only [he, if_false]
          · simp only [hd, if_false]
    · intro b l1 hb hl1
      have : b ≠ s.i_indirect := ne_of_owner hb hoq (by
        intro e
        rw [e] at hl1
        simp [Slot.is_meta] at hl1)
      exact set_disk_other _ _ _ _ this
  · rw [set_disk_same, getInt_setInt_same _ _ _ (by omega) hr1]

/-- Storing the fresh, zeroed block `r` in the empty entry `k` of the
double-indirect block. -/
theorem link_dentry {cfg : Config} (hcfg : cfg.ok) {s : State} {o : Int → Option Slot}
    (h : WFo cfg s o) (r : Int) (hr : 0 < r) (hr1 : r < 2147483648) (ho : o r = none)
    (hn : ∀ x, x ∈ s.alloc → 0 ≤ x → x ≠ r) (hp : 0 < s.i_dindirect) (k : Nat)
    (hz : getInt (s.disk s.i_dindirect) k = 0) (hzero : ∀ m, getInt (s.disk r) m = 0) :
    Ext cfg s o (set_disk s s.i_dindirect (setInt (s.disk s.i_dindirect) k r))
      (own o r (.dentry k))
    ∧ getInt ((set_disk s s.i_dindirect (setInt (s.disk s.i_dindirect) k r)).disk
        s.i_dindirect) k = r := by
  have hoq := slot_ok_pos h.dind hp
  have hrq : r ≠ s.i_dindirect := (ne_of_unowned hoq ho).symm
  have hiq : 0 < s.i_indirect → s.i_indirect ≠ s.i_dindirect := fun hd =>
    ne_of_owner (slot_ok_pos h.ind hd) hoq (by simp)
  have heq : ∀ k1, k1 < cfg.NR_INDIRECT_BLOCKS →
      0 < getInt (s.disk s.i_dindirect) k1 → getInt (s.disk s.i_dindirect) k1 ≠ s.i_dindirect :=
    fun k1 hk he => ne_of_owner (slot_ok_pos (h.dind_entries hp k1 hk) he) hoq (by simp)
  refine ⟨?_, ?_⟩
  · constructor
    · constructor
      · intro j hj
        exact slot_ok_own (h.direct j hj) r _ ho
      · exact slot_ok_own h.ind r _ ho
      · intro hi k1 hk
        have hi1 : 0 < s.i_indirect := hi
        show slot_ok _ (getInt ((set_disk s s.i_dindirect _).disk s.i_indirect) k1) _
        rw [set_disk_other _ _ _ _ (hiq hi1)]
        exact slot_ok_own (h.ind_entries hi1 k1 hk) r _ ho
      · exact slot_ok_own h.dind r _ ho
      · intro _ k1 hk
        show slot_ok _ (getInt ((set_disk s s.i_dindirect _).disk s.i_dindirect) k1) _
        rw [set_disk_same]
        by_cases hkl : k1 = k
        · rw [hkl, getInt_setInt_same _ _ _ (by omega) hr1]
          exact slot_ok_new o r _ hr
        · rw [getInt_setInt_other _ _ _ _ hkl]
          exact slot_ok_own (h.dind_entries hp k1 hk) r _ ho
      · intro _ k1 hk he m hm
        have he1 : 0 < getInt ((set_disk s s.i_dindirect
          (setInt (s.disk s.i_dindirect) k r)).disk s.i_dindirect) k1 := he
        show slot_ok _ (getInt ((set_disk s s.i_dindirect _).disk
          (getInt ((set_disk s s.i_dindirect _).disk s.i_dindirect) k1)) m) _
        rw [set_disk_same] at he1 ⊢
        by_cases hkl : k1 = k
        · rw [hkl, getInt_setInt_same _ _ _ (by omega) hr1, set_disk_other _ _ _ _ hrq,
            hzero m]
          exact slot_ok_zero _ _
        · rw [getInt_setInt_other _ _ _ _ hkl] at he1 ⊢
          rw [set_disk_other _ _ _ _ (heq k1 hk he1)]
          exact slot_ok_own (h.dd_entries hp k1 hk he1 m hm) r _ ho
      · exact fresh_own h r _ hn
      · exact h.distinct
    · rfl
    · rfl
    · exact own_mono _ ho
    · intro j hj hpj
      unfold phys at hpj ⊢
      simp only [set_disk_i_block_nr, set_disk_i_indirect, set_disk_i_dindirect]
      by_cases h1 : j < cfg.NR_DIRECT_BLOCKS
      · simp only [h1, if_true]
      · by_cases h2 : j - cfg.NR_DIRECT_BLOCKS < cfg.NR_INDIRECT_BLOCKS
        · simp only [h1, h2, if_true, if_false] at hpj ⊢
          by_cases hi : s.i_indirect > 0
          · simp only [hi, if_true]
            rw [set_disk_other _ _ _ _ (hiq hi)]
          · simp only [hi, if_false]
        · simp only [h1, h2, if_false, hp, gt_iff_lt, if_true] at hpj ⊢
          rw [set_disk_same]
          have hk := dentry_index_lt hcfg hj
          by_cases he : 0 < getInt (s.disk s.i_dindirect)
              ((j - cfg.NR_DIRECT_BLOCKS - cfg.NR_INDIRECT_BLOCKS) / cfg.NR_INDIRECT_BLOCKS)
          · have hjk : (j - cfg.NR_DIRECT_BLOCKS - cfg.NR_INDIRECT_BLOCKS)
                / cfg.NR_INDIRECT_BLOCKS ≠ k := by
              intro e
              rw [e, hz] at he
              omega
            rw [getInt_setInt_other _ _ _ _ hjk]
            simp only [he, if_true]
            rw [set_disk_other _ _ _ _ (heq _ hk he)]
          · simp only [he, if_false] at hpj
            omega
    · intro b l1 hb hl1
      have : b ≠ s.i_dindirect := ne_of_owner hb hoq (by
        intro e
        rw [e] at hl1
        simp [Slot.is_meta] at hl1)
      exact set_disk_other _ _ _ _ this
  · rw [set_disk_same, getInt_setInt_same _ _ _ (by omega) hr1]

/-- Storing the fresh block `r` in the empty entry `m` of the indirect block
found at entry `k` of the double-indirect block. -/
theorem link_dd_data {cfg : Config} (hcfg : cfg.ok) {s : State} {o : Int → Option Slot}
    (h : WFo cfg s o) (r : Int) (hr : 0 < r) (hr1 : r < 2147483648) (ho : o r = none)
    (hn : ∀ x, x ∈ s.alloc → 0 ≤ x → x ≠ r) (hp : 0 < s.i_dindirect) (k : Nat)
    (hk : k < cfg.NR_INDIRECT_BLOCKS) (he : 0 < getInt (s.disk s.i_dindirect) k) (m : Nat)
    (hz : getInt (s.disk (getInt (s.disk s.i_dindirect) k)) m = 0) :
    Ext cfg s o
      (set_disk s (getInt (s.disk s.i_dindirect) k)
        (setInt (s.disk (getInt (s.disk s.i_dindirect) k)) m r))
      (own o r (.dd_data k m)) := by
  have hod := slot_ok_pos h.dind hp
  have hoq := slot_ok_pos (h.dind_entries hp k hk) he
  have hiq : 0 < s.i_indirect → s.i_indirect ≠ getInt (s.disk s.i_dindirect) k := fun hd =>
    ne_of_owner (slot_ok_pos h.ind hd) hoq (by simp)
  have hdq : s.i_dindirect ≠ getInt (s.disk s.i_dindirect) k :=
    ne_of_owner hod hoq (by simp)
  have heq : ∀ k1, k1 < cfg.NR_INDIRECT_BLOCKS → k1 ≠ k →
      0 < getInt (s.disk s.i_dindirect) k1 →
      getInt (s.disk s.i_dindirect) k1 ≠ getInt (s.disk s.i_dindirect) k :=
    fun k1 hk1 hne he1 =>
      ne_of_owner (slot_ok_pos (h.dind_entries hp k1 hk1) he1) hoq (by simp [hne])
  constructor
  · constructor
    · intro j hj
      exact slot_ok_own (h.direct j hj) r _ ho
    · exact slot_ok_own h.ind r _ ho
    · intro hi k1 hk1
      have hi1 : 0 < s.i_indirect := hi
      show slot_ok _ (getInt ((set_disk s _ _).disk s.i_indirect) k1) _
      rw [set_disk_other _ _ _ _ (hiq hi1)]
      exact slot_ok_own (h.ind_entries hi1 k1 hk1) r _ ho
    · exact slot_ok_own h.dind r _ ho
    · intro _ k1 hk1
      show slot_ok _ (getInt ((set_disk s _ _).disk s.i_dindirect) k1) _
      rw [set_disk_other _ _ _ _ hdq]
      exact slot_ok_own (h.dind_entries hp k1 hk1) r _ ho
    · intro _ k1 hk1 he1 m1 hm1
      have he2 : 0 < getInt ((set_disk s (getInt (s.disk s.i_dindirect) k)
        (setInt (s.disk (getInt (s.disk s.i_dindirect) k)) m r)).disk s.i_dindirect) k1 := he1
      show slot_ok _ (getInt ((set_disk s _ _).disk
        (getInt ((set_disk s _ _).disk s.i_dindirect) k1)) m1) _
      rw [set_disk_other _ _ _ _ hdq] at he2 ⊢
      by_cases hkk : k1 = k
      · subst hkk
        rw [set_disk_same]
        by_cases hmm : m1 = m
        · rw [hmm, getInt_setInt_same _ _ _ (by omega) hr1]
          exact slot_ok_new o r _ hr
        · rw [getInt_setInt_other _ _ _ _ hmm]
          exact slot_ok_own (h.dd_entries hp k1 hk1 he2 m1 hm1) r _ ho
      · rw [set_disk_other _ _ _ _ (heq k1 hk1 hkk he2)]
        exact slot_ok_own (h.dd_entries hp k1 hk1 he2 m1 hm1) r _ ho
    · exact fresh_own h r _ hn
    · exact h.distinct
  · rfl
  · rfl
  · exact own_mono _ ho
  · intro j hj hpj
    unfold phys at hpj ⊢
    simp only [set_disk_i_block_nr, set_disk_i_indirect, set_disk_i_dindirect]
    by_cases h1 : j < cfg.NR_DIRECT_BLOCKS
    · simp only [h1, if_true]
    · by_cases h2 : j - cfg.NR_DIRECT_BLOCKS < cfg.NR_INDIRECT_BLOCKS
      · simp only [h1, h2, if_true, if_false] at hpj ⊢
        by_cases hi : s.i_indirect > 0
        · simp only [hi, if_true]
          rw [set_disk_other _ _ _ _ (hiq hi)]
        · simp only [hi, if_false]
      · simp only [h1, h2, if_false, hp, gt_iff_lt, if_true] at hpj ⊢
        rw [set_disk_other _ _ _ _ hdq]
        have hk1 := dentry_index_lt hcfg hj
        by_cases he1 : 0 < getInt (s.disk s.i_dindirect)
            ((j - cfg.NR_DIRECT_BLOCKS - cfg.NR_INDIRECT_BLOCKS) / cfg.NR_INDIRECT_BLOCKS)
        · simp only [he1, if_true] at hpj ⊢
          by_cases hkk : (j - cfg.NR_DIRECT_BLOCKS - cfg.NR_INDIRECT_BLOCKS)
              / cfg.NR_INDIRECT_BLOCKS = k
          · rw [hkk] at hpj ⊢
            rw [set_disk_same]
            have hmm : (j - cfg.NR_DIRECT_BLOCKS - cfg.NR_INDIRECT_BLOCKS)
                % cfg.NR_INDIRECT_BLOCKS ≠ m := by
              intro e
              rw [e, hz] at hpj
              omega
            rw [getInt_setInt_other _ _ _ _ hmm]
          · rw [set_disk_other _ _ _ _ (heq _ hk1 hkk he1)]
        · simp only [he1, if_false] at hpj
          omega
  · intro b l1 hb hl1
    have : b ≠ getInt (s.disk s.i_dindirect) k := ne_of_owner hb hoq (by
      intro e
      rw [e] at hl1
      simp [Slot.is_meta] at hl1)
    exact set_disk_other _ _ _ _ this

theorem drop_one_drop (l : List Int) (n : Nat) : (l.drop n).drop 1 = l.drop (n + 1) := by
  rw [List.drop_drop, Nat.add_comm]

theorem fail_source {al l : List Int} {n : Nat} {r : Int} (hn : al = l.drop n)
    (hn2 : n ≤ 2) (hmem : al ≠ [] → r ∈ al) : r ∈ l ∨ l.length < 3 := by
  by_cases he : al = []
  · right
    rw [he] at hn
    have := List.drop_eq_nil_iff.mp hn.symm
    omega
  · left
    have := hmem he
    rw [hn] at this
    exact List.mem_of_mem_drop this

/-- Lines 180-197 on a well-formed state whose indirect block is in `indirect`
and has entry `l` empty. On success the data block is stored in entry `l`; on
failure a fresh indirect block is rolled back. -/
theorem allocate_indirect_data_spec {cfg : Config} (hcfg : cfg.ok) {s : State}
    {o : Int → Option Slot} (h : WFo cfg s o) (hp : 0 < s.i_indirect) (l : Nat)
    (indirect : Block) (hind : indirect = s.disk s.i_indirect)
    (hz : getInt indirect l = 0) (fl : Bool) (block : Block)
    (s0 : State) (o0 : Int → Option Slot) (hbase : fl = true → BaseI s0 o0 s o) :
    ∃ r s1, allocate_indirect_data s l indirect fl block = .ok (r, s1, block)
      ∧ s1.alloc = s.alloc.drop 1
      ∧ (s.alloc ≠ [] → r ∈ s.alloc)
      ∧ (0 ≤ r → 0 < r ∧ s1.i_indirect = s.i_indirect
          ∧ getInt (s1.disk s1.i_indirect) l = r
          ∧ Ext cfg s o s1 (own o r (.ind_data l)))
      ∧ (r < 0 → (fl = false → Ext cfg s o s1 o) ∧ (fl = true → Agree s0 o0 s1)) := by
  obtain ⟨hag, hdrop, hok, hmem⟩ := alloc_spec h
  have hwa := WFo_agree h hag 1 hdrop
  unfold allocate_indirect_data
  rw [if_neg (by simpa using hz)]
  by_cases ha : (testfs_alloc_block_for_inode s).1 ≥ 0
  · rw [if_pos ha]
    obtain ⟨hpos, hlt, hown, hnotin, _⟩ := hok ha
    refine ⟨_, _, rfl, hdrop, hmem, ?_, fun hneg => by omega⟩
    intro _
    have hpa : 0 < (testfs_alloc_block_for_inode s).2.i_indirect := by rw [hag.ind]; exact hp
    have hdisk : (testfs_alloc_block_for_inode s).2.disk
        (testfs_alloc_block_for_inode s).2.i_indirect = indirect := by
      rw [hind, hag.ind]
      exact hag.disk _ _ (slot_ok_pos h.ind hp)
    have hlink := link_ind_data hcfg hwa _ hpos hlt hown hnotin hpa l (by rw [hdisk]; exact hz)
    rw [hdisk] at hlink
    rw [write_blocks_eq]
    refine ⟨hpos, hag.ind, hlink.2, ?_⟩
    exact Ext_trans (Ext_of_agree hcfg h hag 1 hdrop) hlink.1
  · rw [if_neg ha]
    have hneg : (testfs_alloc_block_for_inode s).1 < 0 := by omega
    cases fl with
    | true =>
      refine ⟨_, _, rfl, hdrop, hmem, fun h0 => by omega, fun _ => ⟨fun hf => by simp at hf, ?_⟩⟩
      intro _
      have hb := hbase rfl
      exact
        { size := hag.size.trans hb.size
          flags := hag.flags.trans hb.flags
          direct := hag.direct.trans hb.direct
          ind := hb.ind.symm
          dind := hag.dind.trans hb.dind
          disk := fun b l1 hbo => by
            show (testfs_alloc_block_for_inode s).2.disk b = s0.disk b
            rw [hag.disk b l1 (hb.owner b l1 hbo)]
            exact hb.disk b l1 hbo }
    | false =>
      refine ⟨_, _, rfl, hdrop, hmem, fun h0 => by omega, fun _ => ⟨?_, fun hf => by simp at hf⟩⟩
      intro _
      exact Ext_of_agree hcfg h hag 1 hdrop

/-- Lines 165-198 on a well-formed state with a hole at entry `l` of the
indirect tier: the call returns, the result extends the state, on success the
entry holds the returned positive block. -/
theorem allocate_indirect_spec {cfg : Config} (hcfg : cfg.ok) {s : State}
    {o : Int → Option Slot} (h : WFo cfg s o) (l : Nat)
    (hhole : 0 < s.i_indirect → getInt (s.disk s.i_indirect) l = 0) (block : Block) :
    ∃ r s1 o1, allocate_indirect s l block = .ok (r, s1, block)
      ∧ Ext cfg s o s1 o1
      ∧ (∃ n, n ≤ 3 ∧ s1.alloc = s.alloc.drop n)
      ∧ (r < 0 → r ∈ s.alloc ∨ s.alloc.length < 3)
      ∧ (0 ≤ r → 0 < r ∧ 0 < s1.i_indirect ∧ getInt (s1.disk s1.i_indirect) l = r) := by
  obtain ⟨hag, hdrop, hok, hmem⟩ := alloc_spec h
  have hwa := WFo_agree h hag 1 hdrop
  unfold allocate_indirect
  by_cases hz : s.i_indirect = 0
  · rw [if_pos hz]
    by_cases ha : (testfs_alloc_block_for_inode s).1 < 0
    · rw [if_pos ha]
      refine ⟨_, _, o, rfl, Ext_of_agree hcfg h hag 1 hdrop, ⟨1, by omega, hdrop⟩, ?_,
        fun h0 => by omega⟩
      intro _
      exact fail_source (n := 0) rfl (by omega) hmem
    · rw [if_neg ha]
      obtain ⟨hpos, hlt, hown, hnotin, hzb⟩ := hok (by omega)
      have hlink := link_ind hwa _ hpos hown hnotin (hag.ind.trans hz)
        (fun k => by rw [hzb]; exact getInt_zero_block k)
      have hbase : BaseI s o
          { (testfs_alloc_block_for_inode s).2 with
            i_indirect := (testfs_alloc_block_for_inode s).1 }
          (own o (testfs_alloc_block_for_inode s).1 .ind) :=
        { size := hag.size, flags := hag.flags, direct := hag.direct, ind := hz
          dind := hag.dind, owner := own_mono _ hown, disk := hag.disk }
      obtain ⟨r, s1, heq, hdrop2, hmem2, hok2, hfail2⟩ :=
        allocate_indirect_data_spec hcfg hlink.wf (by exact hpos) l zero_block hzb.symm
          (getInt_zero_block l) true block s o (fun _ => hbase)
      have hdrop3 : s1.alloc = s.alloc.drop 2 := by
        rw [hdrop2]
        show (testfs_alloc_block_for_inode s).2.alloc.drop 1 = _
        rw [hdrop, drop_one_drop]
      by_cases hr : 0 ≤ r
      · obtain ⟨hrpos, hri, hre, hext⟩ := hok2 hr
        refine ⟨r, s1, _, heq, Ext_trans (Ext_trans (Ext_of_agree hcfg h hag 1 hdrop) hlink) hext,
          ⟨2, by omega, hdrop3⟩, fun hneg => by omega, fun _ => ⟨hrpos, ?_, hre⟩⟩
        rw [hri]
        exact hpos
      · have hag2 := (hfail2 (by omega)).2 rfl
        refine ⟨r, s1, o, heq, Ext_of_agree hcfg h hag2 2 hdrop3, ⟨2, by omega, hdrop3⟩, ?_,
          fun h0 => by omega⟩
        intro _
        exact fail_source (n := 1) (l := s.alloc) hdrop (by omega) hmem2
  · rw [if_neg hz]
    have hp : 0 < s.i_indirect := by
      have := slot_ok_nonneg h.ind
      omega
    obtain ⟨r, s1, heq, hdrop2, hmem2, hok2, hfail2⟩ :=
      allocate_indirect_data_spec hcfg h hp l (read_blocks s s.i_indirect) rfl (hhole hp) false
        block s o (fun hf => by simp at hf)
    by_cases hr : 0 ≤ r
    · obtain ⟨hrpos, hri, hre, hext⟩ := hok2 hr
      refine ⟨r, s1, _, heq, hext, ⟨1, by omega, hdrop2⟩, fun hneg => by omega,
        fun _ => ⟨hrpos, ?_, hre⟩⟩
      rw [hri]
      exact hp
    · refine ⟨r, s1, o, heq, (hfail2 (by omega)).1 rfl, ⟨1, by omega, hdrop2⟩, ?_,
        fun h0 => by omega⟩
      intro _
      exact fail_source (n := 0) rfl (by omega) hmem2

/-- Lines 244-270 on a well-formed state whose double-indirect block is in
`d_indirect`, with entry `l / D1` pointing to the indirect block held in
`indirect`, whose entry `l % D1` is empty. -/
theorem allocate_dindirect_data_spec {cfg : Config} (hcfg : cfg.ok) {s : State}
    {o : Int → Option Slot} (h : WFo cfg s o) (hp : 0 < s.i_dindirect) (l : Nat)
    (hk : l / cfg.NR_INDIRECT_BLOCKS < cfg.NR_INDIRECT_BLOCKS)
    (d_indirect : Block) (hd : d_indirect = s.disk s.i_dindirect)
    (he : 0 < getInt d_indirect (l / cfg.NR_INDIRECT_BLOCKS))
    (indirect : Block)
    (hind : indirect = s.disk (getInt d_indirect (l / cfg.NR_INDIRECT_BLOCKS)))
    (hz : getInt indirect (l % cfg.NR_INDIRECT_BLOCKS) = 0) (fd fi : Bool) (block : Block)
    (s0 : State) (o0 : Int → Option Slot) (hbase : fd = true → BaseD s0 o0 s o) :
    ∃ r s1, allocate_dindirect_data cfg s l d_indirect indirect fd fi block = .ok (r, s1, block)
      ∧ s1.alloc = s.alloc.drop 1
      ∧ (s.alloc ≠ [] → r ∈ s.alloc)
      ∧ (0 ≤ r → 0 < r ∧ s1.i_dindirect = s.i_dindirect
          ∧ getInt (s1.disk s1.i_dindirect) (l / cfg.NR_INDIRECT_BLOCKS)
              = getInt d_indirect (l / cfg.NR_INDIRECT_BLOCKS)
          ∧ getInt (s1.disk (getInt d_indirect (l / cfg.NR_INDIRECT_BLOCKS)))
              (l % cfg.NR_INDIRECT_BLOCKS) = r
          ∧ Ext cfg s o s1
              (own o r (.dd_data (l / cfg.NR_INDIRECT_BLOCKS) (l % cfg.NR_INDIRECT_BLOCKS))))
      ∧ (r < 0 → (fd = false → Ext cfg s o s1 o) ∧ (fd = true → Agree s0 o0 s1)) := by
  obtain ⟨hag, hdrop, hok, hmem⟩ := alloc_spec h
  have hwa := WFo_agree h hag 1 hdrop
  have hod := slot_ok_pos h.dind hp
  have he1 : 0 < getInt (s.disk s.i_dindirect) (l / cfg.NR_INDIRECT_BLOCKS) := hd ▸ he
  have hoe := slot_ok_pos (h.dind_entries hp _ hk) he1
  have hdd : (testfs_alloc_block_for_inode s).2.disk s.i_dindirect = d_indirect := by
    rw [hd]
    exact hag.disk _ _ hod
  have hdi : (testfs_alloc_block_for_inode s).2.disk
      (getInt d_indirect (l / cfg.NR_INDIRECT_BLOCKS)) = indirect := by
    rw [hind, hd]
    exact hag.disk _ _ hoe
  unfold allocate_dindirect_data
  rw [if_neg (by simpa using hz)]
  by_cases ha : (testfs_alloc_block_for_inode s).1 < 0
  · rw [if_pos ha]
    have hagw : ∀ x : State, x.i_size = (testfs_alloc_block_for_inode s).2.i_size →
        x.i_flags = (testfs_alloc_block_for_inode s).2.i_flags →
        x.i_block_nr = (testfs_alloc_block_for_inode s).2.i_block_nr →
        x.i_indirect = (testfs_alloc_block_for_inode s).2.i_indirect →
        x.i_dindirect = (testfs_alloc_block_for_inode s).2.i_dindirect →
        x.disk = (testfs_alloc_block_for_inode s).2.disk →
        Agree s o (write_blocks x d_indirect (testfs_alloc_block_for_inode s).2.i_dindirect) :=
      fun x h1 h2 h3 h4 h5 h6 =>
        { size := h1.trans hag.size, flags := h2.trans hag.flags
          direct := h3.trans hag.direct, ind := h4.trans hag.ind, dind := h5.trans hag.dind
          disk := fun b l1 hb => by
            show (if b = (testfs_alloc_block_for_inode s).2.i_dindirect then d_indirect
              else x.disk b) = s.disk b
            rw [hag.dind, h6]
            by_cases hbd : b = s.i_dindirect
            · rw [if_pos hbd, hbd, hd]
            · rw [if_neg hbd]
              exact hag.disk b l1 hb }
    have hagb : ∀ x : State, x.i_size = (testfs_alloc_block_for_inode s).2.i_size →
        x.i_flags = (testfs_alloc_block_for_inode s).2.i_flags →
        x.i_block_nr = (testfs_alloc_block_for_inode s).2.i_block_nr →
        x.i_indirect = (testfs_alloc_block_for_inode s).2.i_indirect →
        x.disk = (testfs_alloc_block_for_inode s).2.disk →
        fd = true →
        Agree s0 o0
          { testfs_free_block_from_inode x (testfs_alloc_block_for_inode s).2.i_dindirect with
            i_dindirect := 0 } :=
      fun x h1 h2 h3 h4 h6 hf =>
        have hb := hbase hf
        { size := (h1.trans hag.size).trans hb.size
          flags := (h2.trans hag.flags).trans hb.flags
          direct := (h3.trans hag.direct).trans hb.direct
          ind := (h4.trans hag.ind).trans hb.ind
          dind := hb.dind.symm
          disk := fun b l1 hbo => by
            show x.disk b = s0.disk b
            rw [h6, hag.disk b l1 (hb.owner b l1 hbo)]
            exact hb.disk b l1 hbo }
    cases fd with
    | true =>
      rw [if_pos rfl]
      refine ⟨_, _, rfl, ?_, hmem, fun h0 => by omega,
        fun _ => ⟨fun hf => by simp at hf, fun _ => ?_⟩⟩
      · cases fi <;> exact hdrop
      · cases fi
        · exact hagb _ rfl rfl rfl rfl rfl rfl
        · exact hagb _ rfl rfl rfl rfl rfl rfl
    | false =>
      rw [if_neg (by simp)]
      have hdr : (write_blocks
          (if fi = true then
            testfs_free_block_from_inode (testfs_alloc_block_for_inode s).2
              (getInt d_indirect (l / cfg.NR_INDIRECT_BLOCKS))
          else (testfs_alloc_block_for_inode s).2)
          d_indirect (testfs_alloc_block_for_inode s).2.i_dindirect).alloc = s.alloc.drop 1 := by
        cases fi <;> exact hdrop
      refine ⟨_, _, rfl, hdr, hmem, fun h0 => by omega,
        fun _ => ⟨fun _ => ?_, fun hf => by simp at hf⟩⟩
      refine Ext_of_agree hcfg h ?_ 1 hdr
      cases fi
      · exact hagw _ rfl rfl rfl rfl rfl rfl
      · exact hagw _ rfl rfl rfl rfl rfl rfl
  · rw [if_neg ha]
    obtain ⟨hpos, hlt, hown, hnotin, _⟩ := hok (by omega)
    have hpa : 0 < (testfs_alloc_block_for_inode s).2.i_dindirect := by rw [hag.dind]; exact hp
    have hE : getInt ((testfs_alloc_block_for_inode s).2.disk
        (testfs_alloc_block_for_inode s).2.i_dindirect) (l / cfg.NR_INDIRECT_BLOCKS)
        = getInt d_indirect (l / cfg.NR_INDIRECT_BLOCKS) := by
      rw [hag.dind, hdd]
    have hlink := link_dd_data hcfg hwa _ hpos hlt hown hnotin hpa
      (l / cfg.NR_INDIRECT_BLOCKS) hk (by rw [hE]; exact he) (l % cfg.NR_INDIRECT_BLOCKS)
      (by rw [hE, hdi]; exact hz)
    rw [hE, hdi] at hlink
    rw [write_blocks_eq]
    refine ⟨_, _, rfl, hdrop, hmem, fun _ => ⟨hpos, hag.dind, ?_, ?_,
      Ext_trans (Ext_of_agree hcfg h hag 1 hdrop) hlink⟩, fun hneg => by omega⟩
    · have hne : s.i_dindirect ≠ getInt d_indirect (l / cfg.NR_INDIRECT_BLOCKS) := by
        rw [hd]
        exact ne_of_owner hod hoe (by simp)
      show getInt ((set_disk _ _ _).disk (testfs_alloc_block_for_inode s).2.i_dindirect) _ = _
      rw [hag.dind, set_disk_other _ _ _ _ hne, hdd]
    · rw [set_disk_same, getInt_setInt_same _ _ _ (by omega) hlt]

/-- Lines 222-270 on a well-formed state whose double-indirect block is in
`d_indirect`: the indirect block of the index is found or allocated, then the
data block is allocated. -/
theorem allocate_dindirect_entry_spec {cfg : Config} (hcfg : cfg.ok) {s : State}
    {o : Int → Option Slot} (h : WFo cfg s o) (hp : 0 < s.i_dindirect) (l : Nat)
    (hk : l / cfg.NR_INDIRECT_BLOCKS < cfg.NR_INDIRECT_BLOCKS)
    (d_indirect : Block) (hd : d_indirect = s.disk s.i_dindirect)
    (hhole : 0 < getInt d_indirect (l / cfg.NR_INDIRECT_BLOCKS) →
      getInt (s.disk (getInt d_indirect (l / cfg.NR_INDIRECT_BLOCKS)))
        (l % cfg.NR_INDIRECT_BLOCKS) = 0)
    (fd : Bool) (block : Block) (s0 : State) (o0 : Int → Option Slot)
    (hbase : fd = true → BaseD s0 o0 s o)
    (l0 : List Int) (n0 : Nat) (hn0 : s.alloc = l0.drop n0) (hn1 : n0 ≤ 1) :
    ∃ r s1 o1, allocate_dindirect_entry cfg s l d_indirect fd block = .ok (r, s1, block)
      ∧ (∃ n, n ≤ 2 ∧ s1.alloc = s.alloc.drop n)
      ∧ (r < 0 → r ∈ l0 ∨ l0.length < 3)
      ∧ (0 ≤ r → 0 < r ∧ s1.i_dindirect = s.i_dindirect
          ∧ 0 < getInt (s1.disk s1.i_dindirect) (l / cfg.NR_INDIRECT_BLOCKS)
          ∧ getInt (s1.disk (getInt (s1.disk s1.i_dindirect) (l / cfg.NR_INDIRECT_BLOCKS)))
              (l % cfg.NR_INDIRECT_BLOCKS) = r
          ∧ Ext cfg s o s1 o1)
      ∧ (r < 0 → (fd = false → Ext cfg s o s1 o1) ∧ (fd = true → Agree s0 o0 s1)) := by
  obtain ⟨hag, hdrop, hok, hmem⟩ := alloc_spec h
  have hwa := WFo_agree h hag 1 hdrop
  have hod := slot_ok_pos h.dind hp
  have hdd : (testfs_alloc_block_for_inode s).2.disk
      (testfs_alloc_block_for_inode s).2.i_dindirect = d_indirect := by
    rw [hd, hag.dind]
    exact hag.disk _ _ hod
  unfold allocate_dindirect_entry
  by_cases hez : getInt d_indirect (l / cfg.NR_INDIRECT_BLOCKS) = 0
  · rw [if_pos hez]
    by_cases ha : (testfs_alloc_block_for_inode s).1 < 0
    · rw [if_pos ha]
      have hfs := fail_source hn0 (by omega) hmem
      cases fd with
      | true =>
        rw [if_pos rfl]
        refine ⟨_, _, o, rfl, ⟨1, by omega, hdrop⟩, fun _ => hfs, fun h0 => by omega,
          fun _ => ⟨fun hf => by simp at hf, fun _ => ?_⟩⟩
        have hb := hbase rfl
        exact
          { size := hag.size.trans hb.size
            flags := hag.flags.trans hb.flags
            direct := hag.direct.trans hb.direct
            ind := hag.ind.trans hb.ind
            dind := hb.dind.symm
            disk := fun b l1 hbo => by
              show (testfs_alloc_block_for_inode s).2.disk b = s0.disk b
              rw [hag.disk b l1 (hb.owner b l1 hbo)]
              exact hb.disk b l1 hbo }
      | false =>
        rw [if_neg (by simp)]
        exact ⟨_, _, o, rfl, ⟨1, by omega, hdrop⟩, fun _ => hfs, fun h0 => by omega,
          fun _ => ⟨fun _ => Ext_of_agree hcfg h hag 1 hdrop, fun hf => by simp at hf⟩⟩
    · rw [if_neg ha]
      obtain ⟨hpos, hlt, hown, hnotin, hzb⟩ := hok (by omega)
      have hpa : 0 < (testfs_alloc_block_for_inode s).2.i_dindirect := by
        rw [hag.dind]; exact hp
      have hlink := link_dentry hcfg hwa _ hpos hlt hown hnotin hpa
        (l / cfg.NR_INDIRECT_BLOCKS) (by rw [hdd]; exact hez)
        (fun m => by rw [hzb]; exact getInt_zero_block m)
      rw [hdd] at hlink
      rw [write_blocks_eq]
      have hne : (testfs_alloc_block_for_inode s).1
          ≠ (testfs_alloc_block_for_inode s).2.i_dindirect := by
        rw [hag.dind]
        exact (ne_of_unowned hod hown).symm
      have hge : getInt (setInt d_indirect (l / cfg.NR_INDIRECT_BLOCKS)
          (testfs_alloc_block_for_inode s).1) (l / cfg.NR_INDIRECT_BLOCKS)
          = (testfs_alloc_block_for_inode s).1 :=
        getInt_setInt_same _ _ _ (by omega) hlt
      have hbase2 : fd = true → BaseD s0 o0
          (set_disk (testfs_alloc_block_for_inode s).2
            (testfs_alloc_block_for_inode s).2.i_dindirect
            (setInt d_indirect (l / cfg.NR_INDIRECT_BLOCKS) (testfs_alloc_block_for_inode s).1))
          (own o (testfs_alloc_block_for_inode s).1 (.dentry (l / cfg.NR_INDIRECT_BLOCKS))) := by
        intro hf
        have hb := hbase hf
        exact
          { size := hag.size.trans hb.size
            flags := hag.flags.trans hb.flags
            direct := hag.direct.trans hb.direct
            ind := hag.ind.trans hb.ind
            dind := hb.dind
            top := by
              show o0 (testfs_alloc_block_for_inode s).2.i_dindirect = none
              rw [hag.dind]
              exact hb.top
            owner := fun b l1 hbo => own_mono _ hown b l1 (hb.owner b l1 hbo)
            disk := fun b l1 hbo => by
              have hbd : b ≠ (testfs_alloc_block_for_inode s).2.i_dindirect := by
                rw [hag.dind]
                exact ne_of_unowned hbo hb.top
              rw [set_disk_other _ _ _ _ hbd, hag.disk b l1 (hb.owner b l1 hbo)]
              exact hb.disk b l1 hbo }
      obtain ⟨r, s1, heq, hdrop2, hmem2, hok2, hfail2⟩ :=
        allocate_dindirect_data_spec hcfg hlink.1.wf (by exact hpa) l hk
          (setInt d_indirect (l / cfg.NR_INDIRECT_BLOCKS) (testfs_alloc_block_for_inode s).1)
          (by
            show _ = (set_disk _ _ _).disk (testfs_alloc_block_for_inode s).2.i_dindirect
            rw [set_disk_same])
          (by rw [hge]; exact hpos) zero_block
          (by
            rw [hge, set_disk_other _ _ _ _ hne, hzb])
          (getInt_zero_block _) fd true block s0 o0 hbase2
      have hdrop3 : s1.alloc = s.alloc.drop 2 := by
        rw [hdrop2]
        show (testfs_alloc_block_for_inode s).2.alloc.drop 1 = _
        rw [hdrop, drop_one_drop]
      have hfs : r < 0 → r ∈ l0 ∨ l0.length < 3 := by
        intro _
        refine fail_source (n := n0 + 1) ?_ (by omega) hmem2
        show (testfs_alloc_block_for_inode s).2.alloc = _
        rw [hdrop, hn0, drop_one_drop]
      by_cases hr : 0 ≤ r
      · obtain ⟨hrpos, hsd, hse, hsm, hext⟩ := hok2 hr
        have hsd1 : s1.i_dindirect = s.i_dindirect := by
          rw [hsd]
          exact hag.dind
        have hse1 : getInt (s1.disk s1.i_dindirect) (l / cfg.NR_INDIRECT_BLOCKS)
            = (testfs_alloc_block_for_inode s).1 := by
          rw [hse, hge]
        rw [hge] at hsm
        have hpos1 : 0 < getInt (s1.disk s1.i_dindirect) (l / cfg.NR_INDIRECT_BLOCKS) := by
          rw [hse1]; exact hpos
        have hsm1 : getInt (s1.disk (getInt (s1.disk s1.i_dindirect)
            (l / cfg.NR_INDIRECT_BLOCKS))) (l % cfg.NR_INDIRECT_BLOCKS) = r := by
          rw [hse1]; exact hsm
        have hext1 := Ext_trans (Ext_trans (Ext_of_agree hcfg h hag 1 hdrop) hlink.1) hext
        exact ⟨r, s1, own (own o (testfs_alloc_block_for_inode s).1
            (.dentry (l / cfg.NR_INDIRECT_BLOCKS))) r
            (.dd_data (l / cfg.NR_INDIRECT_BLOCKS) (l % cfg.NR_INDIRECT_BLOCKS)),
          heq, ⟨2, le_refl 2, hdrop3⟩, hfs, fun _ => ⟨hrpos, hsd1, hpos1, hsm1, hext1⟩,
          fun hneg => absurd hr (not_le.mpr hneg)⟩
      · have hr1 : r < 0 := by omega
        have hext1 : fd = false → Ext cfg s o s1
            (own o (testfs_alloc_block_for_inode s).1 (.dentry (l / cfg.NR_INDIRECT_BLOCKS))) :=
          fun hf =>
            Ext_trans (Ext_trans (Ext_of_agree hcfg h hag 1 hdrop) hlink.1) ((hfail2 hr1).1 hf)
        exact ⟨r, s1, own o (testfs_alloc_block_for_inode s).1
            (.dentry (l / cfg.NR_INDIRECT_BLOCKS)),
          heq, ⟨2, le_refl 2, hdrop3⟩, hfs, fun h0 => absurd h0 hr,
          fun _ => ⟨hext1, fun hf => (hfail2 hr1).2 hf⟩⟩
  · rw [if_neg hez]
    have he : 0 < getInt d_indirect (l / cfg.NR_INDIRECT_BLOCKS) := by
      have := slot_ok_nonneg (h.dind_entries hp _ hk)
      rw [← hd] at this
      omega
    obtain ⟨r, s1, heq, hdrop2, hmem2, hok2, hfail2⟩ :=
      allocate_dindirect_data_spec hcfg h hp l hk d_indirect hd he
        (read_blocks s (getInt d_indirect (l / cfg.NR_INDIRECT_BLOCKS))) rfl (hhole he)
        fd false block s0 o0 hbase
    by_cases hr : 0 ≤ r
    · obtain ⟨hrpos, hsd, hse, hsm, hext⟩ := hok2 hr
      have hpos1 : 0 < getInt (s1.disk s1.i_dindirect) (l / cfg.NR_INDIRECT_BLOCKS) := by
        rw [hse]; exact he
      have hsm1 : getInt (s1.disk (getInt (s1.disk s1.i_dindirect)
          (l / cfg.NR_INDIRECT_BLOCKS))) (l % cfg.NR_INDIRECT_BLOCKS) = r := by
        rw [hse]; exact hsm
      exact ⟨r, s1, own o r
          (.dd_data (l / cfg.NR_INDIRECT_BLOCKS) (l % cfg.NR_INDIRECT_BLOCKS)),
        heq, ⟨1, by decide, hdrop2⟩, fun _ => fail_source hn0 (le_trans hn1 (by decide)) hmem2,
        fun _ => ⟨hrpos, hsd, hpos1, hsm1, hext⟩, fun hneg => absurd hr (not_le.mpr hneg)⟩
    · have hr1 : r < 0 := by omega
      exact ⟨r, s1, o, heq, ⟨1, by decide, hdrop2⟩,
        fun _ => fail_source hn0 (le_trans hn1 (by decide)) hmem2,
        fun h0 => absurd h0 hr, fun _ => ⟨fun hf => (hfail2 hr1).1 hf, fun hf => (hfail2 hr1).2 hf⟩⟩

/-- Lines 202-271 on a well-formed state with a hole at offset `l` of the
double-indirect tier: the call returns, the result extends the state, on
success the two-level entry holds the returned positive block. -/
theorem allocate_dindirect_spec {cfg : Config} (hcfg : cfg.ok) {s : State}
    {o : Int → Option Slot} (h : WFo cfg s o) (l : Nat)
    (hk : l / cfg.NR_INDIRECT_BLOCKS < cfg.NR_INDIRECT_BLOCKS)
    (hhole : 0 < s.i_dindirect →
      0 < getInt (s.disk s.i_dindirect) (l / cfg.NR_INDIRECT_BLOCKS) →
      getInt (s.disk (getInt (s.disk s.i_dindirect) (l / cfg.NR_INDIRECT_BLOCKS)))
        (l % cfg.NR_INDIRECT_BLOCKS) = 0)
    (block : Block) :
    ∃ r s1 o1, allocate_dindirect cfg s l block = .ok (r, s1, block)
      ∧ Ext cfg s o s1 o1
      ∧ (∃ n, n ≤ 3 ∧ s1.alloc = s.alloc.drop n)
      ∧ (r < 0 → r ∈ s.alloc ∨ s.alloc.length < 3)
      ∧ (0 ≤ r → 0 < r ∧ 0 < s1.i_dindirect
          ∧ 0 < getInt (s1.disk s1.i_dindirect) (l / cfg.NR_INDIRECT_BLOCKS)
          ∧ getInt (s1.disk (getInt (s1.disk s1.i_dindirect) (l / cfg.NR_INDIRECT_BLOCKS)))
              (l % cfg.NR_INDIRECT_BLOCKS) = r) := by
  obtain ⟨hag, hdrop, hok, hmem⟩ := alloc_spec h
  have hwa := WFo_agree h hag 1 hdrop
  unfold allocate_dindirect
  by_cases hz : s.i_dindirect = 0
  · rw [if_pos hz]
    by_cases ha : (testfs_alloc_block_for_inode s).1 < 0
    · rw [if_pos ha]
      exact ⟨_, _, o, rfl, Ext_of_agree hcfg h hag 1 hdrop, ⟨1, by decide, hdrop⟩,
        fun _ => fail_source (n := 0) rfl (by decide) hmem, fun h0 => absurd ha (not_lt.mpr h0)⟩
    · rw [if_neg ha]
      obtain ⟨hpos, hlt, hown, hnotin, hzb⟩ := hok (not_lt.mp ha)
      have hlink := link_dind hwa _ hpos hown hnotin (hag.dind.trans hz)
        (fun k => by rw [hzb]; exact getInt_zero_block k)
      have hbase : BaseD s o
          { (testfs_alloc_block_for_inode s).2 with
            i_dindirect := (testfs_alloc_block_for_inode s).1 }
          (own o (testfs_alloc_block_for_inode s).1 .dind) :=
        { size := hag.size, flags := hag.flags, direct := hag.direct, ind := hag.ind
          dind := hz, top := hown, owner := own_mono _ hown, disk := hag.disk }
      obtain ⟨r, s1, o1, heq, ⟨n, hn, hdrop2⟩, hfs, hok2, hfail2⟩ :=
        allocate_dindirect_entry_spec hcfg hlink.wf (by exact hpos) l hk zero_block hzb.symm
          (fun he => by
            rw [getInt_zero_block] at he
            exact absurd he (lt_irrefl 0))
          true block s o (fun _ => hbase) s.alloc 1 hdrop (le_refl 1)
      have hdrop3 : s1.alloc = s.alloc.drop (n + 1) := by
        rw [hdrop2]
        show (testfs_alloc_block_for_inode s).2.alloc.drop n = _
        rw [hdrop, List.drop_drop, Nat.add_comm]
      have hn3 : n + 1 ≤ 3 := Nat.succ_le_succ hn
      by_cases hr : 0 ≤ r
      · obtain ⟨hrpos, hsd, hse, hsm, hext⟩ := hok2 hr
        have hsd1 : 0 < s1.i_dindirect := by
          rw [hsd]
          exact hpos
        exact ⟨r, s1, o1, heq,
          Ext_trans (Ext_trans (Ext_of_agree hcfg h hag 1 hdrop) hlink) hext,
          ⟨n + 1, hn3, hdrop3⟩, hfs, fun _ => ⟨hrpos, hsd1, hse, hsm⟩⟩
      · have hag2 := (hfail2 (not_le.mp hr)).2 rfl
        exact ⟨r, s1, o, heq, Ext_of_agree hcfg h hag2 (n + 1) hdrop3, ⟨n + 1, hn3, hdrop3⟩, hfs,
          fun h0 => absurd h0 hr⟩
  · rw [if_neg hz]
    have hp : 0 < s.i_dindirect :=
      lt_of_le_of_ne (slot_ok_nonneg h.dind) (Ne.symm hz)
    obtain ⟨r, s1, o1, heq, ⟨n, hn, hdrop2⟩, hfs, hok2, hfail2⟩ :=
      allocate_dindirect_entry_spec hcfg h hp l hk (read_blocks s s.i_dindirect) rfl
        (hhole hp) false block s o (fun hf => by simp at hf) s.alloc 0 rfl (by decide)
    have hn3 : n ≤ 3 := le_trans hn (by decide)
    by_cases hr : 0 ≤ r
    · obtain ⟨hrpos, hsd, hse, hsm, hext⟩ := hok2 hr
      have hsd1 : 0 < s1.i_dindirect := by
        rw [hsd]
        exact hp
      exact ⟨r, s1, o1, heq, hext, ⟨n, hn3, hdrop2⟩, hfs, fun _ => ⟨hrpos, hsd1, hse, hsm⟩⟩
    · exact ⟨r, s1, o1, heq, (hfail2 (not_le.mp hr)).1 rfl, ⟨n, hn3, hdrop2⟩, hfs,
        fun h0 => absurd h0 hr⟩

theorem phys_nonneg {cfg : Config} (hcfg : cfg.ok) {s : State} {o : Int → Option Slot}
    (h : WFo cfg s o) (j : Nat) (hj : j < cfg.capacity) : 0 ≤ phys cfg s j := by
  unfold phys
  by_cases h1 : j < cfg.NR_DIRECT_BLOCKS
  · simp only [h1, if_true]
    exact slot_ok_nonneg (h.direct j h1)
  · by_cases h2 : j - cfg.NR_DIRECT_BLOCKS < cfg.NR_INDIRECT_BLOCKS
    · simp only [h1, h2, if_true, if_false]
      by_cases hi : s.i_indirect > 0
      · simp only [hi, if_true]
        exact slot_ok_nonneg (h.ind_entries hi _ h2)
      · simp only [hi, if_false]
        exact le_refl 0
    · simp only [h1, h2, if_false]
      have hk := dentry_index_lt hcfg hj
      have hm : (j - cfg.NR_DIRECT_BLOCKS - cfg.NR_INDIRECT_BLOCKS) % cfg.NR_INDIRECT_BLOCKS
          < cfg.NR_INDIRECT_BLOCKS := Nat.mod_lt _ hcfg.ind_pos
      by_cases hi : s.i_dindirect > 0
      · simp only [hi, if_true]
        by_cases he : getInt (s.disk s.i_dindirect)
            ((j - cfg.NR_DIRECT_BLOCKS - cfg.NR_INDIRECT_BLOCKS) / cfg.NR_INDIRECT_BLOCKS) > 0
        · simp only [he, if_true]
          exact slot_ok_nonneg (h.dd_entries hi _ hk he _ hm)
        · simp only [he, if_false]
          exact le_refl 0
      · simp only [hi, if_false]
        exact le_refl 0

/-- The function `testfs_allocate_block` on a well-formed state and an index
in range: the call returns; the state on return extends the state before
(size, flags, existing mappings and data blocks are kept); at most three
replies of the allocator are consumed; a negative result is a reply of the
allocator or the sign of an exhausted script; a non-negative result is
positive and is the block the index maps to afterwards. -/
theorem allocate_block_spec {cfg : Config} (hcfg : cfg.ok) {s : State}
    {o : Int → Option Slot} (h : WFo cfg s o) (i : Nat) (hi : i < cfg.capacity)
    (block : Block) :
    ∃ r s1 o1, testfs_allocate_block cfg s i block
        = .ok (r, s1, (testfs_read_block cfg s i block).2)
      ∧ Ext cfg s o s1 o1
      ∧ (∃ n, n ≤ 3 ∧ s1.alloc = s.alloc.drop n)
      ∧ (r < 0 → r ∈ s.alloc ∨ s.alloc.length < 3)
      ∧ (0 ≤ r → 0 < r ∧ phys cfg s1 i = r) := by
  have hnn := phys_nonneg hcfg h i hi
  unfold testfs_allocate_block
  rw [read_block_fst cfg s i block hi]
  by_cases hph : phys cfg s i ≠ 0
  · rw [if_pos hph]
    have hpos : 0 < phys cfg s i := lt_of_le_of_ne hnn (Ne.symm hph)
    exact ⟨_, s, o, rfl, Ext_refl h, ⟨0, by decide, rfl⟩,
      fun hneg => absurd hnn (not_le.mpr hneg), fun _ => ⟨hpos, rfl⟩⟩
  · rw [if_neg hph]
    have hph0 : phys cfg s i = 0 := not_not.mp hph
    by_cases h1 : i < cfg.NR_DIRECT_BLOCKS
    · rw [if_pos h1]
      have hz : s.i_block_nr i = 0 := by
        unfold phys at hph0
        rw [if_pos h1] at hph0
        exact hph0
      rw [if_neg (not_not.mpr hz)]
      obtain ⟨hag, hdrop, hok, hmem⟩ := alloc_spec h
      have hwa := WFo_agree h hag 1 hdrop
      by_cases ha : (testfs_alloc_block_for_inode s).1 ≥ 0
      · rw [if_pos ha]
        obtain ⟨hpos, _, hown, hnotin, _⟩ := hok ha
        have hlink := link_direct hwa _ hpos hown hnotin i h1
          (by rw [hag.direct]; exact hz)
        exact ⟨_, _, _, rfl, Ext_trans (Ext_of_agree hcfg h hag 1 hdrop) hlink.1,
          ⟨1, by decide, hdrop⟩, fun hneg => absurd ha (not_le.mpr hneg),
          fun _ => ⟨hpos, hlink.2⟩⟩
      · rw [if_neg ha]
        exact ⟨_, _, o, rfl, Ext_of_agree hcfg h hag 1 hdrop, ⟨1, by decide, hdrop⟩,
          fun _ => fail_source (n := 0) rfl (by decide) hmem, fun h0 => absurd h0 ha⟩
    · rw [if_neg h1]
      by_cases h2 : i - cfg.NR_DIRECT_BLOCKS < cfg.NR_INDIRECT_BLOCKS
      · rw [if_pos h2]
        have hhole : 0 < s.i_indirect →
            getInt (s.disk s.i_indirect) (i - cfg.NR_DIRECT_BLOCKS) = 0 := by
          intro hp
          unfold phys at hph0
          rw [if_neg h1, if_pos h2, if_pos hp] at hph0
          exact hph0
        obtain ⟨r, s1, o1, heq, hext, hn, hfs, hok⟩ :=
          allocate_indirect_spec hcfg h (i - cfg.NR_DIRECT_BLOCKS) hhole
            (testfs_read_block cfg s i block).2
        refine ⟨r, s1, o1, heq, hext, hn, hfs, fun hr => ?_⟩
        obtain ⟨hrpos, hsi, hse⟩ := hok hr
        refine ⟨hrpos, ?_⟩
        unfold phys
        rw [if_neg h1, if_pos h2, if_pos hsi]
        exact hse
      · rw [if_neg h2]
        have h3 : i - cfg.NR_DIRECT_BLOCKS - cfg.NR_INDIRECT_BLOCKS
            < cfg.MAX_NR_DOUBLY_INDIRECT_BLOCKS := by
          unfold Config.capacity at hi
          clear hnn hph hph0 h
          omega
        rw [if_pos h3]
        have hhole : 0 < s.i_dindirect →
            0 < getInt (s.disk s.i_dindirect)
              ((i - cfg.NR_DIRECT_BLOCKS - cfg.NR_INDIRECT_BLOCKS) / cfg.NR_INDIRECT_BLOCKS) →
            getInt (s.disk (getInt (s.disk s.i_dindirect)
              ((i - cfg.NR_DIRECT_BLOCKS - cfg.NR_INDIRECT_BLOCKS) / cfg.NR_INDIRECT_BLOCKS)))
              ((i - cfg.NR_DIRECT_BLOCKS - cfg.NR_INDIRECT_BLOCKS) % cfg.NR_INDIRECT_BLOCKS)
              = 0 := by
          intro hp he
          unfold phys at hph0
          rw [if_neg h1, if_neg h2, if_pos hp, if_pos he] at hph0
          exact hph0
        obtain ⟨r, s1, o1, heq, hext, hn, hfs, hok⟩ :=
          allocate_dindirect_spec hcfg h
            (i - cfg.NR_DIRECT_BLOCKS - cfg.NR_INDIRECT_BLOCKS) (dentry_index_lt hcfg hi) hhole
            (testfs_read_block cfg s i block).2
        refine ⟨r, s1, o1, heq, hext, hn, hfs, fun hr => ?_⟩
        obtain ⟨hrpos, hsd, hse, hsm⟩ := hok hr
        refine ⟨hrpos, ?_⟩
        unfold phys
        rw [if_neg h1, if_neg h2, if_pos hsd, if_pos hse]
        exact hsm

theorem lor_sets_flag (a d : Nat) : (a ||| d) &&& d = d := by
  apply Nat.eq_of_testBit_eq
  intro i
  simp only [Nat.testBit_and, Nat.testBit_or]
  cases a.testBit i <;> cases d.testBit i <;> rfl

theorem advance_size_dirty (cfg : Config) (s : State) (start size n : Nat) :
    is_dirty cfg (advance_size cfg s start size n) := by
  unfold is_dirty advance_size
  exact lor_sets_flag _ _

theorem toInt64_small (n : Nat) (h : n < 9223372036854775808) : toInt64 n = (n : Int) := by
  unfold toInt64
  have h1 : n % 18446744073709551616 = n := Nat.mod_eq_of_lt (by omega)
  rw [h1, if_pos h]

/-- Writing a data block of a mapped logical index keeps the structure and
all mappings, and changes the content of that block only. -/
theorem write_data_block {cfg : Config} (hcfg : cfg.ok) {s : State} {o : Int → Option Slot}
    (h : WFo cfg s o) (i : Nat) (hi : i < cfg.capacity) (hp : 0 < phys cfg s i) (x : Block) :
    WFo cfg (write_blocks s x (phys cfg s i)) o
    ∧ (∀ j, j < cfg.capacity → phys cfg (write_blocks s x (phys cfg s i)) j = phys cfg s j)
    ∧ (write_blocks s x (phys cfg s i)).disk (phys cfg s i) = x
    ∧ (∀ j, j < cfg.capacity → j ≠ i → 0 < phys cfg s j →
        (write_blocks s x (phys cfg s i)).disk (phys cfg s j) = s.disk (phys cfg s j)) := by
  have hown := phys_owner hcfg h i hi hp
  have hq : ∀ l, o (phys cfg s i) = some l → l.is_meta = false := by
    intro l hl
    rw [hown] at hl
    rw [← Option.some.inj hl]
    exact slot_of_not_meta cfg i
  rw [write_blocks_eq]
  refine ⟨WFo_set_disk h _ x hq, fun j hj => phys_set_disk hcfg h _ x hq j hj,
    set_disk_same _ _ _, ?_⟩
  intro j hj hji hpj
  exact set_disk_other _ _ _ _ (phys_inj hcfg h hj hi hpj hp hji)

theorem div_mod_of_eq (a i b r : Nat) (h : a = i * b + r) (hr : r < b) :
    a / b = i ∧ a % b = r := by
  have hb : 0 < b := by omega
  rw [Nat.div_mod_unique hb]
  constructor
  · rw [h, Nat.mul_comm]; omega
  · exact hr

theorem div_lt_of_lt_mul (a b c : Nat) (hb : 0 < b) (h : a < c * b) : a / b < c := by
  rw [Nat.div_lt_iff_lt_mul hb]
  exact h

theorem div_ne_of_lt (a i b : Nat) (hb : 0 < b) (h : a < i * b) : a / b ≠ i := by
  have := div_lt_of_lt_mul a b i hb h
  omega

/-- Bytes already in the file stay in the file when the state is extended. -/
theorem Written_ext {cfg : Config} (hcfg : cfg.ok) {s s1 : State} {o o1 : Int → Option Slot}
    (h : WFo cfg s o) (hext : Ext cfg s o s1 o1) (buf : Block) (start w : Nat)
    (hcap : start + w ≤ cfg.capacity * cfg.BLOCK_SIZE) (hw : Written cfg s buf start w) :
    Written cfg s1 buf start w := by
  intro x hx
  obtain ⟨hp, hd⟩ := hw x hx
  have hj : (start + x) / cfg.BLOCK_SIZE < cfg.capacity :=
    div_lt_of_lt_mul _ _ _ hcfg.bs_pos (by omega)
  have hk := hext.phys_keep _ hj hp
  rw [hk]
  refine ⟨hp, ?_⟩
  rw [hext.data_keep _ _ (phys_owner hcfg h _ hj hp) (slot_of_not_meta cfg _)]
  exact hd

/-- One block of `testfs_write_data`: allocate logical block `i` and, on
success, write the scratch buffer with `n` bytes of `buf` spliced in at
offset `off`. The bytes already in the file stay, the `n` new bytes are in the
file afterwards. -/
theorem block_step {cfg : Config} (hcfg : cfg.ok) {s : State} {o : Int → Option Slot}
    (h : WFo cfg s o) (i : Nat) (hi : i < cfg.capacity) (buf : Block) (start w off n : Nat)
    (hw : Written cfg s buf start w)
    (hbefore : ∀ x, x < w → (start + x) / cfg.BLOCK_SIZE ≠ i)
    (hpos : start + w = i * cfg.BLOCK_SIZE + off) (hfit : off + n ≤ cfg.BLOCK_SIZE)
    (block : Block) :
    ∃ r s1 o1, testfs_allocate_block cfg s i block
        = .ok (r, s1, (testfs_read_block cfg s i block).2)
      ∧ Ext cfg s o s1 o1
      ∧ (∃ k, k ≤ 3 ∧ s1.alloc = s.alloc.drop k)
      ∧ (r < 0 → (r ∈ s.alloc ∨ s.alloc.length < 3) ∧ Written cfg s1 buf start w)
      ∧ (0 ≤ r → 0 < r ∧ ∀ b1 : Block,
          WFo cfg (write_blocks s1 (memcpy b1 off buf w n) r) o1
          ∧ Written cfg (write_blocks s1 (memcpy b1 off buf w n) r) buf start (w + n)) := by
  have hbs := hcfg.bs_pos
  have hcapw : start + w ≤ cfg.capacity * cfg.BLOCK_SIZE := by
    have : i * cfg.BLOCK_SIZE + cfg.BLOCK_SIZE ≤ cfg.capacity * cfg.BLOCK_SIZE := by
      have := Nat.mul_le_mul_right cfg.BLOCK_SIZE (Nat.succ_le_of_lt hi)
      rw [Nat.succ_mul] at this
      exact this
    omega
  obtain ⟨r, s1, o1, heq, hext, hk, hfs, hok⟩ := allocate_block_spec hcfg h i hi block
  have hw1 := Written_ext hcfg h hext buf start w hcapw hw
  refine ⟨r, s1, o1, heq, hext, hk, fun hr => ⟨hfs hr, hw1⟩, fun hr => ?_⟩
  obtain ⟨hrpos, hph⟩ := hok hr
  refine ⟨hrpos, fun b1 => ?_⟩
  have hp : 0 < phys cfg s1 i := by rw [hph]; exact hrpos
  obtain ⟨hwf, hpk, hsame, hother⟩ := write_data_block hcfg hext.wf i hi hp (memcpy b1 off buf w n)
  rw [hph] at hwf hpk hsame hother
  refine ⟨hwf, ?_⟩
  intro x hx
  by_cases hxw : x < w
  · obtain ⟨hp1, hd1⟩ := hw1 x hxw
    have hj : (start + x) / cfg.BLOCK_SIZE < cfg.capacity :=
      div_lt_of_lt_mul _ _ _ hbs (by omega)
    rw [hpk _ hj]
    refine ⟨hp1, ?_⟩
    rw [hother _ hj (hbefore x hxw) hp1]
    exact hd1
  · obtain ⟨hdiv, hmod⟩ := div_mod_of_eq (start + x) i cfg.BLOCK_SIZE (off + (x - w))
      (by omega) (by omega)
    rw [hdiv, hmod, hpk i hi, hph]
    refine ⟨hrpos, ?_⟩
    rw [hsame]
    unfold memcpy
    rw [if_pos (by omega)]
    congr 1
    omega

theorem write_loop_done (cfg : Config) (buf : Block) (start size fuel : Nat) (s : State)
    (block : Block) (block_nr : Nat) :
    write_loop cfg buf start size fuel s block block_nr size
      = .ok (toInt32 size, advance_size cfg s start size size) := by
  cases fuel with
  | zero => rw [write_loop, if_pos rfl]
  | succ f => rw [write_loop, if_pos rfl]

theorem write_loop_step (cfg : Config) (buf : Block) (start size fuel : Nat) (s : State)
    (block : Block) (block_nr byte_written : Nat) (hne : byte_written ≠ size)
    (hidx : block_nr < 2147483648) (r : Int) (s1 : State) (b1 : Block)
    (heq : testfs_allocate_block cfg s block_nr block = .ok (r, s1, b1)) :
    write_loop cfg buf start size (fuel + 1) s block block_nr byte_written
      = if r < 0 then .ok (r, advance_size cfg s1 start size byte_written)
        else if size - byte_written ≥ cfg.BLOCK_SIZE then
          write_loop cfg buf start size fuel
            (write_blocks s1 (memcpy b1 0 buf byte_written cfg.BLOCK_SIZE) r)
            (memcpy b1 0 buf byte_written cfg.BLOCK_SIZE) (block_nr + 1)
            (byte_written + cfg.BLOCK_SIZE)
        else
          write_loop cfg buf start size fuel
            (write_blocks s1 (memcpy b1 0 buf byte_written (size - byte_written)) r)
            (memcpy b1 0 buf byte_written (size - byte_written)) block_nr size := by
  rw [write_loop, if_neg hne, int_index_small _ hidx]
  simp only [heq]

theorem rem_blocks_succ (size bw bs : Nat) (hbs : 0 < bs) (h : size - bw ≥ bs) :
    (size - bw + bs - 1) / bs = (size - (bw + bs) + bs - 1) / bs + 1 := by
  have e : size - bw + bs - 1 = (size - (bw + bs) + bs - 1) + bs := by omega
  rw [e, Nat.add_div_right _ hbs]

theorem rem_blocks_pos (size bw bs : Nat) (hbs : 0 < bs) (h : bw < size) :
    1 ≤ (size - bw + bs - 1) / bs := by
  rw [Nat.le_div_iff_mul_le hbs]
  omega

theorem WFo_advance {cfg : Config} {s : State} {o : Int → Option Slot} (h : WFo cfg s o)
    (start size n : Nat) : WFo cfg (advance_size cfg s start size n) o :=
  { direct := h.direct, ind := h.ind, ind_entries := h.ind_entries, dind := h.dind
    dind_entries := h.dind_entries, dd_entries := h.dd_entries, fresh := h.fresh
    distinct := h.distinct }

theorem Written_advance {cfg : Config} {s : State} {buf : Block} {start w : Nat}
    (h : Written cfg s buf start w) (st size n : Nat) :
    Written cfg (advance_size cfg s st size n) buf start w := h

theorem advance_size_i_size (cfg : Config) (s : State) (start size n : Nat) (hs : 0 < size)
    (hn : n < 9223372036854775808) :
    (advance_size cfg s start size n).i_size = max s.i_size ((start : Int) + n) := by
  unfold advance_size
  simp only [gt_iff_lt, hs, if_true]
  rw [toInt64_small n hn]

theorem three_mul_succ_bound (len k m : Nat) (hk : k ≤ 3) (h : len - k < 3 * m) :
    len < 3 * (m + 1) := by omega

/-- The `while` loop of `testfs_write_data` on a well-formed state: it ends,
with all bytes written or with the error of the first failed allocation. -/
theorem write_loop_spec {cfg : Config} (hcfg : cfg.ok) (buf : Block) (start size : Nat)
    (hsize : size < 2147483648) :
    ∀ (fuel : Nat) (s : State) (o : Int → Option Slot) (block : Block)
      (block_nr bw : Nat),
      WFo cfg s o → Written cfg s buf start bw → 0 < bw → bw ≤ size →
      (bw < size → start + bw = block_nr * cfg.BLOCK_SIZE ∧ block_nr ≤ cfg.capacity
        ∧ cfg.capacity + 1 ≤ block_nr + fuel) →
      ∃ r s1, write_loop cfg buf start size fuel s block block_nr bw = .ok (r, s1)
        ∧ is_dirty cfg s1
        ∧ (WriteDone cfg s buf start size r s1 ∨ WriteFailed cfg s buf start size bw r s1) := by
  have hbs := hcfg.bs_pos
  have hcapi := hcfg.cap_int
  intro fuel
  induction fuel with
  | zero =>
    intro s o block block_nr bw h hw hbw hle hal
    have he : bw = size := by
      by_contra hne
      have := hal (lt_of_le_of_ne hle hne)
      omega
    subst he
    refine ⟨_, _, write_loop_done cfg buf start bw 0 s block block_nr,
      advance_size_dirty _ _ _ _ _, Or.inl ?_⟩
    exact ⟨toInt32_small _ (by omega) (by omega), ⟨o, WFo_advance h _ _ _⟩,
      Written_advance hw _ _ _, advance_size_i_size _ _ _ _ _ hbw (by omega), 0, rfl⟩
  | succ fuel ih =>
    intro s o block block_nr bw h hw hbw hle hal
    by_cases he : bw = size
    · subst he
      refine ⟨_, _, write_loop_done cfg buf start bw (fuel + 1) s block block_nr,
        advance_size_dirty _ _ _ _ _, Or.inl ?_⟩
      exact ⟨toInt32_small _ (by omega) (by omega), ⟨o, WFo_advance h _ _ _⟩,
        Written_advance hw _ _ _, advance_size_i_size _ _ _ _ _ hbw (by omega), 0, rfl⟩
    · have hlt : bw < size := lt_of_le_of_ne hle he
      obtain ⟨hal1, hal2, hal3⟩ := hal hlt
      have hidx : block_nr < 2147483648 := by omega
      have hmod : (start + bw) % cfg.BLOCK_SIZE = 0 := by
        rw [hal1]
        exact Nat.mul_mod_left _ _
      by_cases hcap : block_nr = cfg.capacity
      · have hoor := allocate_block_out_of_range cfg s block_nr block (le_of_eq hcap.symm)
        rw [write_loop_step cfg buf start size fuel s block block_nr bw he hidx _ _ _ hoor,
          if_pos (by decide)]
        refine ⟨_, _, rfl, advance_size_dirty _ _ _ _ _, Or.inr ⟨by decide, bw, le_refl bw, hlt,
          hmod, advance_size_i_size _ _ _ _ _ (by omega) (by omega), Written_advance hw _ _ _,
          ⟨o, WFo_advance h _ _ _⟩, Or.inr (Or.inr ⟨rfl, ?_⟩), 0, rfl⟩⟩
        rw [← hcap, ← hal1]
        omega
      · have hi : block_nr < cfg.capacity := lt_of_le_of_ne hal2 hcap
        have hbefore : ∀ x, x < bw → (start + x) / cfg.BLOCK_SIZE ≠ block_nr :=
          fun x hx => div_ne_of_lt _ _ _ hbs (by omega)
        by_cases hfull : size - bw ≥ cfg.BLOCK_SIZE
        · obtain ⟨r, s1, o1, heq, hext, ⟨k, hk, hdrop⟩, hfail, hok⟩ :=
            block_step hcfg h block_nr hi buf start bw 0 cfg.BLOCK_SIZE hw hbefore
              (by omega) (by omega) block
          rw [write_loop_step cfg buf start size fuel s block block_nr bw he hidx _ _ _ heq]
          by_cases hr : r < 0
          · rw [if_pos hr]
            obtain ⟨hsrc, hw1⟩ := hfail hr
            refine ⟨_, _, rfl, advance_size_dirty _ _ _ _ _, Or.inr ⟨hr, bw, le_refl bw, hlt,
              hmod, ?_, Written_advance hw1 _ _ _, ⟨o1, WFo_advance hext.wf _ _ _⟩, ?_,
              k, hdrop⟩⟩
            · rw [advance_size_i_size _ _ _ _ _ (by omega) (by omega), hext.size]
            · rcases hsrc with hsrc | hsrc
              · exact Or.inl hsrc
              · right; left
                have := rem_blocks_pos size bw cfg.BLOCK_SIZE hbs hlt
                omega
          · rw [if_neg hr, if_pos hfull]
            obtain ⟨_, hstep⟩ := hok (not_lt.mp hr)
            obtain ⟨hwf2, hw2⟩ := hstep (testfs_read_block cfg s block_nr block).2
            obtain ⟨r2, s2, heq2, hdirty, hout⟩ := ih _ o1 _ (block_nr + 1) (bw + cfg.BLOCK_SIZE)
              hwf2 hw2 (by omega) (by omega)
              (fun _ => ⟨by rw [Nat.succ_mul]; omega, by omega, by omega⟩)
            refine ⟨r2, s2, heq2, hdirty, ?_⟩
            rcases hout with ⟨h1, h2, h3, h4, k2, h5⟩ |
              ⟨h1, w, h2, h3, h4, h5, h6, h7, h8, k3, h10⟩
            · left
              refine ⟨h1, h2, h3, ?_, k2 + k, ?_⟩
              · rw [h4]
                show max s1.i_size _ = _
                rw [hext.size]
              · rw [h5]
                show s1.alloc.drop k2 = _
                rw [hdrop, List.drop_drop, Nat.add_comm]
            · right
              have h11 : s2.alloc = s.alloc.drop (k3 + k) := by
                rw [h10]
                show s1.alloc.drop k3 = _
                rw [hdrop, List.drop_drop, Nat.add_comm]
              refine ⟨h1, w, by omega, h3, h4, ?_, h6, h7, ?_, k3 + k, h11⟩
              · rw [h5]
                show max s1.i_size _ = _
                rw [hext.size]
              · rcases h8 with h8 | h8 | h8
                · left
                  have h9 : r2 ∈ s1.alloc := h8
                  rw [hdrop] at h9
                  exact List.mem_of_mem_drop h9
                · right; left
                  have h9 : s1.alloc.length
                      < 3 * ((size - (bw + cfg.BLOCK_SIZE) + cfg.BLOCK_SIZE - 1)
                        / cfg.BLOCK_SIZE) := h8
                  rw [hdrop, List.length_drop] at h9
                  rw [rem_blocks_succ size bw cfg.BLOCK_SIZE hbs hfull]
                  exact three_mul_succ_bound _ _ _ hk h9
                · exact Or.inr (Or.inr h8)
        · obtain ⟨r, s1, o1, heq, hext, ⟨k, hk, hdrop⟩, hfail, hok⟩ :=
            block_step hcfg h block_nr hi buf start bw 0 (size - bw) hw hbefore
              (by omega) (by omega) block
          rw [write_loop_step cfg buf start size fuel s block block_nr bw he hidx _ _ _ heq]
          by_cases hr : r < 0
          · rw [if_pos hr]
            obtain ⟨hsrc, hw1⟩ := hfail hr
            refine ⟨_, _, rfl, advance_size_dirty _ _ _ _ _, Or.inr ⟨hr, bw, le_refl bw, hlt,
              hmod, ?_, Written_advance hw1 _ _ _, ⟨o1, WFo_advance hext.wf _ _ _⟩, ?_,
              k, hdrop⟩⟩
            · rw [advance_size_i_size _ _ _ _ _ (by omega) (by omega), hext.size]
            · rcases hsrc with hsrc | hsrc
              · exact Or.inl hsrc
              · right; left
                have := rem_blocks_pos size bw cfg.BLOCK_SIZE hbs hlt
                omega
          · rw [if_neg hr, if_neg hfull, write_loop_done]
            obtain ⟨_, hstep⟩ := hok (not_lt.mp hr)
            obtain ⟨hwf2, hw2⟩ := hstep (testfs_read_block cfg s block_nr block).2
            have hbs2 : bw + (size - bw) = size := by omega
            rw [hbs2] at hw2
            refine ⟨_, _, rfl, advance_size_dirty _ _ _ _ _, Or.inl ?_⟩
            refine ⟨toInt32_small _ (by omega) (by omega), ⟨o1, WFo_advance hwf2 _ _ _⟩,
              Written_advance hw2 _ _ _, ?_, k, hdrop⟩
            rw [advance_size_i_size _ _ _ _ _ (by omega) (by omega)]
            show max s1.i_size _ = _
            rw [hext.size]

theorem rem_blocks_first (size ix bs : Nat) (hbs : 0 < bs) (hix : ix < bs) (h : bs < ix + size) :
    (size - (bs - ix) + bs - 1) / bs + 1 = (ix + size + bs - 1) / bs := by
  have e : ix + size + bs - 1 = (size - (bs - ix) + bs - 1) + bs := by omega
  rw [e, Nat.add_div_right _ hbs]

theorem blocks_pos (size ix bs : Nat) (hbs : 0 < bs) (h : 0 < ix + size) :
    1 ≤ (ix + size + bs - 1) / bs := by
  rw [Nat.le_div_iff_mul_le hbs]
  omega

/-- The function `testfs_write_data` on a well-formed state, for a request of
fewer than `2^31` bytes that starts inside the logical range: the call
returns. A non-negative result is the byte count, with the bytes in the file,
`i_size` advanced and the inode dirty. A negative result is a reply of the
allocator, the sign of an exhausted script, or the range error; on the
multi-block path either nothing was written and size and flags are unchanged,
or a first part of the request is in the file, covered by `i_size`. -/
theorem write_data_spec {cfg : Config} (hcfg : cfg.ok) {s : State} {o : Int → Option Slot}
    (h : WFo cfg s o) (buf : Block) (start size : Nat) (hsize : size < 2147483648)
    (hstart : start / cfg.BLOCK_SIZE < cfg.capacity) :
    ∃ r s1, testfs_write_data cfg s buf start size = .ok (r, s1) ∧ WF cfg s1
      ∧ (∃ k, s1.alloc = s.alloc.drop k)
      ∧ (0 ≤ r → r = (size : Int) ∧ Written cfg s1 buf start size
          ∧ s1.i_size = (if size > 0 then max s.i_size ((start : Int) + size) else s.i_size)
          ∧ is_dirty cfg s1)
      ∧ (r < 0 →
          (r ∈ s.alloc
            ∨ s.alloc.length
                < 3 * max 1 ((start % cfg.BLOCK_SIZE + size + cfg.BLOCK_SIZE - 1) / cfg.BLOCK_SIZE)
            ∨ (r = -EFBIG ∧ cfg.capacity * cfg.BLOCK_SIZE < start + size))
          ∧ (start % cfg.BLOCK_SIZE + size > cfg.BLOCK_SIZE →
              (s1.i_size = s.i_size ∧ s1.i_flags = s.i_flags
                ∧ (testfs_allocate_block cfg s (start / cfg.BLOCK_SIZE) zero_block).ret = some r)
              ∨ (is_dirty cfg s1 ∧ ∃ w, cfg.BLOCK_SIZE - start % cfg.BLOCK_SIZE ≤ w ∧ w < size
                  ∧ (start + w) % cfg.BLOCK_SIZE = 0
                  ∧ s1.i_size = max s.i_size ((start : Int) + w)
                  ∧ Written cfg s1 buf start w))
          ∧ (start % cfg.BLOCK_SIZE + size ≤ cfg.BLOCK_SIZE →
              is_dirty cfg s1
              ∧ s1.i_size
                = (if size > 0 then max s.i_size ((start : Int) + size) else s.i_size))) := by
  have hbs := hcfg.bs_pos
  have hbsi := hcfg.bs_int
  have hcapi := hcfg.cap_int
  have hix : start % cfg.BLOCK_SIZE < cfg.BLOCK_SIZE := Nat.mod_lt _ hbs
  have hidx : int_index (start / cfg.BLOCK_SIZE) = .ok (start / cfg.BLOCK_SIZE) :=
    int_index_small _ (by omega)
  have hwrap : (start % cfg.BLOCK_SIZE + size) % 18446744073709551616
      = start % cfg.BLOCK_SIZE + size := Nat.mod_eq_of_lt (by omega)
  have hdm := Nat.div_add_mod start cfg.BLOCK_SIZE
  have hpos0 : start + 0 = start / cfg.BLOCK_SIZE * cfg.BLOCK_SIZE + start % cfg.BLOCK_SIZE := by
    rw [Nat.mul_comm]
    omega
  have hw0 : Written cfg s buf start 0 := fun x hx => absurd hx (Nat.not_lt_zero x)
  unfold testfs_write_data
  rw [hwrap, hidx]
  by_cases hmulti : start % cfg.BLOCK_SIZE + size > cfg.BLOCK_SIZE
  · rw [if_pos hmulti]
    obtain ⟨r, s1, o1, heq, hext, ⟨k, hk, hdrop⟩, hfail, hok⟩ :=
      block_step hcfg h (start / cfg.BLOCK_SIZE) hstart buf start 0 (start % cfg.BLOCK_SIZE)
        (cfg.BLOCK_SIZE - start % cfg.BLOCK_SIZE) hw0
        (fun x hx => absurd hx (Nat.not_lt_zero x)) hpos0 (by omega) zero_block
    simp only [heq]
    have hnb := blocks_pos size (start % cfg.BLOCK_SIZE) cfg.BLOCK_SIZE hbs (by omega)
    by_cases hr : r < 0
    · rw [if_pos hr]
      refine ⟨r, s1, rfl, ⟨o1, hext.wf⟩, ⟨k, hdrop⟩, fun h0 => absurd hr (not_lt.mpr h0),
        fun _ => ⟨?_, fun _ => Or.inl ⟨hext.size, hext.flags, rfl⟩, fun hle => ?_⟩⟩
      · rcases (hfail hr).1 with hsrc | hsrc
        · exact Or.inl hsrc
        · right; left
          have : 1 ≤ max 1 ((start % cfg.BLOCK_SIZE + size + cfg.BLOCK_SIZE - 1)
            / cfg.BLOCK_SIZE) := le_max_left _ _
          omega
      · omega
    · rw [if_neg hr]
      obtain ⟨_, hstep⟩ := hok (not_lt.mp hr)
      obtain ⟨hwf2, hw2⟩ := hstep (testfs_read_block cfg s (start / cfg.BLOCK_SIZE) zero_block).2
      rw [Nat.zero_add] at hw2
      obtain ⟨r2, s2, heq2, hdirty, hout⟩ := write_loop_spec hcfg buf start size hsize
        (cfg.capacity + 1) _ o1 _ (start / cfg.BLOCK_SIZE + 1)
        (cfg.BLOCK_SIZE - start % cfg.BLOCK_SIZE) hwf2 hw2 (by omega) (by omega)
        (fun _ => ⟨by rw [Nat.succ_mul, Nat.mul_comm]; omega, by omega,
          Nat.le_add_left (cfg.capacity + 1) (start / cfg.BLOCK_SIZE + 1)⟩)
      refine ⟨r2, s2, heq2, ?_⟩
      rcases hout with ⟨h1, h2, h3, h4, k2, h5⟩ | ⟨h1, w, h2, h3, h4, h5, h6, h7, h8, k3, h10⟩
      · have hr2 : ¬ r2 < 0 := by
          rw [h1]
          omega
        refine ⟨h2, ⟨k2 + k, ?_⟩, fun _ => ⟨h1, h3, ?_, hdirty⟩, fun hneg => absurd hneg hr2⟩
        · rw [h5]
          show s1.alloc.drop k2 = _
          rw [hdrop, List.drop_drop, Nat.add_comm]
        · rw [if_pos (by omega), h4]
          show max s1.i_size _ = _
          rw [hext.size]
      · have hs5 : s2.i_size = max s.i_size ((start : Int) + w) := by
          rw [h5]
          show max s1.i_size _ = _
          rw [hext.size]
        obtain ⟨o2, hwf3⟩ := h7
        have hdrop2 : ∃ k2, s2.alloc = s.alloc.drop k2 := by
          refine ⟨k3 + k, ?_⟩
          rw [h10]
          show s1.alloc.drop k3 = _
          rw [hdrop, List.drop_drop, Nat.add_comm]
        refine ⟨⟨o2, hwf3⟩, hdrop2, fun h0 => absurd h1 (not_lt.mpr h0),
          fun _ => ⟨?_, fun _ => Or.inr ⟨hdirty, w, h2, h3, h4, hs5, h6⟩, fun hle => ?_⟩⟩
        · rcases h8 with h8 | h8 | h8
          · left
            have h9 : r2 ∈ s1.alloc := h8
            rw [hdrop] at h9
            exact List.mem_of_mem_drop h9
          · right; left
            have h9 : s1.alloc.length
                < 3 * ((size - (cfg.BLOCK_SIZE - start % cfg.BLOCK_SIZE) + cfg.BLOCK_SIZE - 1)
                  / cfg.BLOCK_SIZE) := h8
            rw [hdrop, List.length_drop] at h9
            have h10 := three_mul_succ_bound _ _ _ hk h9
            rw [rem_blocks_first size (start % cfg.BLOCK_SIZE) cfg.BLOCK_SIZE hbs hix
              (by omega)] at h10
            exact lt_of_lt_of_le h10 (Nat.mul_le_mul_left 3 (le_max_right _ _))
          · exact Or.inr (Or.inr h8)
        · omega
  · rw [if_neg hmulti]
    obtain ⟨r, s1, o1, heq, hext, ⟨k, hk, hdrop⟩, hfail, hok⟩ :=
      block_step hcfg h (start / cfg.BLOCK_SIZE) hstart buf start 0 (start % cfg.BLOCK_SIZE)
        size hw0 (fun x hx => absurd hx (Nat.not_lt_zero x)) hpos0 (by omega) zero_block
    simp only [heq]
    have hadv : ∀ x : State, x.i_size = s.i_size →
        (advance_size cfg x start size size).i_size
          = (if size > 0 then max s.i_size ((start : Int) + size) else s.i_size) := by
      intro x hx
      unfold advance_size
      simp only [gt_iff_lt]
      rw [toInt64_small size (by omega), hx]
    by_cases hr : r < 0
    · rw [if_pos hr]
      refine ⟨r, _, rfl, ⟨o1, WFo_advance hext.wf _ _ _⟩, ⟨k, hdrop⟩,
        fun h0 => absurd hr (not_lt.mpr h0),
        fun _ => ⟨?_, fun hm => absurd hm hmulti,
          fun _ => ⟨advance_size_dirty _ _ _ _ _, hadv s1 hext.size⟩⟩⟩
      rcases (hfail hr).1 with hsrc | hsrc
      · exact Or.inl hsrc
      · right; left
        have : 1 ≤ max 1 ((start % cfg.BLOCK_SIZE + size + cfg.BLOCK_SIZE - 1)
          / cfg.BLOCK_SIZE) := le_max_left _ _
        omega
    · rw [if_neg hr]
      obtain ⟨_, hstep⟩ := hok (not_lt.mp hr)
      obtain ⟨hwf2, hw2⟩ := hstep (testfs_read_block cfg s (start / cfg.BLOCK_SIZE) zero_block).2
      rw [Nat.zero_add] at hw2
      have hts : toInt32 (size : Int) = size := toInt32_small _ (by omega) (by omega)
      rw [hts]
      refine ⟨_, _, rfl, ⟨o1, WFo_advance hwf2 _ _ _⟩, ⟨k, hdrop⟩,
        fun _ => ⟨rfl, Written_advance hw2 _ _ _, hadv _ hext.size, advance_size_dirty _ _ _ _ _⟩,
        fun hneg => absurd hneg (not_lt.mpr (Int.ofNat_nonneg size))⟩

theorem read_block_finish_pos (s : State) (v : Int) (hv : 0 < v) :
    read_block_finish s v = (v, s.disk v) := by
  unfold read_block_finish read_blocks
  rw [if_pos hv]

/-- For a mapped logical index `testfs_read_block` returns the physical block
number and loads that block into the scratch buffer. -/
theorem read_block_mapped (cfg : Config) (s : State) (i : Nat) (block : Block)
    (h : i < cfg.capacity) (hp : 0 < phys cfg s i) :
    testfs_read_block cfg s i block = (phys cfg s i, s.disk (phys cfg s i)) := by
  unfold Config.capacity at h
  unfold phys at hp ⊢
  unfold testfs_read_block read_blocks
  by_cases h1 : i < cfg.NR_DIRECT_BLOCKS
  · simp only [h1, if_true] at hp ⊢
    exact read_block_finish_pos s _ hp
  · by_cases h2 : i - cfg.NR_DIRECT_BLOCKS < cfg.NR_INDIRECT_BLOCKS
    · simp only [h1, h2, if_true, if_false] at hp ⊢
      by_cases hi : s.i_indirect > 0
      · simp only [hi, if_true] at hp ⊢
        exact read_block_finish_pos s _ hp
      · simp only [hi, if_false] at hp
        exact absurd hp (lt_irrefl 0)
    · have h3 : i - cfg.NR_DIRECT_BLOCKS - cfg.NR_INDIRECT_BLOCKS
          < cfg.MAX_NR_DOUBLY_INDIRECT_BLOCKS := by omega
      simp only [h1, h2, h3, if_true, if_false] at hp ⊢
      by_cases hi : s.i_dindirect > 0
      · simp only [hi, if_true] at hp ⊢
        by_cases he : getInt (s.disk s.i_dindirect)
            ((i - cfg.NR_DIRECT_BLOCKS - cfg.NR_INDIRECT_BLOCKS) / cfg.NR_INDIRECT_BLOCKS) > 0
        · simp only [he, if_true] at hp ⊢
          exact read_block_finish_pos s _ hp
        · simp only [he, if_false] at hp
          exact absurd hp (lt_irrefl 0)
      · simp only [hi, if_false] at hp
        exact absurd hp (lt_irrefl 0)

theorem read_loop_done (cfg : Config) (s : State) (size fuel : Nat) (block : Block)
    (block_nr : Nat) (buf : Block) :
    read_loop cfg s size fuel block block_nr size buf = .ok (toInt32 size, buf) := by
  cases fuel with
  | zero => rw [read_loop, if_pos rfl]
  | succ f => rw [read_loop, if_pos rfl]

theorem read_loop_step (cfg : Config) (s : State) (size fuel : Nat) (block : Block)
    (block_nr byte_read : Nat) (buf : Block) (hne : byte_read ≠ size)
    (hidx : block_nr < cfg.capacity) (hcap : cfg.capacity < 2147483648)
    (hp : 0 < phys cfg s block_nr) :
    read_loop cfg s size (fuel + 1) block block_nr byte_read buf
      = if size - byte_read ≥ cfg.BLOCK_SIZE then
          read_loop cfg s size fuel (s.disk (phys cfg s block_nr)) (block_nr + 1)
            (byte_read + cfg.BLOCK_SIZE)
            (memcpy buf byte_read (s.disk (phys cfg s block_nr)) 0 cfg.BLOCK_SIZE)
        else
          read_loop cfg s size fuel (s.disk (phys cfg s block_nr)) block_nr size
            (memcpy buf byte_read (s.disk (phys cfg s block_nr)) 0 (size - byte_read)) := by
  rw [read_loop, if_neg hne, int_index_small _ (lt_trans hidx hcap)]
  simp only [read_block_mapped cfg s block_nr block hidx hp]
  rw [if_neg (not_lt.mpr (le_of_lt hp))]

/-- The `while` loop of `testfs_read_data` over a range whose bytes are in the
file: it ends with the requested count and the caller's buffer holds the bytes
of the file. -/
theorem read_loop_spec {cfg : Config} (hcfg : cfg.ok) (s : State) (buf : Block)
    (start size : Nat) (hw : Written cfg s buf start size)
    (hcap : start + size ≤ cfg.capacity * cfg.BLOCK_SIZE) :
    ∀ (fuel : Nat) (block : Block) (block_nr byte_read : Nat) (out : Block),
      byte_read ≤ size →
      (∀ x, x < byte_read → out x = buf x) →
      (byte_read < size → start + byte_read = block_nr * cfg.BLOCK_SIZE
        ∧ size - byte_read ≤ fuel * cfg.BLOCK_SIZE) →
      ∃ out1, read_loop cfg s size fuel block block_nr byte_read out = .ok (toInt32 size, out1)
        ∧ ∀ x, x < size → out1 x = buf x := by
  have hbs := hcfg.bs_pos
  intro fuel
  induction fuel with
  | zero =>
    intro block block_nr byte_read out hle hout hal
    have he : byte_read = size := by
      by_contra hne
      have := hal (lt_of_le_of_ne hle hne)
      omega
    subst he
    exact ⟨out, read_loop_done cfg s byte_read 0 block block_nr out, hout⟩
  | succ fuel ih =>
    intro block block_nr byte_read out hle hout hal
    by_cases he : byte_read = size
    · subst he
      exact ⟨out, read_loop_done cfg s byte_read (fuel + 1) block block_nr out, hout⟩
    · have hlt : byte_read < size := lt_of_le_of_ne hle he
      obtain ⟨hal1, hal2⟩ := hal hlt
      obtain ⟨hdiv, _⟩ := div_mod_of_eq (start + byte_read) block_nr cfg.BLOCK_SIZE 0
        (by omega) hbs
      have hidx : block_nr < cfg.capacity := by
        rw [← hdiv]
        exact div_lt_of_lt_mul _ _ _ hbs (by omega)
      have hp : 0 < phys cfg s block_nr := by
        have := (hw byte_read hlt).1
        rw [hdiv] at this
        exact this
      have hbyte : ∀ x, byte_read ≤ x → x < byte_read + cfg.BLOCK_SIZE → x < size →
          s.disk (phys cfg s block_nr) (0 + (x - byte_read)) = buf x := by
        intro x hx1 hx2 hx3
        obtain ⟨hd, hm⟩ := div_mod_of_eq (start + x) block_nr cfg.BLOCK_SIZE (x - byte_read)
          (by omega) (by omega)
        have := (hw x hx3).2
        rw [hd, hm] at this
        rw [Nat.zero_add]
        exact this
      rw [read_loop_step cfg s size fuel block block_nr byte_read out he hidx hcfg.cap_int hp]
      by_cases hfull : size - byte_read ≥ cfg.BLOCK_SIZE
      · rw [if_pos hfull]
        refine ih _ (block_nr + 1) (byte_read + cfg.BLOCK_SIZE) _ (by omega) ?_
          (fun _ => ⟨by rw [Nat.succ_mul]; omega, by rw [Nat.succ_mul] at hal2; omega⟩)
        intro x hx
        unfold memcpy
        by_cases hxb : byte_read ≤ x
        · rw [if_pos ⟨hxb, hx⟩]
          exact hbyte x hxb hx (by omega)
        · rw [if_neg (fun hc => hxb hc.1)]
          exact hout x (by omega)
      · rw [if_neg hfull, read_loop_done]
        refine ⟨_, rfl, ?_⟩
        intro x hx
        unfold memcpy
        by_cases hxb : byte_read ≤ x
        · rw [if_pos ⟨hxb, by omega⟩]
          exact hbyte x hxb (by omega) hx
        · rw [if_neg (fun hc => hxb hc.1)]
          exact hout x (by omega)

/-- Reading a range whose bytes are in the file, below `i_size`: the call
returns the requested count and the caller's buffer holds the bytes. -/
theorem read_data_written {cfg : Config} (hcfg : cfg.ok) {s : State} {o : Int → Option Slot}
    (h : WFo cfg s o) (buf : Block) (start size : Nat) (hsize : size < 2147483648)
    (hw : Written cfg s buf start size)
    (hcap : start + size ≤ cfg.capacity * cfg.BLOCK_SIZE)
    (hstart : start / cfg.BLOCK_SIZE < cfg.capacity)
    (hsz : (start : Int) + size ≤ s.i_size) (out0 : Block) :
    ∃ out, testfs_read_data cfg s out0 start size = .ok ((size : Int), out)
      ∧ ∀ x, x < size → out x = buf x := by
  have hbs := hcfg.bs_pos
  have hbsi := hcfg.bs_int
  have hcapi := hcfg.cap_int
  have hix : start % cfg.BLOCK_SIZE < cfg.BLOCK_SIZE := Nat.mod_lt _ hbs
  have hidx : int_index (start / cfg.BLOCK_SIZE) = .ok (start / cfg.BLOCK_SIZE) :=
    int_index_small _ (by omega)
  have hclamp : read_clamp s start size = size := by
    unfold read_clamp
    rw [toInt64_small size (by omega), if_neg (not_lt.mpr hsz)]
  have hwrap : (start % cfg.BLOCK_SIZE + size) % 18446744073709551616
      = start % cfg.BLOCK_SIZE + size := Nat.mod_eq_of_lt (by omega)
  have hdm := Nat.div_add_mod start cfg.BLOCK_SIZE
  have hfirst : 0 < size → ∀ b : Block,
      testfs_read_block cfg s (start / cfg.BLOCK_SIZE) b
        = (phys cfg s (start / cfg.BLOCK_SIZE), s.disk (phys cfg s (start / cfg.BLOCK_SIZE))) :=
    fun hs b => read_block_mapped cfg s _ b hstart (hw 0 hs).1
  have hbyte : ∀ x, x < size → start % cfg.BLOCK_SIZE + x < cfg.BLOCK_SIZE →
      s.disk (phys cfg s (start / cfg.BLOCK_SIZE)) (start % cfg.BLOCK_SIZE + (x - 0)) = buf x := by
    intro x hx hxb
    obtain ⟨hd, hm⟩ := div_mod_of_eq (start + x) (start / cfg.BLOCK_SIZE) cfg.BLOCK_SIZE
      (start % cfg.BLOCK_SIZE + x) (by rw [Nat.mul_comm]; omega) hxb
    have := (hw x hx).2
    rw [hd, hm] at this
    exact this
  unfold testfs_read_data
  rw [hclamp, hwrap, hidx]
  by_cases hmulti : start % cfg.BLOCK_SIZE + size > cfg.BLOCK_SIZE
  · rw [if_pos hmulti]
    have hs : 0 < size := by omega
    simp only [hfirst hs]
    have hfuel : size - (cfg.BLOCK_SIZE - start % cfg.BLOCK_SIZE)
        ≤ (cfg.capacity + 1) * cfg.BLOCK_SIZE := by
      rw [Nat.succ_mul]
      omega
    obtain ⟨out, hrun, hout⟩ := read_loop_spec hcfg s buf start size hw hcap (cfg.capacity + 1)
      (s.disk (phys cfg s (start / cfg.BLOCK_SIZE))) (start / cfg.BLOCK_SIZE + 1)
      (cfg.BLOCK_SIZE - start % cfg.BLOCK_SIZE)
      (memcpy out0 0 (s.disk (phys cfg s (start / cfg.BLOCK_SIZE))) (start % cfg.BLOCK_SIZE)
        (cfg.BLOCK_SIZE - start % cfg.BLOCK_SIZE))
      (by omega)
      (fun x hx => by
        unfold memcpy
        rw [if_pos ⟨Nat.zero_le x, by omega⟩]
        exact hbyte x (by omega) (by omega))
      (fun _ => ⟨by rw [Nat.succ_mul, Nat.mul_comm]; omega, hfuel⟩)
    rw [toInt32_small _ (by omega) (by omega)] at hrun
    exact ⟨out, hrun, hout⟩
  · rw [if_neg hmulti]
    dsimp only
    have hnn : ¬ (testfs_read_block cfg s (start / cfg.BLOCK_SIZE) zero_block).1 < 0 := by
      rw [read_block_fst cfg s _ _ hstart]
      exact not_lt.mpr (phys_nonneg hcfg h _ hstart)
    rw [if_neg hnn, toInt32_small _ (by omega) (by omega)]
    refine ⟨_, rfl, ?_⟩
    intro x hx
    rw [hfirst (by omega)]
    unfold memcpy
    rw [if_pos ⟨Nat.zero_le x, by omega⟩]
    exact hbyte x hx (by omega)

theorem WFo_empty (cfg : Config) (s : State) (hd : ∀ j, s.i_block_nr j = 0)
    (hi : s.i_indirect = 0) (hdi : s.i_dindirect = 0)
    (hpos : ∀ r, r ∈ s.alloc → 0 ≤ r → 0 < r ∧ r < 2147483648) (hnodup : s.alloc.Nodup) :
    WFo cfg s (fun _ => none) :=
  { direct := fun j _ => Or.inl (hd j)
    ind := Or.inl hi
    ind_entries := fun hp => absurd hp (by rw [hi]; exact lt_irrefl 0)
    dind := Or.inl hdi
    dind_entries := fun hp => absurd hp (by rw [hdi]; exact lt_irrefl 0)
    dd_entries := fun hp => absurd hp (by rw [hdi]; exact lt_irrefl 0)
    fresh := fun r hr h0 => ⟨(hpos r hr h0).1, (hpos r hr h0).2, rfl⟩
    distinct := by
      have hp : s.alloc.Pairwise (fun a b => a ≠ b) := hnodup
      refine List.Pairwise.imp ?_ hp
      intro a b hab _
      exact hab }

/-- C1: round trip. On an empty inode (size 0, no direct, indirect or
double-indirect block), with an allocator that keeps answering positive,
pairwise distinct block numbers (three per block of the request are enough),
writing `N` bytes at offset 0 returns `N`, and reading `N` bytes at offset 0
afterwards returns `N` with the caller's buffer equal to the written bytes.
`N` fits in the file capacity and in the `int` return value. -/
theorem write_read_round_trip (cfg : Config) (hcfg : cfg.ok) (s : State) (buf out0 : Block)
    (N : Nat) (hN : N < 2147483648) (hcap : N ≤ cfg.capacity * cfg.BLOCK_SIZE)
    (hsize : s.i_size = 0) (hd : ∀ j, s.i_block_nr j = 0) (hi : s.i_indirect = 0)
    (hdi : s.i_dindirect = 0)
    (hpos : ∀ r, r ∈ s.alloc → 0 < r ∧ r < 2147483648) (hnodup : s.alloc.Nodup)
    (hlen : 3 * max 1 ((N + cfg.BLOCK_SIZE - 1) / cfg.BLOCK_SIZE) ≤ s.alloc.length) :
    ∃ s1 out, testfs_write_data cfg s buf 0 N = .ok ((N : Int), s1)
      ∧ testfs_read_data cfg s1 out0 0 N = .ok ((N : Int), out)
      ∧ ∀ x, x < N → out x = buf x := by
  have hbs := hcfg.bs_pos
  have hwf := WFo_empty cfg s hd hi hdi (fun r hr _ => hpos r hr) hnodup
  have hstart : 0 / cfg.BLOCK_SIZE < cfg.capacity := by
    have := hcfg.ind_pos
    unfold Config.capacity
    rw [Nat.zero_div]
    omega
  obtain ⟨r, s1, hrun, ⟨o1, hwf1⟩, _, hok, hfail⟩ := write_data_spec hcfg hwf buf 0 N hN hstart
  have hr : 0 ≤ r := by
    by_contra hneg
    have hneg1 : r < 0 := not_le.mp hneg
    rcases (hfail hneg1).1 with hc | hc | hc
    · have := (hpos r hc).1
      exact absurd hneg1 (not_lt.mpr (le_of_lt this))
    · rw [Nat.zero_mod, Nat.zero_add] at hc
      exact absurd hlen (not_le.mpr hc)
    · rw [Nat.zero_add] at hc
      exact absurd hcap (not_le.mpr hc.2)
  obtain ⟨hrN, hw, hsz, _⟩ := hok hr
  rw [hrN] at hrun
  have hsz1 : ((0 : Nat) : Int) + N ≤ s1.i_size := by
    rw [hsz, hsize]
    split
    · exact le_max_right _ _
    · have : N = 0 := by omega
      rw [this]
      decide
  obtain ⟨out, hread, hout⟩ := read_data_written hcfg hwf1 buf 0 N hN hw
    (by rw [Nat.zero_add]; exact hcap) hstart hsz1 out0
  exact ⟨s1, out, hrun, hread, hout⟩

theorem allocate_indirect_data_size (s : State) (l : Nat) (ind : Block) (fl : Bool)
    (block : Block) (r : Int) (s1 : State) (b1 : Block)
    (h : allocate_indirect_data s l ind fl block = .ok (r, s1, b1)) : s1.i_size = s.i_size := by
  unfold allocate_indirect_data at h
  split at h
  · exact absurd h (by simp)
  · split at h
    · simp only [Res.ok.injEq, Prod.mk.injEq] at h
      rw [← h.2.1]
      exact alloc_i_size s
    · split at h <;>
      · simp only [Res.ok.injEq, Prod.mk.injEq] at h
        rw [← h.2.1]
        exact alloc_i_size s

theorem allocate_indirect_size (s : State) (l : Nat) (block : Block) (r : Int) (s1 : State)
    (b1 : Block) (h : allocate_indirect s l block = .ok (r, s1, b1)) : s1.i_size = s.i_size := by
  unfold allocate_indirect at h
  split at h
  · split at h
    · simp only [Res.ok.injEq, Prod.mk.injEq] at h
      rw [← h.2.1]
      exact alloc_i_size s
    · rw [allocate_indirect_data_size _ _ _ _ _ _ _ _ h]
      exact alloc_i_size s
  · exact allocate_indirect_data_size _ _ _ _ _ _ _ _ h

theorem allocate_dindirect_data_size (cfg : Config) (s : State) (l : Nat) (d ind : Block)
    (f1 f2 : Bool) (block : Block) (r : Int) (s1 : State) (b1 : Block)
    (h : allocate_dindirect_data cfg s l d ind f1 f2 block = .ok (r, s1, b1)) :
    s1.i_size = s.i_size := by
  unfold allocate_dindirect_data at h
  split at h
  · exact absurd h (by simp)
  · split at h
    · split at h <;>
      · simp only [Res.ok.injEq, Prod.mk.injEq] at h
        rw [← h.2.1]
        cases f2 <;> exact alloc_i_size s
    · simp only [Res.ok.injEq, Prod.mk.injEq] at h
      rw [← h.2.1]
      exact alloc_i_size s

theorem allocate_dindirect_entry_size (cfg : Config) (s : State) (l : Nat) (d : Block)
    (f1 : Bool) (block : Block) (r : Int) (s1 : State) (b1 : Block)
    (h : allocate_dindirect_entry cfg s l d f1 block = .ok (r, s1, b1)) :
    s1.i_size = s.i_size := by
  unfold allocate_dindirect_entry at h
  split at h
  · split at h
    · split at h <;>
      · simp only [Res.ok.injEq, Prod.mk.injEq] at h
        rw [← h.2.1]
        exact alloc_i_size s
    · rw [allocate_dindirect_data_size _ _ _ _ _ _ _ _ _ _ _ h]
      exact alloc_i_size s
  · exact allocate_dindirect_data_size _ _ _ _ _ _ _ _ _ _ _ h

theorem allocate_dindirect_size (cfg : Config) (s : State) (l : Nat) (block : Block) (r : Int)
    (s1 : State) (b1 : Block) (h : allocate_dindirect cfg s l block = .ok (r, s1, b1)) :
    s1.i_size = s.i_size := by
  unfold allocate_dindirect at h
  split at h
  · split at h
    · simp only [Res.ok.injEq, Prod.mk.injEq] at h
      rw [← h.2.1]
      exact alloc_i_size s
    · rw [allocate_dindirect_entry_size _ _ _ _ _ _ _ _ _ h]
      exact alloc_i_size s
  · exact allocate_dindirect_entry_size _ _ _ _ _ _ _ _ _ h

/-- The function `testfs_allocate_block` never changes `i_size`. -/
theorem allocate_block_size (cfg : Config) (s : State) (i : Nat) (block : Block) (r : Int)
    (s1 : State) (b1 : Block) (h : testfs_allocate_block cfg s i block = .ok (r, s1, b1)) :
    s1.i_size = s.i_size := by
  unfold testfs_allocate_block at h
  split at h
  · simp only [Res.ok.injEq, Prod.mk.injEq] at h
    rw [← h.2.1]
  · split at h
    · split at h
      · exact absurd h (by simp)
      · split at h <;>
        · simp only [Res.ok.injEq, Prod.mk.injEq] at h
          rw [← h.2.1]
          exact alloc_i_size s
    · split at h
      · exact allocate_indirect_size _ _ _ _ _ _ h
      · split at h
        · exact allocate_dindirect_size _ _ _ _ _ _ _ h
        · simp only [Res.ok.injEq, Prod.mk.injEq] at h
          rw [← h.2.1]

theorem capacity_bytes_lt {cfg : Config} (hcfg : cfg.ok) :
    cfg.capacity * cfg.BLOCK_SIZE < 4611686018427387904 := by
  have h1 := hcfg.cap_int
  have h2 := hcfg.bs_int
  have h3 : cfg.capacity * cfg.BLOCK_SIZE ≤ 2147483648 * cfg.BLOCK_SIZE :=
    Nat.mul_le_mul_right _ (le_of_lt h1)
  have h4 : 2147483648 * cfg.BLOCK_SIZE < 2147483648 * 2147483648 :=
    Nat.mul_lt_mul_of_pos_left h2 (by decide)
  have h5 : (2147483648 : Nat) * 2147483648 = 4611686018427387904 := by decide
  omega

theorem testfsConfig_ok : testfsConfig.ok := by
  constructor <;> decide

/-- Witness of `write_read_round_trip`: 20000 bytes (three blocks) on the
testfs layout. -/
theorem write_read_round_trip_witness :
    ∃ s1 out,
      testfs_write_data testfsConfig (empty_state [5, 6, 7, 8, 9, 10, 11, 12, 13]) bytes65 0 20000
        = .ok (((20000 : Nat) : Int), s1)
      ∧ testfs_read_data testfsConfig s1 zero_block 0 20000 = .ok (((20000 : Nat) : Int), out)
      ∧ ∀ x, x < 20000 → out x = bytes65 x :=
  write_read_round_trip testfsConfig testfsConfig_ok
    (empty_state [5, 6, 7, 8, 9, 10, 11, 12, 13]) bytes65 zero_block 20000 (by decide)
    (by decide) rfl (fun _ => rfl) rfl rfl (by decide) (by decide) (by decide)

/-- C11 (code evaluated at the failing input): on the testfs layout, after a
one-byte write at logical block `10 + 2048` (blocks 5, 6, 7 allocated,
`i_dindirect = 5`, entry 1 of block 5 empty), `testfs_allocate_block` for
logical index `10 + 2048 + 2048` allocates the indirect block 8 and then fails
with `-28` on the data block: block 8 is freed and `i_dindirect` is still 5,
while entry 1 of the double-indirect block 5 on the device is now 8. -/
theorem failed_allocation_leaves_dangling_entry :
    getInt ((state_after (empty_state [5, 6, 7, 8, -28])
        (testfs_write_data testfsConfig (empty_state [5, 6, 7, 8, -28]) bytes65 16859136 1)).disk
        5) 1 = 0
    ∧ (testfs_allocate_block testfsConfig
        (state_after (empty_state [5, 6, 7, 8, -28])
          (testfs_write_data testfsConfig (empty_state [5, 6, 7, 8, -28]) bytes65 16859136 1))
        4106 zero_block).ret = some (-28)
    ∧ (state_allocated (empty_state [])
        (testfs_allocate_block testfsConfig
          (state_after (empty_state [5, 6, 7, 8, -28])
            (testfs_write_data testfsConfig (empty_state [5, 6, 7, 8, -28]) bytes65 16859136 1))
          4106 zero_block)).freed = [8]
    ∧ (state_allocated (empty_state [])
        (testfs_allocate_block testfsConfig
          (state_after (empty_state [5, 6, 7, 8, -28])
            (testfs_write_data testfsConfig (empty_state [5, 6, 7, 8, -28]) bytes65 16859136 1))
          4106 zero_block)).i_dindirect = 5
    ∧ getInt ((state_allocated (empty_state [])
        (testfs_allocate_block testfsConfig
          (state_after (empty_state [5, 6, 7, 8, -28])
            (testfs_write_data testfsConfig (empty_state [5, 6, 7, 8, -28]) bytes65 16859136 1))
          4106 zero_block)).disk 5) 1 = 8 := by
  decide

/-- C14 (code evaluated at the failing input): on the testfs layout, a
zero-byte write at offset 0 to an empty inode returns 0 and leaves `i_size`
at 0, but it consumes the allocator reply 5 and stores it in
`i_block_nr[0]`. -/
theorem zero_byte_write_allocates :
    (testfs_write_data testfsConfig (empty_state [5]) bytes65 0 0).ret = some 0
    ∧ (state_after (empty_state [5])
        (testfs_write_data testfsConfig (empty_state [5]) bytes65 0 0)).i_size = 0
    ∧ (state_after (empty_state [5])
        (testfs_write_data testfsConfig (empty_state [5]) bytes65 0 0)).i_block_nr 0 = 5
    ∧ (state_after (empty_state [5])
        (testfs_write_data testfsConfig (empty_state [5]) bytes65 0 0)).alloc = [] := by
  decide

/-- C15 (code evaluated at the failing input): on the testfs layout, a
successful write of 8193 bytes at offset `9 * 8192` to an empty inode (8192
bytes 65, then one byte 66) maps logical block 10, a hole before the call, to
the new block 7. Block 7 receives one byte from the caller, and its bytes 1 and
8191 on the device are 65, left over from logical block 9, instead of 0. -/
theorem partial_block_keeps_stale_bytes :
    (testfs_read_block testfsConfig (empty_state [5, 6, 7]) 10 zero_block).1 = 0
    ∧ (testfs_write_data testfsConfig (empty_state [5, 6, 7]) bytes65_66 73728 8193).ret
        = some 8193
    ∧ (testfs_read_block testfsConfig
        (state_after (empty_state [5, 6, 7])
          (testfs_write_data testfsConfig (empty_state [5, 6, 7]) bytes65_66 73728 8193))
        10 zero_block).1 = 7
    ∧ (state_after (empty_state [5, 6, 7])
        (testfs_write_data testfsConfig (empty_state [5, 6, 7]) bytes65_66 73728 8193)).disk 7 0
        = 66
    ∧ (state_after (empty_state [5, 6, 7])
        (testfs_write_data testfsConfig (empty_state [5, 6, 7]) bytes65_66 73728 8193)).disk 7 1
        = 65
    ∧ (state_after (empty_state [5, 6, 7])
        (testfs_write_data testfsConfig (empty_state [5, 6, 7]) bytes65_66 73728 8193)).disk 7
        8191 = 65 := by
  decide

/-- C18 (code evaluated at the failing input): on the testfs layout, for an
empty inode (`i_indirect = 0`) and logical index 10, `testfs_read_block`
returns 0 and leaves the scratch buffer as it was (byte 0 is still 65); and
for the inode of C2 (`i_dindirect = 5`, entry 0 of block 5 empty) and logical
index `10 + 2048` it returns 0 with the double-indirect block in the scratch
buffer (byte 4 is 6). -/
theorem hole_leaves_scratch_buffer :
    (testfs_read_block testfsConfig (empty_state []) 10 bytes65).1 = 0
    ∧ (testfs_read_block testfsConfig (empty_state []) 10 bytes65).2 0 = 65
    ∧ (testfs_read_block testfsConfig
        (state_after (empty_state [5, 6, 7])
          (testfs_write_data testfsConfig (empty_state [5, 6, 7]) bytes65 33636352 1))
        2058 zero_block).1 = 0
    ∧ (testfs_read_block testfsConfig
        (state_after (empty_state [5, 6, 7])
          (testfs_write_data testfsConfig (empty_state [5, 6, 7]) bytes65 33636352 1))
        2058 zero_block).2 4 = 6 := by
  decide

theorem alloc_drop (s : State) : (testfs_alloc_block_for_inode s).2.alloc = s.alloc.drop 1 := by
  unfold testfs_alloc_block_for_inode
  cases h : s.alloc with
  | nil => simp [h]
  | cons r rest => by_cases hr : r < 0 <;> simp [hr]

theorem alloc_allocated_ok (s : State) (h : 0 ≤ (testfs_alloc_block_for_inode s).1) :
    allocated (s.alloc.take 1) = [(testfs_alloc_block_for_inode s).1] := by
  unfold testfs_alloc_block_for_inode at h ⊢
  cases hs : s.alloc with
  | nil =>
    rw [hs] at h
    simp [ENOSPC] at h
  | cons r rest =>
    rw [hs] at h
    by_cases hr : r < 0
    · simp [hr] at h
      omega
    · simp [hr, allocated]
      omega

theorem alloc_allocated_fail (s : State) (h : (testfs_alloc_block_for_inode s).1 < 0) :
    allocated (s.alloc.take 1) = [] := by
  unfold testfs_alloc_block_for_inode at h
  cases hs : s.alloc with
  | nil => simp [allocated]
  | cons r rest =>
    rw [hs] at h
    by_cases hr : r < 0
    · simp [allocated, hr]
    · simp [hr] at h

theorem alloc_lt_of_range (s : State) (hrange : ∀ x, x ∈ s.alloc → x < 2147483648) :
    (testfs_alloc_block_for_inode s).1 < 2147483648 := by
  rcases alloc_ret_source s with h | h
  · rw [h]
    decide
  · exact hrange _ h

theorem take_succ_split (l : List Int) (n : Nat) :
    l.take (n + 1) = l.take 1 ++ (l.drop 1).take n := by
  cases l with
  | nil => simp
  | cons x t => simp

theorem allocated_take_succ (l : List Int) (n : Nat) :
    allocated (l.take (n + 1)) = allocated (l.take 1) ++ allocated ((l.drop 1).take n) := by
  rw [take_succ_split]
  unfold allocated
  rw [List.filter_append]

/-- What lines 180-197 do to the inode pointers, the allocator script and the
free log, on any state. -/
theorem allocate_indirect_data_shape (s : State) (l : Nat) (ind : Block) (fl : Bool)
    (block : Block) (r : Int) (s1 : State) (b1 : Block)
    (h : allocate_indirect_data s l ind fl block = .ok (r, s1, b1)) :
    r = (testfs_alloc_block_for_inode s).1
    ∧ s1.i_block_nr = s.i_block_nr ∧ s1.i_dindirect = s.i_dindirect
    ∧ s1.alloc = s.alloc.drop 1
    ∧ (0 ≤ r → s1.i_indirect = s.i_indirect ∧ s1.freed = s.freed)
    ∧ (r < 0 → s1.i_indirect = (if fl = true then 0 else s.i_indirect)
        ∧ s1.freed = s.freed ++ (if fl = true then [s.i_indirect] else [])) := by
  unfold allocate_indirect_data at h
  split at h
  · exact absurd h (by simp)
  · split at h
    · rename_i hge
      simp only [Res.ok.injEq, Prod.mk.injEq] at h
      obtain ⟨h1, h2, _⟩ := h
      subst h1 h2
      refine ⟨rfl, alloc_i_block_nr s, alloc_i_dindirect s, alloc_drop s,
        fun _ => ⟨alloc_i_indirect s, alloc_freed s⟩, fun hneg => absurd hge (not_le.mpr hneg)⟩
    · rename_i hge
      split at h
      · rename_i hfl
        simp only [Res.ok.injEq, Prod.mk.injEq] at h
        obtain ⟨h1, h2, _⟩ := h
        subst h1 h2
        refine ⟨rfl, alloc_i_block_nr s, alloc_i_dindirect s, alloc_drop s,
          fun h0 => absurd h0 hge, fun _ => ?_⟩
        rw [if_pos hfl, if_pos hfl]
        refine ⟨rfl, ?_⟩
        show (testfs_alloc_block_for_inode s).2.freed
          ++ [(testfs_alloc_block_for_inode s).2.i_indirect] = _
        rw [alloc_freed, alloc_i_indirect]
      · rename_i hfl
        simp only [Res.ok.injEq, Prod.mk.injEq] at h
        obtain ⟨h1, h2, _⟩ := h
        subst h1 h2
        refine ⟨rfl, alloc_i_block_nr s, alloc_i_dindirect s, alloc_drop s,
          fun h0 => absurd h0 hge, fun _ => ?_⟩
        rw [if_neg hfl, if_neg hfl, List.append_nil]
        exact ⟨alloc_i_indirect s, alloc_freed s⟩

/-- What lines 165-198 do to the inode pointers, the allocator script and the
free log, on any state: on success one reply is consumed when the indirect
block exists and two when it is created; on failure the pointers are those
before the call and the blocks handed out during the call are freed. -/
theorem allocate_indirect_shape (s : State) (l : Nat) (block : Block) (r : Int) (s1 : State)
    (b1 : Block) (h : allocate_indirect s l block = .ok (r, s1, b1)) :
    s1.i_block_nr = s.i_block_nr ∧ s1.i_dindirect = s.i_dindirect
    ∧ (0 ≤ r → s1.freed = s.freed
        ∧ (s.i_indirect = 0 → s1.alloc = s.alloc.drop 2
            ∧ s1.i_indirect = (testfs_alloc_block_for_inode s).1
            ∧ 0 ≤ (testfs_alloc_block_for_inode s).1)
        ∧ (s.i_indirect ≠ 0 → s1.alloc = s.alloc.drop 1 ∧ s1.i_indirect = s.i_indirect))
    ∧ (r < 0 → s1.i_indirect = s.i_indirect
        ∧ ∃ n, s1.alloc = s.alloc.drop n
          ∧ s1.freed = s.freed ++ (allocated (s.alloc.take n)).reverse) := by
  unfold allocate_indirect at h
  split at h
  · rename_i hz
    split at h
    · rename_i hneg
      simp only [Res.ok.injEq, Prod.mk.injEq] at h
      obtain ⟨h1, h2, _⟩ := h
      subst h1 h2
      refine ⟨alloc_i_block_nr s, alloc_i_dindirect s, fun h0 => absurd hneg (not_lt.mpr h0),
        fun _ => ⟨alloc_i_indirect s, 1, alloc_drop s, ?_⟩⟩
      rw [alloc_allocated_fail s hneg, List.reverse_nil, List.append_nil]
      exact alloc_freed s
    · rename_i hge
      have hge1 : 0 ≤ (testfs_alloc_block_for_inode s).1 := not_lt.mp hge
      obtain ⟨hr, hd, hdi, hdrop, hok, hfail⟩ := allocate_indirect_data_shape _ _ _ _ _ _ _ _ h
      have hdrop2 : s1.alloc = s.alloc.drop 2 := by
        rw [hdrop]
        show (testfs_alloc_block_for_inode s).2.alloc.drop 1 = _
        rw [alloc_drop, drop_one_drop]
      refine ⟨hd.trans (alloc_i_block_nr s), hdi.trans (alloc_i_dindirect s), fun h0 => ?_,
        fun hneg => ?_⟩
      · refine ⟨(hok h0).2.trans (alloc_freed s), fun _ => ⟨hdrop2, (hok h0).1, hge1⟩,
          fun hnz => absurd hz hnz⟩
      · obtain ⟨hi1, hf1⟩ := hfail hneg
        rw [if_pos rfl] at hi1 hf1
        refine ⟨hi1.trans hz.symm, 2, hdrop2, ?_⟩
        have hneg2 : (testfs_alloc_block_for_inode
            { (testfs_alloc_block_for_inode s).2 with
              i_indirect := (testfs_alloc_block_for_inode s).1 }).1 < 0 := by
          rw [← hr]
          exact hneg
        have hfail2 := alloc_allocated_fail _ hneg2
        have hal : ({ (testfs_alloc_block_for_inode s).2 with
              i_indirect := (testfs_alloc_block_for_inode s).1 } : State).alloc
            = s.alloc.drop 1 := alloc_drop s
        rw [hal] at hfail2
        rw [allocated_take_succ s.alloc 1, alloc_allocated_ok s hge1, hfail2, List.append_nil,
          List.reverse_singleton, hf1]
        show (testfs_alloc_block_for_inode s).2.freed ++ [(testfs_alloc_block_for_inode s).1] = _
        rw [alloc_freed]
  · rename_i hnz
    obtain ⟨hr, hd, hdi, hdrop, hok, hfail⟩ := allocate_indirect_data_shape _ _ _ _ _ _ _ _ h
    refine ⟨hd, hdi, fun h0 => ⟨(hok h0).2, fun hz => absurd hz hnz, fun _ => ⟨hdrop, (hok h0).1⟩⟩,
      fun hneg => ?_⟩
    obtain ⟨hi1, hf1⟩ := hfail hneg
    rw [if_neg (by simp)] at hi1 hf1
    refine ⟨hi1, 1, hdrop, ?_⟩
    rw [hr] at hneg
    rw [alloc_allocated_fail s hneg, List.reverse_nil, hf1]

/-- What lines 244-270 do to the inode pointers, the allocator script and the
free log, on any state. -/
theorem allocate_dindirect_data_shape (cfg : Config) (s : State) (l : Nat) (d ind : Block)
    (fd fi : Bool) (block : Block) (r : Int) (s1 : State) (b1 : Block)
    (h : allocate_dindirect_data cfg s l d ind fd fi block = .ok (r, s1, b1)) :
    r = (testfs_alloc_block_for_inode s).1
    ∧ s1.i_block_nr = s.i_block_nr ∧ s1.i_indirect = s.i_indirect
    ∧ s1.alloc = s.alloc.drop 1
    ∧ (0 ≤ r → s1.i_dindirect = s.i_dindirect ∧ s1.freed = s.freed)
    ∧ (r < 0 → s1.i_dindirect = (if fd = true then 0 else s.i_dindirect)
        ∧ s1.freed = s.freed
            ++ (if fi = true then [getInt d (l / cfg.NR_INDIRECT_BLOCKS)] else [])
            ++ (if fd = true then [s.i_dindirect] else [])) := by
  unfold allocate_dindirect_data at h
  split at h
  · exact absurd h (by simp)
  · split at h
    · rename_i hneg
      split at h
      · rename_i hfd
        simp only [Res.ok.injEq, Prod.mk.injEq] at h
        obtain ⟨h1, h2, _⟩ := h
        subst h1 h2
        refine ⟨rfl, ?_, ?_, ?_, fun h0 => absurd hneg (not_lt.mpr h0), fun _ => ?_⟩
        · cases fi <;> exact alloc_i_block_nr s
        · cases fi <;> exact alloc_i_indirect s
        · cases fi <;> exact alloc_drop s
        · rw [if_pos hfd, if_pos hfd]
          refine ⟨rfl, ?_⟩
          cases fi
          · show (testfs_alloc_block_for_inode s).2.freed
              ++ [(testfs_alloc_block_for_inode s).2.i_dindirect] = _
            rw [alloc_freed, alloc_i_dindirect]
            simp
          · show ((testfs_alloc_block_for_inode s).2.freed
              ++ [getInt d (l / cfg.NR_INDIRECT_BLOCKS)])
              ++ [(testfs_alloc_block_for_inode s).2.i_dindirect] = _
            rw [alloc_freed, alloc_i_dindirect]
            simp
      · rename_i hfd
        simp only [Res.ok.injEq, Prod.mk.injEq] at h
        obtain ⟨h1, h2, _⟩ := h
        subst h1 h2
        refine ⟨rfl, ?_, ?_, ?_, fun h0 => absurd hneg (not_lt.mpr h0), fun _ => ?_⟩
        · cases fi <;> exact alloc_i_block_nr s
        · cases fi <;> exact alloc_i_indirect s
        · cases fi <;> exact alloc_drop s
        · rw [if_neg hfd, if_neg hfd, List.append_nil]
          refine ⟨?_, ?_⟩
          · cases fi <;> exact alloc_i_dindirect s
          · cases fi
            · show (testfs_alloc_block_for_inode s).2.freed = _
              rw [alloc_freed]
              simp
            · show (testfs_alloc_block_for_inode s).2.freed
                ++ [getInt d (l / cfg.NR_INDIRECT_BLOCKS)] = _
              rw [alloc_freed]
              simp
    · rename_i hge
      simp only [Res.ok.injEq, Prod.mk.injEq] at h
      obtain ⟨h1, h2, _⟩ := h
      subst h1 h2
      exact ⟨rfl, alloc_i_block_nr s, alloc_i_indirect s, alloc_drop s,
        fun _ => ⟨alloc_i_dindirect s, alloc_freed s⟩, fun hneg => absurd hneg hge⟩

/-- What lines 222-270 do to the inode pointers, the allocator script and the
free log, on any state whose allocator replies fit in an `int`. -/
theorem allocate_dindirect_entry_shape (cfg : Config) (s : State) (l : Nat) (d : Block)
    (fd : Bool) (block : Block) (r : Int) (s1 : State) (b1 : Block)
    (hrange : ∀ x, x ∈ s.alloc → x < 2147483648)
    (h : allocate_dindirect_entry cfg s l d fd block = .ok (r, s1, b1)) :
    s1.i_block_nr = s.i_block_nr ∧ s1.i_indirect = s.i_indirect
    ∧ (∃ n, s1.alloc = s.alloc.drop n
        ∧ (r < 0 → s1.freed = s.freed ++ (allocated (s.alloc.take n)).reverse
            ++ (if fd = true then [s.i_dindirect] else [])))
    ∧ (0 ≤ r → s1.i_dindirect = s.i_dindirect ∧ s1.freed = s.freed)
    ∧ (r < 0 → s1.i_dindirect = (if fd = true then 0 else s.i_dindirect)) := by
  unfold allocate_dindirect_entry at h
  split at h
  · split at h
    · rename_i hneg
      split at h
      · rename_i hfd
        simp only [Res.ok.injEq, Prod.mk.injEq] at h
        obtain ⟨h1, h2, _⟩ := h
        subst h1 h2
        refine ⟨alloc_i_block_nr s, alloc_i_indirect s, ⟨1, alloc_drop s, fun _ => ?_⟩,
          fun h0 => absurd hneg (not_lt.mpr h0), fun _ => by rw [if_pos hfd]⟩
        rw [alloc_allocated_fail s hneg, List.reverse_nil, List.append_nil, if_pos hfd]
        show (testfs_alloc_block_for_inode s).2.freed
          ++ [(testfs_alloc_block_for_inode s).2.i_dindirect] = _
        rw [alloc_freed, alloc_i_dindirect]
      · rename_i hfd
        simp only [Res.ok.injEq, Prod.mk.injEq] at h
        obtain ⟨h1, h2, _⟩ := h
        subst h1 h2
        refine ⟨alloc_i_block_nr s, alloc_i_indirect s, ⟨1, alloc_drop s, fun _ => ?_⟩,
          fun h0 => absurd hneg (not_lt.mpr h0), fun _ => by
            rw [if_neg hfd]
            exact alloc_i_dindirect s⟩
        rw [alloc_allocated_fail s hneg, List.reverse_nil, List.append_nil, if_neg hfd,
          List.append_nil]
        exact alloc_freed s
    · rename_i hge
      have hge1 : 0 ≤ (testfs_alloc_block_for_inode s).1 := not_lt.mp hge
      have hlt := alloc_lt_of_range s hrange
      obtain ⟨hr, hd, hi, hdrop, hok, hfail⟩ :=
        allocate_dindirect_data_shape _ _ _ _ _ _ _ _ _ _ _ h
      have hdrop2 : s1.alloc = s.alloc.drop 2 := by
        rw [hdrop]
        show (testfs_alloc_block_for_inode s).2.alloc.drop 1 = _
        rw [alloc_drop, drop_one_drop]
      refine ⟨hd.trans (alloc_i_block_nr s), hi.trans (alloc_i_indirect s),
        ⟨2, hdrop2, fun hneg => ?_⟩, fun h0 => ?_, fun hneg => ?_⟩
      · have hneg2 := hneg
        rw [hr] at hneg2
        have hfail2 := alloc_allocated_fail _ hneg2
        have hal : (write_blocks (testfs_alloc_block_for_inode s).2
              (setInt d (l / cfg.NR_INDIRECT_BLOCKS) (testfs_alloc_block_for_inode s).1)
              (testfs_alloc_block_for_inode s).2.i_dindirect).alloc
            = s.alloc.drop 1 := alloc_drop s
        rw [hal] at hfail2
        rw [allocated_take_succ s.alloc 1, alloc_allocated_ok s hge1, hfail2, List.append_nil,
          List.reverse_singleton, (hfail hneg).2, if_pos rfl,
          getInt_setInt_same _ _ _ hge1 hlt]
        show ((testfs_alloc_block_for_inode s).2.freed ++ _)
          ++ (if fd = true then [(testfs_alloc_block_for_inode s).2.i_dindirect] else []) = _
        rw [alloc_freed, alloc_i_dindirect]
      · exact ⟨((hok h0).1).trans (alloc_i_dindirect s), ((hok h0).2).trans (alloc_freed s)⟩
      · rw [(hfail hneg).1]
        show (if fd = true then 0 else (testfs_alloc_block_for_inode s).2.i_dindirect) = _
        rw [alloc_i_dindirect]
  · obtain ⟨hr, hd, hi, hdrop, hok, hfail⟩ :=
      allocate_dindirect_data_shape _ _ _ _ _ _ _ _ _ _ _ h
    refine ⟨hd, hi, ⟨1, hdrop, fun hneg => ?_⟩, hok, fun hneg => (hfail hneg).1⟩
    have hneg2 := hneg
    rw [hr] at hneg2
    rw [alloc_allocated_fail s hneg2, List.reverse_nil, List.append_nil, (hfail hneg).2,
      if_neg (by simp), List.append_nil]

/-- What lines 202-271 do to the inode pointers, the allocator script and the
free log, on any state whose allocator replies fit in an `int`: on success
`i_dindirect` changes only when it was 0; on failure the pointers are those
before the call and the blocks handed out during the call are freed. -/
theorem allocate_dindirect_shape (cfg : Config) (s : State) (l : Nat) (block : Block) (r : Int)
    (s1 : State) (b1 : Block) (hrange : ∀ x, x ∈ s.alloc → x < 2147483648)
    (h : allocate_dindirect cfg s l block = .ok (r, s1, b1)) :
    s1.i_block_nr = s.i_block_nr ∧ s1.i_indirect = s.i_indirect
    ∧ (0 ≤ r → s1.freed = s.freed
        ∧ (s.i_dindirect = 0 → s1.i_dindirect = (testfs_alloc_block_for_inode s).1
            ∧ 0 ≤ (testfs_alloc_block_for_inode s).1)
        ∧ (s.i_dindirect ≠ 0 → s1.i_dindirect = s.i_dindirect))
    ∧ (r < 0 → s1.i_dindirect = s.i_dindirect
        ∧ ∃ n, s1.alloc = s.alloc.drop n
          ∧ s1.freed = s.freed ++ (allocated (s.alloc.take n)).reverse) := by
  unfold allocate_dindirect at h
  split at h
  · rename_i hz
    split at h
    · rename_i hneg
      simp only [Res.ok.injEq, Prod.mk.injEq] at h
      obtain ⟨h1, h2, _⟩ := h
      subst h1 h2
      refine ⟨alloc_i_block_nr s, alloc_i_indirect s, fun h0 => absurd hneg (not_lt.mpr h0),
        fun _ => ⟨alloc_i_dindirect s, 1, alloc_drop s, ?_⟩⟩
      rw [alloc_allocated_fail s hneg, List.reverse_nil, List.append_nil]
      exact alloc_freed s
    · rename_i hge
      have hge1 : 0 ≤ (testfs_alloc_block_for_inode s).1 := not_lt.mp hge
      have hrange2 : ∀ x, x ∈ ({ (testfs_alloc_block_for_inode s).2 with
          i_dindirect := (testfs_alloc_block_for_inode s).1 } : State).alloc →
          x < 2147483648 := fun x hx => hrange x (alloc_rest_subset s x hx)
      obtain ⟨hd, hi, ⟨n, hdrop, hfr⟩, hok, hfail⟩ :=
        allocate_dindirect_entry_shape _ _ _ _ _ _ _ _ _ hrange2 h
      have hal : ({ (testfs_alloc_block_for_inode s).2 with
            i_dindirect := (testfs_alloc_block_for_inode s).1 } : State).alloc
          = s.alloc.drop 1 := alloc_drop s
      have hdrop2 : s1.alloc = s.alloc.drop (n + 1) := by
        rw [hdrop, hal, List.drop_drop, Nat.add_comm]
      refine ⟨hd.trans (alloc_i_block_nr s), hi.trans (alloc_i_indirect s), fun h0 => ?_,
        fun hneg => ?_⟩
      · exact ⟨((hok h0).2).trans (alloc_freed s), fun _ => ⟨(hok h0).1, hge1⟩,
          fun hnz => absurd hz hnz⟩
      · refine ⟨?_, n + 1, hdrop2, ?_⟩
        · rw [hfail hneg, if_pos rfl]
          exact hz.symm
        · rw [hfr hneg, hal, if_pos rfl, allocated_take_succ s.alloc n, alloc_allocated_ok s hge1,
            List.reverse_append, List.reverse_singleton]
          show ((testfs_alloc_block_for_inode s).2.freed ++ _)
            ++ [(testfs_alloc_block_for_inode s).1] = _
          rw [alloc_freed, List.append_assoc]
  · rename_i hnz
    obtain ⟨hd, hi, ⟨n, hdrop, hfr⟩, hok, hfail⟩ :=
      allocate_dindirect_entry_shape _ _ _ _ _ _ _ _ _ hrange h
    refine ⟨hd, hi, fun h0 => ⟨(hok h0).2, fun hz => absurd hz hnz, fun _ => (hok h0).1⟩,
      fun hneg => ?_⟩
    refine ⟨?_, n, hdrop, ?_⟩
    · rw [hfail hneg, if_neg (by simp)]
    · rw [hfr hneg, if_neg (by simp), List.append_nil]

theorem ret_some_ok {res : Res (Int × State × Block)} {e : Int} (h : res.ret = some e) :
    ∃ s1 b1, res = .ok (e, s1, b1) := by
  cases res with
  | ok v =>
    obtain ⟨r, s1, b1⟩ := v
    simp only [Res.ret, Option.some.injEq] at h
    exact ⟨s1, b1, by rw [h]⟩
  | assert_failed => simp [Res.ret] at h
  | out_of_fuel => simp [Res.ret] at h

theorem read_block_direct (cfg : Config) (s : State) (i : Nat) (block : Block)
    (hi : i < cfg.NR_DIRECT_BLOCKS) : (testfs_read_block cfg s i block).1 = s.i_block_nr i := by
  unfold testfs_read_block
  rw [if_pos hi, read_block_finish_fst]

/-- On a hole of the direct tier `testfs_allocate_block` is lines 154-162. -/
theorem allocate_block_direct_eq (cfg : Config) (s : State) (i : Nat) (block : Block)
    (hi : i < cfg.NR_DIRECT_BLOCKS) (hhole : (testfs_read_block cfg s i block).1 = 0) :
    testfs_allocate_block cfg s i block
      = if (testfs_alloc_block_for_inode s).1 ≥ 0 then
          .ok ((testfs_alloc_block_for_inode s).1,
            { (testfs_alloc_block_for_inode s).2 with
              i_block_nr := fun j =>
                if j = i then (testfs_alloc_block_for_inode s).1
                else (testfs_alloc_block_for_inode s).2.i_block_nr j },
            (testfs_read_block cfg s i block).2)
        else
          .ok ((testfs_alloc_block_for_inode s).1, (testfs_alloc_block_for_inode s).2,
            (testfs_read_block cfg s i block).2) := by
  have hz : s.i_block_nr i = 0 := by
    rw [← read_block_direct cfg s i block hi]
    exact hhole
  unfold testfs_allocate_block
  rw [if_neg (not_not.mpr hhole), if_pos hi, if_neg (not_not.mpr hz)]

/-- On a hole of the single-indirect tier `testfs_allocate_block` is lines
165-198. -/
theorem allocate_block_indirect_eq (cfg : Config) (s : State) (i : Nat) (block : Block)
    (h1 : ¬ i < cfg.NR_DIRECT_BLOCKS)
    (h2 : i - cfg.NR_DIRECT_BLOCKS < cfg.NR_INDIRECT_BLOCKS)
    (hhole : (testfs_read_block cfg s i block).1 = 0) :
    testfs_allocate_block cfg s i block
      = allocate_indirect s (i - cfg.NR_DIRECT_BLOCKS) (testfs_read_block cfg s i block).2 := by
  unfold testfs_allocate_block
  rw [if_neg (not_not.mpr hhole), if_neg h1, if_pos h2]

/-- On a hole of the double-indirect tier `testfs_allocate_block` is lines
202-271. -/
theorem allocate_block_dindirect_eq (cfg : Config) (s : State) (i : Nat) (block : Block)
    (h1 : ¬ i < cfg.NR_DIRECT_BLOCKS)
    (h2 : ¬ i - cfg.NR_DIRECT_BLOCKS < cfg.NR_INDIRECT_BLOCKS)
    (hhole : (testfs_read_block cfg s i block).1 = 0) :
    testfs_allocate_block cfg s i block
      = allocate_dindirect cfg s (i - cfg.NR_DIRECT_BLOCKS - cfg.NR_INDIRECT_BLOCKS)
          (testfs_read_block cfg s i block).2 := by
  have h3 : i - cfg.NR_DIRECT_BLOCKS - cfg.NR_INDIRECT_BLOCKS
      < cfg.MAX_NR_DOUBLY_INDIRECT_BLOCKS := by
    by_contra hge
    have hoor := read_block_out_of_range cfg s i block (by unfold Config.capacity; omega)
    rw [hoor] at hhole
    have hne : (-EFBIG : Int) ≠ 0 := by decide
    exact hne hhole
  unfold testfs_allocate_block
  rw [if_neg (not_not.mpr hhole), if_neg h1, if_neg h2, if_pos h3]

/-- C12: failed allocation is unwound. When `testfs_allocate_block` is called
on a hole (its `testfs_read_block` returns 0) and returns an error `e < 0`,
with allocator replies that fit in an `int`: `i_block_nr`, `i_indirect` and
`i_dindirect` have their values from before the call, and the free log has
grown by exactly the blocks the allocator handed out during the call (the
non-negative replies among the `n` consumed), each once, last allocated first.
So no block from before the call is freed and none allocated in the call is
kept; when `i_dindirect` was 0 it is 0 afterwards and the fresh
double-indirect block is among the freed ones. -/
theorem failed_allocation_unwound (cfg : Config) (s : State) (i : Nat) (block : Block)
    (e : Int) (hrange : ∀ x, x ∈ s.alloc → x < 2147483648)
    (hhole : (testfs_read_block cfg s i block).1 = 0)
    (h : (testfs_allocate_block cfg s i block).ret = some e) (he : e < 0) :
    (state_allocated s (testfs_allocate_block cfg s i block)).i_block_nr = s.i_block_nr
    ∧ (state_allocated s (testfs_allocate_block cfg s i block)).i_indirect = s.i_indirect
    ∧ (state_allocated s (testfs_allocate_block cfg s i block)).i_dindirect = s.i_dindirect
    ∧ ∃ n, (state_allocated s (testfs_allocate_block cfg s i block)).alloc = s.alloc.drop n
        ∧ (state_allocated s (testfs_allocate_block cfg s i block)).freed
            = s.freed ++ (allocated (s.alloc.take n)).reverse := by
  obtain ⟨s1, b1, heq⟩ := ret_some_ok h
  rw [heq]
  show s1.i_block_nr = s.i_block_nr ∧ s1.i_indirect = s.i_indirect
    ∧ s1.i_dindirect = s.i_dindirect
    ∧ ∃ n, s1.alloc = s.alloc.drop n ∧ s1.freed = s.freed ++ (allocated (s.alloc.take n)).reverse
  by_cases h1 : i < cfg.NR_DIRECT_BLOCKS
  · rw [allocate_block_direct_eq cfg s i block h1 hhole] at heq
    split at heq
    · rename_i hge
      simp only [Res.ok.injEq, Prod.mk.injEq] at heq
      rw [← heq.1] at he
      exact absurd hge (not_le.mpr he)
    · rename_i hge
      simp only [Res.ok.injEq, Prod.mk.injEq] at heq
      obtain ⟨_, h2, _⟩ := heq
      subst h2
      refine ⟨alloc_i_block_nr s, alloc_i_indirect s, alloc_i_dindirect s, 1, alloc_drop s, ?_⟩
      rw [alloc_allocated_fail s (not_le.mp hge), List.reverse_nil, List.append_nil]
      exact alloc_freed s
  · by_cases h2 : i - cfg.NR_DIRECT_BLOCKS < cfg.NR_INDIRECT_BLOCKS
    · rw [allocate_block_indirect_eq cfg s i block h1 h2 hhole] at heq
      obtain ⟨hd, hdi, _, hfail⟩ := allocate_indirect_shape _ _ _ _ _ _ heq
      obtain ⟨hi1, n, hn1, hn2⟩ := hfail he
      exact ⟨hd, hi1, hdi, n, hn1, hn2⟩
    · rw [allocate_block_dindirect_eq cfg s i block h1 h2 hhole] at heq
      obtain ⟨hd, hi1, _, hfail⟩ := allocate_dindirect_shape _ _ _ _ _ _ _ hrange heq
      obtain ⟨hdi, n, hn1, hn2⟩ := hfail he
      exact ⟨hd, hi1, hdi, n, hn1, hn2⟩

/-- Witness of `failed_allocation_unwound` on the testfs layout: on an empty
inode the allocation of logical index `10 + 2048` gets block 5 for the
double-indirect block and fails with `-28` on the second allocation. -/
theorem failed_allocation_unwound_witness :
    (state_allocated (empty_state [5, -28])
        (testfs_allocate_block testfsConfig (empty_state [5, -28]) 2058 zero_block)).i_block_nr
      = (empty_state [5, -28]).i_block_nr
    ∧ (state_allocated (empty_state [5, -28])
        (testfs_allocate_block testfsConfig (empty_state [5, -28]) 2058 zero_block)).i_indirect
      = (empty_state [5, -28]).i_indirect
    ∧ (state_allocated (empty_state [5, -28])
        (testfs_allocate_block testfsConfig (empty_state [5, -28]) 2058 zero_block)).i_dindirect
      = (empty_state [5, -28]).i_dindirect
    ∧ ∃ n, (state_allocated (empty_state [5, -28])
          (testfs_allocate_block testfsConfig (empty_state [5, -28]) 2058 zero_block)).alloc
        = (empty_state [5, -28]).alloc.drop n
      ∧ (state_allocated (empty_state [5, -28])
          (testfs_allocate_block testfsConfig (empty_state [5, -28]) 2058 zero_block)).freed
        = (empty_state [5, -28]).freed
          ++ (allocated ((empty_state [5, -28]).alloc.take n)).reverse :=
  failed_allocation_unwound testfsConfig (empty_state [5, -28]) 2058 zero_block (-28)
    (by decide) (by decide) (by decide) (by decide)

/-- C13: direct-tier idempotence. When `testfs_allocate_block` at a direct
index `i < NR_DIRECT_BLOCKS` returns a block `p > 0`, then in the state it
leaves behind `testfs_read_block` at `i` returns `p`, and a second
`testfs_allocate_block` at `i` returns `p` again and leaves that state as it
is: no allocator call, no change of any inode field. -/
theorem direct_allocation_idempotent (cfg : Config) (s : State) (i : Nat) (block : Block)
    (p : Int) (hi : i < cfg.NR_DIRECT_BLOCKS)
    (h : (testfs_allocate_block cfg s i block).ret = some p) (hp : 0 < p) (b : Block) :
    (testfs_read_block cfg (state_allocated s (testfs_allocate_block cfg s i block)) i b).1 = p
    ∧ testfs_allocate_block cfg (state_allocated s (testfs_allocate_block cfg s i block)) i b
      = .ok (p, state_allocated s (testfs_allocate_block cfg s i block),
          (testfs_read_block cfg
            (state_allocated s (testfs_allocate_block cfg s i block)) i b).2) := by
  obtain ⟨s1, b1, heq⟩ := ret_some_ok h
  rw [heq]
  show (testfs_read_block cfg s1 i b).1 = p
    ∧ testfs_allocate_block cfg s1 i b = .ok (p, s1, (testfs_read_block cfg s1 i b).2)
  have hslot : s1.i_block_nr i = p := by
    by_cases hhole : (testfs_read_block cfg s i block).1 = 0
    · rw [allocate_block_direct_eq cfg s i block hi hhole] at heq
      split at heq
      · simp only [Res.ok.injEq, Prod.mk.injEq] at heq
        obtain ⟨h1, h2, _⟩ := heq
        rw [← h2, ← h1]
        show (if i = i then _ else _) = _
        rw [if_pos rfl]
      · rename_i hge
        simp only [Res.ok.injEq, Prod.mk.injEq] at heq
        rw [heq.1] at hge
        exact absurd (le_of_lt hp) hge
    · unfold testfs_allocate_block at heq
      rw [if_pos hhole] at heq
      simp only [Res.ok.injEq, Prod.mk.injEq] at heq
      obtain ⟨h1, h2, _⟩ := heq
      rw [← h2, ← h1]
      exact (read_block_direct cfg s i block hi).symm
  have hrd : (testfs_read_block cfg s1 i b).1 = p := by
    rw [read_block_direct cfg s1 i b hi]
    exact hslot
  refine ⟨hrd, ?_⟩
  have hne : (testfs_read_block cfg s1 i b).1 ≠ 0 := by
    rw [hrd]
    exact ne_of_gt hp
  unfold testfs_allocate_block
  rw [if_pos hne, hrd]

/-- Witness of `direct_allocation_idempotent` on the testfs layout: direct
index 3 of an empty inode, allocator handing out block 5. -/
theorem direct_allocation_idempotent_witness :
    (testfs_read_block testfsConfig
        (state_allocated (empty_state [5, 6])
          (testfs_allocate_block testfsConfig (empty_state [5, 6]) 3 zero_block)) 3 bytes65).1 = 5
    ∧ testfs_allocate_block testfsConfig
        (state_allocated (empty_state [5, 6])
          (testfs_allocate_block testfsConfig (empty_state [5, 6]) 3 zero_block)) 3 bytes65
      = .ok (5, state_allocated (empty_state [5, 6])
            (testfs_allocate_block testfsConfig (empty_state [5, 6]) 3 zero_block),
          (testfs_read_block testfsConfig
            (state_allocated (empty_state [5, 6])
              (testfs_allocate_block testfsConfig (empty_state [5, 6]) 3 zero_block))
            3 bytes65).2) :=
  direct_allocation_idempotent testfsConfig (empty_state [5, 6]) 3 zero_block 5
    (by decide) (by decide) (by decide) bytes65

theorem alloc_pos_of_nonneg (s : State) (hpos : ∀ x, x ∈ s.alloc → 0 ≤ x → 0 < x)
    (h : 0 ≤ (testfs_alloc_block_for_inode s).1) : 0 < (testfs_alloc_block_for_inode s).1 := by
  rcases alloc_ret_source s with h1 | h1
  · rw [h1] at h
    exact absurd h (by decide)
  · exact hpos _ h1 h

/-- C19: tier frame. A successful `testfs_allocate_block` on a hole at an
in-range index `i` (an allocator that hands out positive block numbers
fitting an `int`) changes only the pointer field of the tier of `i`. Direct
tier: only `i_block_nr[i]` changes (it becomes the returned block), while
`i_indirect` and `i_dindirect` are kept. Single-indirect tier: `i_block_nr`
and `i_dindirect` are kept, and `i_indirect` changes exactly when it was 0.
Double-indirect tier: `i_block_nr` and `i_indirect` are kept, and
`i_dindirect` changes exactly when it was 0. -/
theorem allocation_tier_frame (cfg : Config) (s : State) (i : Nat) (block : Block) (p : Int)
    (hpos : ∀ x, x ∈ s.alloc → 0 ≤ x → 0 < x)
    (hrange : ∀ x, x ∈ s.alloc → x < 2147483648)
    (hhole : (testfs_read_block cfg s i block).1 = 0)
    (h : (testfs_allocate_block cfg s i block).ret = some p) (hp : 0 ≤ p) :
    (i < cfg.NR_DIRECT_BLOCKS →
      (∀ j, j ≠ i →
        (state_allocated s (testfs_allocate_block cfg s i block)).i_block_nr j = s.i_block_nr j)
      ∧ (state_allocated s (testfs_allocate_block cfg s i block)).i_block_nr i = p
      ∧ (state_allocated s (testfs_allocate_block cfg s i block)).i_block_nr i ≠ s.i_block_nr i
      ∧ (state_allocated s (testfs_allocate_block cfg s i block)).i_indirect = s.i_indirect
      ∧ (state_allocated s (testfs_allocate_block cfg s i block)).i_dindirect = s.i_dindirect)
    ∧ (cfg.NR_DIRECT_BLOCKS ≤ i → i < cfg.NR_DIRECT_BLOCKS + cfg.NR_INDIRECT_BLOCKS →
      (state_allocated s (testfs_allocate_block cfg s i block)).i_block_nr = s.i_block_nr
      ∧ (state_allocated s (testfs_allocate_block cfg s i block)).i_dindirect = s.i_dindirect
      ∧ ((state_allocated s (testfs_allocate_block cfg s i block)).i_indirect ≠ s.i_indirect
          ↔ s.i_indirect = 0))
    ∧ (cfg.NR_DIRECT_BLOCKS + cfg.NR_INDIRECT_BLOCKS ≤ i →
      (state_allocated s (testfs_allocate_block cfg s i block)).i_block_nr = s.i_block_nr
      ∧ (state_allocated s (testfs_allocate_block cfg s i block)).i_indirect = s.i_indirect
      ∧ ((state_allocated s (testfs_allocate_block cfg s i block)).i_dindirect ≠ s.i_dindirect
          ↔ s.i_dindirect = 0)) := by
  obtain ⟨s1, b1, heq⟩ := ret_some_ok h
  rw [heq]
  show (i < cfg.NR_DIRECT_BLOCKS →
      (∀ j, j ≠ i → s1.i_block_nr j = s.i_block_nr j) ∧ s1.i_block_nr i = p
      ∧ s1.i_block_nr i ≠ s.i_block_nr i ∧ s1.i_indirect = s.i_indirect
      ∧ s1.i_dindirect = s.i_dindirect)
    ∧ (cfg.NR_DIRECT_BLOCKS ≤ i → i < cfg.NR_DIRECT_BLOCKS + cfg.NR_INDIRECT_BLOCKS →
      s1.i_block_nr = s.i_block_nr ∧ s1.i_dindirect = s.i_dindirect
      ∧ (s1.i_indirect ≠ s.i_indirect ↔ s.i_indirect = 0))
    ∧ (cfg.NR_DIRECT_BLOCKS + cfg.NR_INDIRECT_BLOCKS ≤ i →
      s1.i_block_nr = s.i_block_nr ∧ s1.i_indirect = s.i_indirect
      ∧ (s1.i_dindirect ≠ s.i_dindirect ↔ s.i_dindirect = 0))
  refine ⟨?_, ?_, ?_⟩
  · intro h1
    have hz : s.i_block_nr i = 0 := by
      rw [← read_block_direct cfg s i block h1]
      exact hhole
    rw [allocate_block_direct_eq cfg s i block h1 hhole] at heq
    split at heq
    · rename_i hge
      simp only [Res.ok.injEq, Prod.mk.injEq] at heq
      obtain ⟨h2, h3, _⟩ := heq
      have hpp : 0 < p := by
        rw [← h2]
        exact alloc_pos_of_nonneg s hpos hge
      have hslot : s1.i_block_nr i = p := by
        rw [← h3, ← h2]
        show (if i = i then _ else _) = _
        rw [if_pos rfl]
      refine ⟨?_, hslot, ?_, ?_, ?_⟩
      · intro j hj
        rw [← h3]
        show (if j = i then _ else _) = _
        rw [if_neg hj, alloc_i_block_nr]
      · rw [hslot, hz]
        exact ne_of_gt hpp
      · rw [← h3]
        exact alloc_i_indirect s
      · rw [← h3]
        exact alloc_i_dindirect s
    · rename_i hge
      simp only [Res.ok.injEq, Prod.mk.injEq] at heq
      rw [heq.1] at hge
      exact absurd hp hge
  · intro h1 h2
    have h1n : ¬ i < cfg.NR_DIRECT_BLOCKS := not_lt.mpr h1
    have h2n : i - cfg.NR_DIRECT_BLOCKS < cfg.NR_INDIRECT_BLOCKS := by omega
    rw [allocate_block_indirect_eq cfg s i block h1n h2n hhole] at heq
    obtain ⟨hd, hdi, hok, _⟩ := allocate_indirect_shape _ _ _ _ _ _ heq
    obtain ⟨_, hfresh, hold⟩ := hok hp
    refine ⟨hd, hdi, ?_⟩
    constructor
    · intro hne
      by_contra hnz
      exact hne (hold hnz).2
    · intro hz
      obtain ⟨_, hv, hnn⟩ := hfresh hz
      rw [hv, hz]
      exact ne_of_gt (alloc_pos_of_nonneg s hpos hnn)
  · intro h1
    have h1n : ¬ i < cfg.NR_DIRECT_BLOCKS := by omega
    have h2n : ¬ i - cfg.NR_DIRECT_BLOCKS < cfg.NR_INDIRECT_BLOCKS := by omega
    rw [allocate_block_dindirect_eq cfg s i block h1n h2n hhole] at heq
    obtain ⟨hd, hi1, hok, _⟩ := allocate_dindirect_shape _ _ _ _ _ _ _ hrange heq
    obtain ⟨_, hfresh, hold⟩ := hok hp
    refine ⟨hd, hi1, ?_⟩
    constructor
    · intro hne
      by_contra hnz
      exact hne (hold hnz)
    · intro hz
      obtain ⟨hv, hnn⟩ := hfresh hz
      rw [hv, hz]
      exact ne_of_gt (alloc_pos_of_nonneg s hpos hnn)

/-- Witness of `allocation_tier_frame` on the testfs layout: the first
single-indirect index 10 of an empty inode, where the allocator hands out
block 5 for the indirect block and block 6 for the data block. -/
theorem allocation_tier_frame_witness :
    (state_allocated (empty_state [5, 6])
        (testfs_allocate_block testfsConfig (empty_state [5, 6]) 10 zero_block)).i_block_nr
      = (empty_state [5, 6]).i_block_nr
    ∧ (state_allocated (empty_state [5, 6])
        (testfs_allocate_block testfsConfig (empty_state [5, 6]) 10 zero_block)).i_dindirect
      = (empty_state [5, 6]).i_dindirect
    ∧ ((state_allocated (empty_state [5, 6])
          (testfs_allocate_block testfsConfig (empty_state [5, 6]) 10 zero_block)).i_indirect
        ≠ (empty_state [5, 6]).i_indirect
      ↔ (empty_state [5, 6]).i_indirect = 0) :=
  (allocation_tier_frame testfsConfig (empty_state [5, 6]) 10 zero_block 6
    (by decide) (by decide) (by decide) (by decide) (by decide)).2.1 (by decide) (by decide)

/-- C17: the resolver equals the three-tier reference mapping. For an inode
whose block pointers are not negative (`i_indirect`, `i_dindirect` and the
double-indirect entry of the index) and every index `i` below the capacity
`NR_DIRECT_BLOCKS + NR_INDIRECT_BLOCKS + MAX_NR_DOUBLY_INDIRECT_BLOCKS`,
`testfs_read_block` returns `reference_mapping`: `i_block_nr[i]` in the direct
range; 0 if `i_indirect == 0` and else entry `i - D` of the indirect block; 0
if `i_dindirect == 0`, else 0 if entry `k / D1` of the double-indirect block
is 0, else entry `k % D1` of the indirect block it points to. Exactly one of
the three ranges holds `i`. -/
theorem read_block_eq_reference (cfg : Config) (s : State) (i : Nat) (block : Block)
    (hi : i < cfg.capacity) (h1 : 0 ≤ s.i_indirect) (h2 : 0 ≤ s.i_dindirect)
    (h3 : 0 ≤ getInt (s.disk s.i_dindirect)
      ((i - cfg.NR_DIRECT_BLOCKS - cfg.NR_INDIRECT_BLOCKS) / cfg.NR_INDIRECT_BLOCKS)) :
    (testfs_read_block cfg s i block).1 = reference_mapping cfg s i
    ∧ ((i < cfg.NR_DIRECT_BLOCKS
          ∧ ¬ (cfg.NR_DIRECT_BLOCKS ≤ i ∧ i < cfg.NR_DIRECT_BLOCKS + cfg.NR_INDIRECT_BLOCKS)
          ∧ ¬ (cfg.NR_DIRECT_BLOCKS + cfg.NR_INDIRECT_BLOCKS ≤ i ∧ i < cfg.capacity))
      ∨ (¬ i < cfg.NR_DIRECT_BLOCKS
          ∧ (cfg.NR_DIRECT_BLOCKS ≤ i ∧ i < cfg.NR_DIRECT_BLOCKS + cfg.NR_INDIRECT_BLOCKS)
          ∧ ¬ (cfg.NR_DIRECT_BLOCKS + cfg.NR_INDIRECT_BLOCKS ≤ i ∧ i < cfg.capacity))
      ∨ (¬ i < cfg.NR_DIRECT_BLOCKS
          ∧ ¬ (cfg.NR_DIRECT_BLOCKS ≤ i ∧ i < cfg.NR_DIRECT_BLOCKS + cfg.NR_INDIRECT_BLOCKS)
          ∧ (cfg.NR_DIRECT_BLOCKS + cfg.NR_INDIRECT_BLOCKS ≤ i ∧ i < cfg.capacity))) := by
  constructor
  · rw [read_block_fst cfg s i block hi]
    unfold phys reference_mapping
    by_cases c1 : i < cfg.NR_DIRECT_BLOCKS
    · rw [if_pos c1, if_pos c1]
    · rw [if_neg c1, if_neg c1]
      by_cases c2 : i - cfg.NR_DIRECT_BLOCKS < cfg.NR_INDIRECT_BLOCKS
      · have c2b : i < cfg.NR_DIRECT_BLOCKS + cfg.NR_INDIRECT_BLOCKS := by omega
        rw [if_pos c2, if_pos c2b]
        by_cases c3 : s.i_indirect = 0
        · rw [if_pos c3, if_neg (by rw [c3]; decide)]
        · rw [if_neg c3, if_pos (lt_of_le_of_ne h1 (Ne.symm c3))]
      · have c2b : ¬ i < cfg.NR_DIRECT_BLOCKS + cfg.NR_INDIRECT_BLOCKS := by omega
        rw [if_neg c2, if_neg c2b]
        by_cases c3 : s.i_dindirect = 0
        · rw [if_pos c3, if_neg (by rw [c3]; decide)]
        · rw [if_neg c3, if_pos (lt_of_le_of_ne h2 (Ne.symm c3))]
          by_cases c4 : getInt (s.disk s.i_dindirect)
              ((i - cfg.NR_DIRECT_BLOCKS - cfg.NR_INDIRECT_BLOCKS) / cfg.NR_INDIRECT_BLOCKS) = 0
          · rw [if_pos c4, if_neg (by rw [c4]; decide)]
          · rw [if_neg c4, if_pos (lt_of_le_of_ne h3 (Ne.symm c4))]
  · unfold Config.capacity at hi ⊢
    omega

/-- Witness of `read_block_eq_reference` on the testfs layout, whose capacity
is `10 + 2048 + 2048 * 2048`: index `10 + 2048 + 2048` of the file left by
writing one byte there (double-indirect block 5, indirect block 6, data
block 7). -/
theorem read_block_eq_reference_witness :
    testfsConfig.capacity = 10 + 2048 + 2048 * 2048
    ∧ (testfs_read_block testfsConfig
        (state_after (empty_state [5, 6, 7])
          (testfs_write_data testfsConfig (empty_state [5, 6, 7]) bytes65 33636352 1))
        4106 zero_block).1 = 7
    ∧ (testfs_read_block testfsConfig
        (state_after (empty_state [5, 6, 7])
          (testfs_write_data testfsConfig (empty_state [5, 6, 7]) bytes65 33636352 1))
        4106 zero_block).1
      = reference_mapping testfsConfig
        (state_after (empty_state [5, 6, 7])
          (testfs_write_data testfsConfig (empty_state [5, 6, 7]) bytes65 33636352 1)) 4106 :=
  ⟨by decide, by decide,
    (read_block_eq_reference testfsConfig
      (state_after (empty_state [5, 6, 7])
        (testfs_write_data testfsConfig (empty_state [5, 6, 7]) bytes65 33636352 1))
      4106 zero_block (by decide) (by decide) (by decide) (by decide)).1⟩

/-- Storing a block in the direct slot `i` leaves the mapping of every other
index as it is. -/
theorem phys_link_direct (cfg : Config) (s : State) (i : Nat) (r : Int) (j : Nat)
    (hji : j ≠ i) :
    phys cfg { s with i_block_nr := fun j => if j = i then r else s.i_block_nr j } j
      = phys cfg s j := by
  unfold phys
  by_cases h1 : j < cfg.NR_DIRECT_BLOCKS
  · simp only [h1, if_true]
    rw [if_neg hji]
  · simp only [h1, if_false]

/-- Making a block whose entries are all 0 the indirect block of an inode
that has none leaves every mapping as it is. -/
theorem phys_link_ind (cfg : Config) (s : State) (r : Int) (hz : s.i_indirect = 0)
    (hzero : ∀ k, getInt (s.disk r) k = 0) (j : Nat) :
    phys cfg { s with i_indirect := r } j = phys cfg s j := by
  unfold phys
  by_cases h1 : j < cfg.NR_DIRECT_BLOCKS
  · simp only [h1, if_true]
  · by_cases h2 : j - cfg.NR_DIRECT_BLOCKS < cfg.NR_INDIRECT_BLOCKS
    · simp only [h1, h2, if_true, if_false, hz, gt_iff_lt, lt_self_iff_false, hzero, ite_self]
    · simp only [h1, h2, if_false]

/-- Making a block whose entries are all 0 the double-indirect block of an
inode that has none leaves every mapping as it is. -/
theorem phys_link_dind (cfg : Config) (s : State) (r : Int) (hz : s.i_dindirect = 0)
    (hzero : ∀ k, getInt (s.disk r) k = 0) (j : Nat) :
    phys cfg { s with i_dindirect := r } j = phys cfg s j := by
  unfold phys
  by_cases h1 : j < cfg.NR_DIRECT_BLOCKS
  · simp only [h1, if_true]
  · by_cases h2 : j - cfg.NR_DIRECT_BLOCKS < cfg.NR_INDIRECT_BLOCKS
    · simp only [h1, h2, if_true, if_false]
    · simp only [h1, h2, if_false, hz, gt_iff_lt, lt_self_iff_false, hzero, ite_self]

/-- Storing a value in entry `l` of the indirect block leaves the mapping of
every index other than `NR_DIRECT_BLOCKS + l` as it is. -/
theorem phys_link_ind_data {cfg : Config} (hcfg : cfg.ok) {s : State} {o : Int → Option Slot}
    (h : WFo cfg s o) (hp : 0 < s.i_indirect) (l : Nat) (v : Int) (j : Nat)
    (hj : j < cfg.capacity) (hne : j ≠ cfg.NR_DIRECT_BLOCKS + l) :
    phys cfg (set_disk s s.i_indirect (setInt (s.disk s.i_indirect) l v)) j = phys cfg s j := by
  have hoq := slot_ok_pos h.ind hp
  have hdq : 0 < s.i_dindirect → s.i_dindirect ≠ s.i_indirect := fun hd =>
    ne_of_owner (slot_ok_pos h.dind hd) hoq (by simp)
  have heq : 0 < s.i_dindirect → ∀ k, k < cfg.NR_INDIRECT_BLOCKS →
      0 < getInt (s.disk s.i_dindirect) k → getInt (s.disk s.i_dindirect) k ≠ s.i_indirect :=
    fun hd k hk he => ne_of_owner (slot_ok_pos (h.dind_entries hd k hk) he) hoq (by simp)
  unfold phys
  simp only [set_disk_i_block_nr, set_disk_i_indirect, set_disk_i_dindirect]
  by_cases h1 : j < cfg.NR_DIRECT_BLOCKS
  · simp only [h1, if_true]
  · by_cases h2 : j - cfg.NR_DIRECT_BLOCKS < cfg.NR_INDIRECT_BLOCKS
    · simp only [h1, h2, if_true, if_false]
      rw [if_pos hp, if_pos hp, set_disk_same]
      exact getInt_setInt_other _ _ _ _ (by omega)
    · simp only [h1, h2, if_false]
      by_cases hd : s.i_dindirect > 0
      · simp only [hd, if_true]
        rw [set_disk_other _ _ _ _ (hdq hd)]
        have hk := dentry_index_lt hcfg hj
        by_cases he : getInt (s.disk s.i_dindirect)
            ((j - cfg.NR_DIRECT_BLOCKS - cfg.NR_INDIRECT_BLOCKS) / cfg.NR_INDIRECT_BLOCKS) > 0
        · simp only [he, if_true]
          rw [set_disk_other _ _ _ _ (heq hd _ hk he)]
        · simp only [he, if_false]
      · simp only [hd, if_false]

/-- Storing a fresh block whose entries are all 0 in the empty entry `k` of
the double-indirect block leaves every mapping as it is. -/
theorem phys_link_dentry {cfg : Config} (hcfg : cfg.ok) {s : State} {o : Int → Option Slot}
    (h : WFo cfg s o) (r : Int) (hr : 0 < r) (hr1 : r < 2147483648) (ho : o r = none)
    (hp : 0 < s.i_dindirect) (k : Nat)
    (hz : getInt (s.disk s.i_dindirect) k = 0) (hzero : ∀ m, getInt (s.disk r) m = 0)
    (j : Nat) (hj : j < cfg.capacity) :
    phys cfg (set_disk s s.i_dindirect (setInt (s.disk s.i_dindirect) k r)) j = phys cfg s j := by
  have hoq := slot_ok_pos h.dind hp
  have hrq : r ≠ s.i_dindirect := (ne_of_unowned hoq ho).symm
  have hiq : 0 < s.i_indirect → s.i_indirect ≠ s.i_dindirect := fun hd =>
    ne_of_owner (slot_ok_pos h.ind hd) hoq (by simp)
  have heq : ∀ k1, k1 < cfg.NR_INDIRECT_BLOCKS →
      0 < getInt (s.disk s.i_dindirect) k1 → getInt (s.disk s.i_dindirect) k1 ≠ s.i_dindirect :=
    fun k1 hk he => ne_of_owner (slot_ok_pos (h.dind_entries hp k1 hk) he) hoq (by simp)
  unfold phys
  simp only [set_disk_i_block_nr, set_disk_i_indirect, set_disk_i_dindirect]
  by_cases h1 : j < cfg.NR_DIRECT_BLOCKS
  · simp only [h1, if_true]
  · by_cases h2 : j - cfg.NR_DIRECT_BLOCKS < cfg.NR_INDIRECT_BLOCKS
    · simp only [h1, h2, if_true, if_false]
      by_cases hi : s.i_indirect > 0
      · simp only [hi, if_true]
        rw [set_disk_other _ _ _ _ (hiq hi)]
      · simp only [hi, if_false]
    · simp only [h1, h2, if_false]
      rw [if_pos hp, if_pos hp, set_disk_same]
      have hk := dentry_index_lt hcfg hj
      by_cases hkk : (j - cfg.NR_DIRECT_BLOCKS - cfg.NR_INDIRECT_BLOCKS)
          / cfg.NR_INDIRECT_BLOCKS = k
      · rw [hkk, getInt_setInt_same _ _ _ (le_of_lt hr) hr1, if_pos hr, hz,
          if_neg (lt_irrefl 0), set_disk_other _ _ _ _ hrq]
        exact hzero _
      · rw [getInt_setInt_other _ _ _ _ hkk]
        by_cases he : getInt (s.disk s.i_dindirect)
            ((j - cfg.NR_DIRECT_BLOCKS - cfg.NR_INDIRECT_BLOCKS) / cfg.NR_INDIRECT_BLOCKS) > 0
        · simp only [he, if_true]
          rw [set_disk_other _ _ _ _ (heq _ hk he)]
        · simp only [he, if_false]

/-- Storing a value in entry `m` of the indirect block that entry `k` of the
double-indirect block points to leaves the mapping of every index other than
the one of `(k, m)` as it is. -/
theorem phys_link_dd_data {cfg : Config} (hcfg : cfg.ok) {s : State} {o : Int → Option Slot}
    (h : WFo cfg s o) (hp : 0 < s.i_dindirect) (k : Nat)
    (hk : k < cfg.NR_INDIRECT_BLOCKS) (he : 0 < getInt (s.disk s.i_dindirect) k) (m : Nat)
    (v : Int) (j : Nat) (hj : j < cfg.capacity)
    (hne : ¬ j < cfg.NR_DIRECT_BLOCKS → ¬ j - cfg.NR_DIRECT_BLOCKS < cfg.NR_INDIRECT_BLOCKS →
      (j - cfg.NR_DIRECT_BLOCKS - cfg.NR_INDIRECT_BLOCKS) / cfg.NR_INDIRECT_BLOCKS = k →
      (j - cfg.NR_DIRECT_BLOCKS - cfg.NR_INDIRECT_BLOCKS) % cfg.NR_INDIRECT_BLOCKS ≠ m) :
    phys cfg
      (set_disk s (getInt (s.disk s.i_dindirect) k)
        (setInt (s.disk (getInt (s.disk s.i_dindirect) k)) m v)) j = phys cfg s j := by
  have hod := slot_ok_pos h.dind hp
  have hoq := slot_ok_pos (h.dind_entries hp k hk) he
  have hiq : 0 < s.i_indirect → s.i_indirect ≠ getInt (s.disk s.i_dindirect) k := fun hd =>
    ne_of_owner (slot_ok_pos h.ind hd) hoq (by simp)
  have hdq : s.i_dindirect ≠ getInt (s.disk s.i_dindirect) k :=
    ne_of_owner hod hoq (by simp)
  have heq : ∀ k1, k1 < cfg.NR_INDIRECT_BLOCKS → k1 ≠ k →
      0 < getInt (s.disk s.i_dindirect) k1 →
      getInt (s.disk s.i_dindirect) k1 ≠ getInt (s.disk s.i_dindirect) k :=
    fun k1 hk1 hne he1 =>
      ne_of_owner (slot_ok_pos (h.dind_entries hp k1 hk1) he1) hoq (by simp [hne])
  unfold phys
  simp only [set_disk_i_block_nr, set_disk_i_indirect, set_disk_i_dindirect]
  by_cases h1 : j < cfg.NR_DIRECT_BLOCKS
  · simp only [h1, if_true]
  · by_cases h2 : j - cfg.NR_DIRECT_BLOCKS < cfg.NR_INDIRECT_BLOCKS
    · simp only [h1, h2, if_true, if_false]
      by_cases hi : s.i_indirect > 0
      · simp only [hi, if_true]
        rw [set_disk_other _ _ _ _ (hiq hi)]
      · simp only [hi, if_false]
    · simp only [h1, h2, if_false]
      rw [if_pos hp, if_pos hp, set_disk_other _ _ _ _ hdq]
      have hkj := dentry_index_lt hcfg hj
      by_cases hej : getInt (s.disk s.i_dindirect)
          ((j - cfg.NR_DIRECT_BLOCKS - cfg.NR_INDIRECT_BLOCKS) / cfg.NR_INDIRECT_BLOCKS) > 0
      · simp only [hej, if_true]
        by_cases hkk : (j - cfg.NR_DIRECT_BLOCKS - cfg.NR_INDIRECT_BLOCKS)
            / cfg.NR_INDIRECT_BLOCKS = k
        · rw [hkk, set_disk_same]
          exact getInt_setInt_other _ _ _ _ (hne h1 h2 hkk)
        · rw [set_disk_other _ _ _ _ (heq _ hkj hkk hej)]
      · simp only [hej, if_false]

/-- Lines 180-197, success: the mapping of every index other than
`NR_DIRECT_BLOCKS + l` is kept. -/
theorem allocate_indirect_data_frame {cfg : Config} (hcfg : cfg.ok) {s : State}
    {o : Int → Option Slot} (h : WFo cfg s o) (hp : 0 < s.i_indirect) (l : Nat)
    (indirect : Block) (hind : indirect = s.disk s.i_indirect) (fl : Bool) (block : Block)
    (r : Int) (s1 : State) (b1 : Block)
    (heq : allocate_indirect_data s l indirect fl block = .ok (r, s1, b1)) (hr : 0 ≤ r)
    (j : Nat) (hj : j < cfg.capacity) (hne : j ≠ cfg.NR_DIRECT_BLOCKS + l) :
    phys cfg s1 j = phys cfg s j := by
  obtain ⟨hag, hdrop, _, _⟩ := alloc_spec h
  have hwa := WFo_agree h hag 1 hdrop
  have hpa : 0 < (testfs_alloc_block_for_inode s).2.i_indirect := by rw [hag.ind]; exact hp
  have hdisk : indirect = (testfs_alloc_block_for_inode s).2.disk
      (testfs_alloc_block_for_inode s).2.i_indirect := by
    rw [hind, hag.ind]
    exact (hag.disk _ _ (slot_ok_pos h.ind hp)).symm
  unfold allocate_indirect_data at heq
  split at heq
  · exact Res.noConfusion heq
  · split at heq
    · simp only [Res.ok.injEq, Prod.mk.injEq] at heq
      obtain ⟨_, h2, _⟩ := heq
      rw [← h2, write_blocks_eq, hdisk,
        phys_link_ind_data hcfg hwa hpa l _ j hj hne]
      exact phys_agree hcfg h hag j hj
    · rename_i hge
      split at heq
      · simp only [Res.ok.injEq, Prod.mk.injEq] at heq
        rw [heq.1] at hge
        exact absurd hr hge
      · simp only [Res.ok.injEq, Prod.mk.injEq] at heq
        rw [heq.1] at hge
        exact absurd hr hge

/-- Lines 165-198, success: the mapping of every index other than
`NR_DIRECT_BLOCKS + l` is kept, also when the indirect block is created. -/
theorem allocate_indirect_frame {cfg : Config} (hcfg : cfg.ok) {s : State}
    {o : Int → Option Slot} (h : WFo cfg s o) (l : Nat) (block : Block)
    (r : Int) (s1 : State) (b1 : Block)
    (heq : allocate_indirect s l block = .ok (r, s1, b1)) (hr : 0 ≤ r)
    (j : Nat) (hj : j < cfg.capacity) (hne : j ≠ cfg.NR_DIRECT_BLOCKS + l) :
    phys cfg s1 j = phys cfg s j := by
  obtain ⟨hag, hdrop, hok, _⟩ := alloc_spec h
  have hwa := WFo_agree h hag 1 hdrop
  unfold allocate_indirect at heq
  by_cases hz : s.i_indirect = 0
  · rw [if_pos hz] at heq
    by_cases ha : (testfs_alloc_block_for_inode s).1 < 0
    · rw [if_pos ha] at heq
      simp only [Res.ok.injEq, Prod.mk.injEq] at heq
      rw [heq.1] at ha
      exact absurd hr (not_le.mpr ha)
    · rw [if_neg ha] at heq
      obtain ⟨hpos, hlt, hown, hnotin, hzb⟩ := hok (not_lt.mp ha)
      have hzero : ∀ k, getInt ((testfs_alloc_block_for_inode s).2.disk
          (testfs_alloc_block_for_inode s).1) k = 0 :=
        fun k => by rw [hzb]; exact getInt_zero_block k
      have hlink := link_ind hwa _ hpos hown hnotin (hag.ind.trans hz) hzero
      rw [allocate_indirect_data_frame hcfg hlink.wf hpos l zero_block hzb.symm true block
        r s1 b1 heq hr j hj hne,
        phys_link_ind cfg _ _ (hag.ind.trans hz) hzero j]
      exact phys_agree hcfg h hag j hj
  · rw [if_neg hz] at heq
    have hp : 0 < s.i_indirect := lt_of_le_of_ne (slot_ok_nonneg h.ind) (Ne.symm hz)
    exact allocate_indirect_data_frame hcfg h hp l _ rfl false block r s1 b1 heq hr j hj hne

/-- Lines 244-270, success: the mapping of every index other than
`NR_DIRECT_BLOCKS + NR_INDIRECT_BLOCKS + l` is kept. -/
theorem allocate_dindirect_data_frame {cfg : Config} (hcfg : cfg.ok) {s : State}
    {o : Int → Option Slot} (h : WFo cfg s o) (hp : 0 < s.i_dindirect) (l : Nat)
    (hk : l / cfg.NR_INDIRECT_BLOCKS < cfg.NR_INDIRECT_BLOCKS)
    (d_indirect : Block) (hd : d_indirect = s.disk s.i_dindirect)
    (he : 0 < getInt d_indirect (l / cfg.NR_INDIRECT_BLOCKS))
    (indirect : Block)
    (hind : indirect = s.disk (getInt d_indirect (l / cfg.NR_INDIRECT_BLOCKS)))
    (fd fi : Bool) (block : Block) (r : Int) (s1 : State) (b1 : Block)
    (heq : allocate_dindirect_data cfg s l d_indirect indirect fd fi block = .ok (r, s1, b1))
    (hr : 0 ≤ r) (j : Nat) (hj : j < cfg.capacity)
    (hne : j ≠ cfg.NR_DIRECT_BLOCKS + cfg.NR_INDIRECT_BLOCKS + l) :
    phys cfg s1 j = phys cfg s j := by
  obtain ⟨hag, hdrop, _, _⟩ := alloc_spec h
  have hwa := WFo_agree h hag 1 hdrop
  have hod := slot_ok_pos h.dind hp
  have he1 : 0 < getInt (s.disk s.i_dindirect) (l / cfg.NR_INDIRECT_BLOCKS) := hd ▸ he
  have hoe := slot_ok_pos (h.dind_entries hp _ hk) he1
  have hpa : 0 < (testfs_alloc_block_for_inode s).2.i_dindirect := by rw [hag.dind]; exact hp
  have hdd : (testfs_alloc_block_for_inode s).2.disk
      (testfs_alloc_block_for_inode s).2.i_dindirect = d_indirect := by
    rw [hd, hag.dind]
    exact hag.disk _ _ hod
  have hdi : (testfs_alloc_block_for_inode s).2.disk
      (getInt d_indirect (l / cfg.NR_INDIRECT_BLOCKS)) = indirect := by
    rw [hind, hd]
    exact hag.disk _ _ hoe
  have hne2 : ¬ j < cfg.NR_DIRECT_BLOCKS → ¬ j - cfg.NR_DIRECT_BLOCKS < cfg.NR_INDIRECT_BLOCKS →
      (j - cfg.NR_DIRECT_BLOCKS - cfg.NR_INDIRECT_BLOCKS) / cfg.NR_INDIRECT_BLOCKS
        = l / cfg.NR_INDIRECT_BLOCKS →
      (j - cfg.NR_DIRECT_BLOCKS - cfg.NR_INDIRECT_BLOCKS) % cfg.NR_INDIRECT_BLOCKS
        ≠ l % cfg.NR_INDIRECT_BLOCKS := by
    intro h1 h2 hkk hmm
    have e1 := Nat.div_add_mod (j - cfg.NR_DIRECT_BLOCKS - cfg.NR_INDIRECT_BLOCKS)
      cfg.NR_INDIRECT_BLOCKS
    have e2 := Nat.div_add_mod l cfg.NR_INDIRECT_BLOCKS
    rw [hkk, hmm] at e1
    omega
  unfold allocate_dindirect_data at heq
  split at heq
  · exact Res.noConfusion heq
  · split at heq
    · rename_i hlt
      split at heq
      · simp only [Res.ok.injEq, Prod.mk.injEq] at heq
        rw [heq.1] at hlt
        exact absurd hr (not_le.mpr hlt)
      · simp only [Res.ok.injEq, Prod.mk.injEq] at heq
        rw [heq.1] at hlt
        exact absurd hr (not_le.mpr hlt)
    · simp only [Res.ok.injEq, Prod.mk.injEq] at heq
      obtain ⟨_, h2, _⟩ := heq
      have hx := phys_link_dd_data hcfg hwa hpa (l / cfg.NR_INDIRECT_BLOCKS) hk
        (by rw [hdd]; exact he) (l % cfg.NR_INDIRECT_BLOCKS)
        (testfs_alloc_block_for_inode s).1 j hj hne2
      rw [hdd, hdi] at hx
      rw [← h2, write_blocks_eq, hx]
      exact phys_agree hcfg h hag j hj

/-- Lines 222-270, success: the mapping of every index other than
`NR_DIRECT_BLOCKS + NR_INDIRECT_BLOCKS + l` is kept, also when the indirect
block of the entry is created. -/
theorem allocate_dindirect_entry_frame {cfg : Config} (hcfg : cfg.ok) {s : State}
    {o : Int → Option Slot} (h : WFo cfg s o) (hp : 0 < s.i_dindirect) (l : Nat)
    (hk : l / cfg.NR_INDIRECT_BLOCKS < cfg.NR_INDIRECT_BLOCKS)
    (d_indirect : Block) (hd : d_indirect = s.disk s.i_dindirect)
    (fd : Bool) (block : Block) (r : Int) (s1 : State) (b1 : Block)
    (heq : allocate_dindirect_entry cfg s l d_indirect fd block = .ok (r, s1, b1))
    (hr : 0 ≤ r) (j : Nat) (hj : j < cfg.capacity)
    (hne : j ≠ cfg.NR_DIRECT_BLOCKS + cfg.NR_INDIRECT_BLOCKS + l) :
    phys cfg s1 j = phys cfg s j := by
  obtain ⟨hag, hdrop, hok, _⟩ := alloc_spec h
  have hwa := WFo_agree h hag 1 hdrop
  have hod := slot_ok_pos h.dind hp
  have hpa : 0 < (testfs_alloc_block_for_inode s).2.i_dindirect := by rw [hag.dind]; exact hp
  have hdd : (testfs_alloc_block_for_inode s).2.disk
      (testfs_alloc_block_for_inode s).2.i_dindirect = d_indirect := by
    rw [hd, hag.dind]
    exact hag.disk _ _ hod
  unfold allocate_dindirect_entry at heq
  by_cases hez : getInt d_indirect (l / cfg.NR_INDIRECT_BLOCKS) = 0
  · rw [if_pos hez] at heq
    by_cases ha : (testfs_alloc_block_for_inode s).1 < 0
    · rw [if_pos ha] at heq
      split at heq
      · simp only [Res.ok.injEq, Prod.mk.injEq] at heq
        rw [heq.1] at ha
        exact absurd hr (not_le.mpr ha)
      · simp only [Res.ok.injEq, Prod.mk.injEq] at heq
        rw [heq.1] at ha
        exact absurd hr (not_le.mpr ha)
    · rw [if_neg ha] at heq
      obtain ⟨hpos, hlt, hown, hnotin, hzb⟩ := hok (not_lt.mp ha)
      have hzero : ∀ m, getInt ((testfs_alloc_block_for_inode s).2.disk
          (testfs_alloc_block_for_inode s).1) m = 0 :=
        fun m => by rw [hzb]; exact getInt_zero_block m
      have hlink := link_dentry hcfg hwa _ hpos hlt hown hnotin hpa
        (l / cfg.NR_INDIRECT_BLOCKS) (by rw [hdd]; exact hez) hzero
      have hfr := phys_link_dentry hcfg hwa _ hpos hlt hown hpa
        (l / cfg.NR_INDIRECT_BLOCKS) (by rw [hdd]; exact hez) hzero j hj
      rw [hdd] at hlink hfr
      rw [write_blocks_eq] at heq
      have hne1 : (testfs_alloc_block_for_inode s).1
          ≠ (testfs_alloc_block_for_inode s).2.i_dindirect := by
        rw [hag.dind]
        exact (ne_of_unowned hod hown).symm
      have hge : getInt (setInt d_indirect (l / cfg.NR_INDIRECT_BLOCKS)
          (testfs_alloc_block_for_inode s).1) (l / cfg.NR_INDIRECT_BLOCKS)
          = (testfs_alloc_block_for_inode s).1 :=
        getInt_setInt_same _ _ _ (le_of_lt hpos) hlt
      rw [allocate_dindirect_data_frame hcfg hlink.1.wf (by exact hpa) l hk
          (setInt d_indirect (l / cfg.NR_INDIRECT_BLOCKS) (testfs_alloc_block_for_inode s).1)
          (by
            show _ = (set_disk _ _ _).disk (testfs_alloc_block_for_inode s).2.i_dindirect
            rw [set_disk_same])
          (by rw [hge]; exact hpos) zero_block
          (by rw [hge, set_disk_other _ _ _ _ hne1, hzb])
          fd true block r s1 b1 heq hr j hj hne, hfr]
      exact phys_agree hcfg h hag j hj
  · rw [if_neg hez] at heq
    have he : 0 < getInt d_indirect (l / cfg.NR_INDIRECT_BLOCKS) := by
      refine lt_of_le_of_ne ?_ (Ne.symm hez)
      rw [hd]
      exact slot_ok_nonneg (h.dind_entries hp _ hk)
    exact allocate_dindirect_data_frame hcfg h hp l hk d_indirect hd he _ rfl fd false block
      r s1 b1 heq hr j hj hne

/-- Lines 202-271, success: the mapping of every index other than
`NR_DIRECT_BLOCKS + NR_INDIRECT_BLOCKS + l` is kept, also when the
double-indirect block is created. -/
theorem allocate_dindirect_frame {cfg : Config} (hcfg : cfg.ok) {s : State}
    {o : Int → Option Slot} (h : WFo cfg s o) (l : Nat)
    (hk : l / cfg.NR_INDIRECT_BLOCKS < cfg.NR_INDIRECT_BLOCKS) (block : Block)
    (r : Int) (s1 : State) (b1 : Block)
    (heq : allocate_dindirect cfg s l block = .ok (r, s1, b1)) (hr : 0 ≤ r)
    (j : Nat) (hj : j < cfg.capacity)
    (hne : j ≠ cfg.NR_DIRECT_BLOCKS + cfg.NR_INDIRECT_BLOCKS + l) :
    phys cfg s1 j = phys cfg s j := by
  obtain ⟨hag, hdrop, hok, _⟩ := alloc_spec h
  have hwa := WFo_agree h hag 1 hdrop
  unfold allocate_dindirect at heq
  by_cases hz : s.i_dindirect = 0
  · rw [if_pos hz] at heq
    by_cases ha : (testfs_alloc_block_for_inode s).1 < 0
    · rw [if_pos ha] at heq
      simp only [Res.ok.injEq, Prod.mk.injEq] at heq
      rw [heq.1] at ha
      exact absurd hr (not_le.mpr ha)
    · rw [if_neg ha] at heq
      obtain ⟨hpos, hlt, hown, hnotin, hzb⟩ := hok (not_lt.mp ha)
      have hzero : ∀ k, getInt ((testfs_alloc_block_for_inode s).2.disk
          (testfs_alloc_block_for_inode s).1) k = 0 :=
        fun k => by rw [hzb]; exact getInt_zero_block k
      have hlink := link_dind hwa _ hpos hown hnotin (hag.dind.trans hz) hzero
      rw [allocate_dindirect_entry_frame hcfg hlink.wf hpos l hk zero_block hzb.symm true block
        r s1 b1 heq hr j hj hne,
        phys_link_dind cfg _ _ (hag.dind.trans hz) hzero j]
      exact phys_agree hcfg h hag j hj
  · rw [if_neg hz] at heq
    have hp : 0 < s.i_dindirect := lt_of_le_of_ne (slot_ok_nonneg h.dind) (Ne.symm hz)
    exact allocate_dindirect_entry_frame hcfg h hp l hk _ rfl false block r s1 b1 heq hr j hj hne

/-- C20: allocation preserves every other mapping. On a well-formed inode
(no block referenced from two places; the allocator hands out positive block
numbers that fit an `int` and that the inode does not use as data, indirect
or double-indirect block), when `testfs_allocate_block` at an in-range index
`i` succeeds, `testfs_read_block` at every other in-range index `j` returns
afterwards the physical block number it returned before, holes included:
also when `j` shares the indirect block or the double-indirect entry of `i`,
and when the call creates the indirect or the double-indirect block. -/
theorem allocation_preserves_other_mappings (cfg : Config) (hcfg : cfg.ok) (s : State)
    (hwf : WF cfg s) (i j : Nat) (hi : i < cfg.capacity) (hj : j < cfg.capacity)
    (hji : j ≠ i) (block b2 b3 : Block) (p : Int)
    (h : (testfs_allocate_block cfg s i block).ret = some p) (hp : 0 ≤ p) :
    (testfs_read_block cfg (state_allocated s (testfs_allocate_block cfg s i block)) j b2).1
      = (testfs_read_block cfg s j b3).1 := by
  obtain ⟨o, hw⟩ := hwf
  obtain ⟨s1, b1, heq⟩ := ret_some_ok h
  rw [heq]
  show (testfs_read_block cfg s1 j b2).1 = (testfs_read_block cfg s j b3).1
  rw [read_block_fst cfg s1 j b2 hj, read_block_fst cfg s j b3 hj]
  by_cases hhole : (testfs_read_block cfg s i block).1 = 0
  · by_cases h1 : i < cfg.NR_DIRECT_BLOCKS
    · obtain ⟨hag, _, _, _⟩ := alloc_spec hw
      rw [allocate_block_direct_eq cfg s i block h1 hhole] at heq
      split at heq
      · simp only [Res.ok.injEq, Prod.mk.injEq] at heq
        obtain ⟨_, h2, _⟩ := heq
        rw [← h2, phys_link_direct cfg _ i _ j hji]
        exact phys_agree hcfg hw hag j hj
      · rename_i hge
        simp only [Res.ok.injEq, Prod.mk.injEq] at heq
        rw [heq.1] at hge
        exact absurd hp hge
    · by_cases h2 : i - cfg.NR_DIRECT_BLOCKS < cfg.NR_INDIRECT_BLOCKS
      · rw [allocate_block_indirect_eq cfg s i block h1 h2 hhole] at heq
        exact allocate_indirect_frame hcfg hw _ _ p s1 b1 heq hp j hj (by omega)
      · rw [allocate_block_dindirect_eq cfg s i block h1 h2 hhole] at heq
        exact allocate_dindirect_frame hcfg hw _ (dentry_index_lt hcfg hi) _ p s1 b1 heq hp
          j hj (by omega)
  · unfold testfs_allocate_block at heq
    rw [if_pos hhole] at heq
    simp only [Res.ok.injEq, Prod.mk.injEq] at heq
    rw [← heq.2.1]

/-- Witness of `allocation_preserves_other_mappings` on the testfs layout:
allocating the first single-indirect index 10 of an empty inode creates the
indirect block; index 11, an entry of that same block, is a hole before and
after. -/
theorem allocation_preserves_other_mappings_witness :
    (testfs_allocate_block testfsConfig (empty_state [5, 6]) 10 zero_block).ret = some 6
    ∧ (state_allocated (empty_state [5, 6])
        (testfs_allocate_block testfsConfig (empty_state [5, 6]) 10 zero_block)).i_indirect = 5
    ∧ (testfs_read_block testfsConfig
        (state_allocated (empty_state [5, 6])
          (testfs_allocate_block testfsConfig (empty_state [5, 6]) 10 zero_block))
        11 zero_block).1
      = (testfs_read_block testfsConfig (empty_state [5, 6]) 11 zero_block).1 :=
  ⟨by decide, by decide,
    allocation_preserves_other_mappings testfsConfig testfsConfig_ok (empty_state [5, 6])
      ⟨fun _ => none, WFo_empty testfsConfig _ (fun _ => rfl) rfl rfl (by decide) (by decide)⟩
      10 11 (by decide) (by decide) (by decide) zero_block zero_block zero_block 6
      (by decide) (by decide)⟩

theorem ret_some_state {res : Res (Int × State)} {e : Int} (h : res.ret = some e) :
    ∃ s1, res = .ok (e, s1) := by
  cases res with
  | ok v =>
    obtain ⟨r, s1⟩ := v
    simp only [Res.ret, Option.some.injEq] at h
    exact ⟨s1, by rw [h]⟩
  | assert_failed => simp [Res.ret] at h
  | out_of_fuel => simp [Res.ret] at h

/-- A non-negative reply of the allocator is the head of its script. -/
theorem alloc_head (s : State) (h : 0 ≤ (testfs_alloc_block_for_inode s).1) :
    s.alloc = (testfs_alloc_block_for_inode s).1 :: (testfs_alloc_block_for_inode s).2.alloc := by
  unfold testfs_alloc_block_for_inode at h ⊢
  cases hs : s.alloc with
  | nil =>
    rw [hs] at h
    simp [ENOSPC] at h
  | cons x rest =>
    by_cases hx : x < 0 <;> simp [hx]

/-- A successful allocation on a hole of the direct tier is one allocator
call. -/
theorem allocate_block_direct_head (cfg : Config) (s : State) (i : Nat) (block : Block)
    (hi : i < cfg.NR_DIRECT_BLOCKS) (hhole : (testfs_read_block cfg s i block).1 = 0)
    (r : Int) (s1 : State) (b1 : Block)
    (heq : testfs_allocate_block cfg s i block = .ok (r, s1, b1)) (hr : 0 ≤ r) :
    s.alloc = r :: s1.alloc ∧ s1.i_indirect = s.i_indirect := by
  rw [allocate_block_direct_eq cfg s i block hi hhole] at heq
  split at heq
  · rename_i hge
    simp only [Res.ok.injEq, Prod.mk.injEq] at heq
    obtain ⟨h1, h2, _⟩ := heq
    rw [← h2, ← h1]
    exact ⟨alloc_head s hge, alloc_i_indirect s⟩
  · rename_i hge
    simp only [Res.ok.injEq, Prod.mk.injEq] at heq
    rw [heq.1] at hge
    exact absurd hr hge

/-- Lines 180-197, success: one allocator call. -/
theorem allocate_indirect_data_head (s : State) (l : Nat) (ind : Block) (fl : Bool)
    (block : Block) (r : Int) (s1 : State) (b1 : Block)
    (heq : allocate_indirect_data s l ind fl block = .ok (r, s1, b1)) (hr : 0 ≤ r) :
    s.alloc = r :: s1.alloc ∧ s1.i_indirect = s.i_indirect := by
  unfold allocate_indirect_data at heq
  split at heq
  · exact Res.noConfusion heq
  · split at heq
    · rename_i hge
      simp only [Res.ok.injEq, Prod.mk.injEq] at heq
      obtain ⟨h1, h2, _⟩ := heq
      rw [← h2, ← h1]
      exact ⟨alloc_head s hge, alloc_i_indirect s⟩
    · rename_i hge
      split at heq
      · simp only [Res.ok.injEq, Prod.mk.injEq] at heq
        rw [heq.1] at hge
        exact absurd hr hge
      · simp only [Res.ok.injEq, Prod.mk.injEq] at heq
        rw [heq.1] at hge
        exact absurd hr hge

/-- A successful allocation in the single-indirect tier of an inode without
indirect block is two allocator calls: the indirect block, then the data
block. -/
theorem allocate_block_indirect_head (cfg : Config) (s : State) (i : Nat) (block : Block)
    (h1 : ¬ i < cfg.NR_DIRECT_BLOCKS)
    (h2 : i - cfg.NR_DIRECT_BLOCKS < cfg.NR_INDIRECT_BLOCKS) (hind : s.i_indirect = 0)
    (r : Int) (s1 : State) (b1 : Block)
    (heq : testfs_allocate_block cfg s i block = .ok (r, s1, b1)) (hr : 0 ≤ r) :
    s.alloc = s1.i_indirect :: r :: s1.alloc := by
  have hhole : (testfs_read_block cfg s i block).1 = 0 := by
    unfold testfs_read_block
    rw [if_neg h1, if_pos h2, if_neg (by rw [hind]; decide)]
  rw [allocate_block_indirect_eq cfg s i block h1 h2 hhole] at heq
  unfold allocate_indirect at heq
  rw [if_pos hind] at heq
  by_cases ha : (testfs_alloc_block_for_inode s).1 < 0
  · rw [if_pos ha] at heq
    simp only [Res.ok.injEq, Prod.mk.injEq] at heq
    rw [heq.1] at ha
    exact absurd hr (not_le.mpr ha)
  · rw [if_neg ha] at heq
    obtain ⟨e1, e2⟩ := allocate_indirect_data_head _ _ _ _ _ _ _ _ heq hr
    rw [e2, ← e1]
    exact alloc_head s (not_lt.mp ha)

theorem phys_advance (cfg : Config) (s : State) (start size n j : Nat) :
    phys cfg (advance_size cfg s start size n) j = phys cfg s j := by
  unfold phys advance_size
  rfl

/-- C16: crossing the direct/indirect boundary. On a well-formed inode with
`i_indirect == 0` and a hole at logical block `D - 1` (`D =
NR_DIRECT_BLOCKS`; block `D` is a hole since there is no indirect block), a
successful `testfs_write_data` whose first byte lies in block `D - 1` and
whose last byte lies in block `D` takes exactly three replies off the
allocator, in this order: the data block of `D - 1`, the indirect block, the
data block of `D`. So the indirect block is allocated once, and afterwards
`testfs_read_block` returns distinct positive block numbers for `D - 1` and
`D`. -/
theorem boundary_write_three_allocations (cfg : Config) (hcfg : cfg.ok) (s : State)
    (hwf : WF cfg s) (buf b : Block) (start size : Nat) (r : Int)
    (hD : 0 < cfg.NR_DIRECT_BLOCKS)
    (hfirst : start / cfg.BLOCK_SIZE = cfg.NR_DIRECT_BLOCKS - 1)
    (hlast : (start + size - 1) / cfg.BLOCK_SIZE = cfg.NR_DIRECT_BLOCKS)
    (hind : s.i_indirect = 0)
    (hhole : (testfs_read_block cfg s (cfg.NR_DIRECT_BLOCKS - 1) b).1 = 0)
    (h : (testfs_write_data cfg s buf start size).ret = some r) (hr : 0 ≤ r) :
    s.alloc
      = (testfs_read_block cfg (state_after s (testfs_write_data cfg s buf start size))
          (cfg.NR_DIRECT_BLOCKS - 1) b).1
        :: (state_after s (testfs_write_data cfg s buf start size)).i_indirect
        :: (testfs_read_block cfg (state_after s (testfs_write_data cfg s buf start size))
            cfg.NR_DIRECT_BLOCKS b).1
        :: (state_after s (testfs_write_data cfg s buf start size)).alloc
    ∧ 0 < (testfs_read_block cfg (state_after s (testfs_write_data cfg s buf start size))
        (cfg.NR_DIRECT_BLOCKS - 1) b).1
    ∧ 0 < (testfs_read_block cfg (state_after s (testfs_write_data cfg s buf start size))
        cfg.NR_DIRECT_BLOCKS b).1
    ∧ (testfs_read_block cfg (state_after s (testfs_write_data cfg s buf start size))
        (cfg.NR_DIRECT_BLOCKS - 1) b).1
      ≠ (testfs_read_block cfg (state_after s (testfs_write_data cfg s buf start size))
        cfg.NR_DIRECT_BLOCKS b).1 := by
  obtain ⟨o, hw⟩ := hwf
  have hbs := hcfg.bs_pos
  have hbsi := hcfg.bs_int
  have hcapi := hcfg.cap_int
  have hipos := hcfg.ind_pos
  have hk1 : start / cfg.BLOCK_SIZE + 1 = cfg.NR_DIRECT_BLOCKS := by omega
  have hcap0 : cfg.NR_DIRECT_BLOCKS - 1 < cfg.capacity := by
    unfold Config.capacity
    omega
  have hcap1 : cfg.NR_DIRECT_BLOCKS < cfg.capacity := by
    unfold Config.capacity
    omega
  have hix : start % cfg.BLOCK_SIZE < cfg.BLOCK_SIZE := Nat.mod_lt _ hbs
  have hdm := Nat.div_add_mod start cfg.BLOCK_SIZE
  rw [Nat.mul_comm] at hdm
  have hl : (start + size - 1) / cfg.BLOCK_SIZE = start / cfg.BLOCK_SIZE + 1 := by
    rw [hlast, hk1]
  have hle : (start / cfg.BLOCK_SIZE + 1) * cfg.BLOCK_SIZE ≤ start + size - 1 := by
    have := Nat.div_mul_le_self (start + size - 1) cfg.BLOCK_SIZE
    rw [hl] at this
    exact this
  have hlt : start + size - 1 < (start / cfg.BLOCK_SIZE + 1 + 1) * cfg.BLOCK_SIZE :=
    (Nat.div_lt_iff_lt_mul hbs).mp (by rw [hl]; exact Nat.lt_succ_self _)
  simp only [Nat.add_mul, Nat.one_mul] at hle hlt
  have hmulti : start % cfg.BLOCK_SIZE + size > cfg.BLOCK_SIZE := by omega
  have htwo : start % cfg.BLOCK_SIZE + size ≤ cfg.BLOCK_SIZE + cfg.BLOCK_SIZE := by omega
  have hwrap : (start % cfg.BLOCK_SIZE + size) % 18446744073709551616
      = start % cfg.BLOCK_SIZE + size := Nat.mod_eq_of_lt (by omega)
  have hidx : int_index (start / cfg.BLOCK_SIZE) = .ok (start / cfg.BLOCK_SIZE) :=
    int_index_small _ (by omega)
  obtain ⟨sf, hsf⟩ := ret_some_state h
  rw [hsf]
  show s.alloc = (testfs_read_block cfg sf (cfg.NR_DIRECT_BLOCKS - 1) b).1 :: sf.i_indirect
        :: (testfs_read_block cfg sf cfg.NR_DIRECT_BLOCKS b).1 :: sf.alloc
    ∧ 0 < (testfs_read_block cfg sf (cfg.NR_DIRECT_BLOCKS - 1) b).1
    ∧ 0 < (testfs_read_block cfg sf cfg.NR_DIRECT_BLOCKS b).1
    ∧ (testfs_read_block cfg sf (cfg.NR_DIRECT_BLOCKS - 1) b).1
      ≠ (testfs_read_block cfg sf cfg.NR_DIRECT_BLOCKS b).1
  rw [read_block_fst cfg sf _ b hcap0, read_block_fst cfg sf _ b hcap1]
  -- the first block, logical index D - 1
  have hhole0 : (testfs_read_block cfg s (cfg.NR_DIRECT_BLOCKS - 1) zero_block).1 = 0 := by
    rw [read_block_fst cfg s _ _ hcap0, ← read_block_fst cfg s _ b hcap0]
    exact hhole
  obtain ⟨r0, s1, o1, heq0, hext0, _, _, hok0⟩ :=
    allocate_block_spec hcfg hw (cfg.NR_DIRECT_BLOCKS - 1) hcap0 zero_block
  unfold testfs_write_data at hsf
  rw [hwrap, if_pos hmulti, hidx] at hsf
  rw [hfirst] at hsf
  simp only [heq0] at hsf
  by_cases hr0 : r0 < 0
  · rw [if_pos hr0] at hsf
    simp only [Res.ok.injEq, Prod.mk.injEq] at hsf
    rw [hsf.1] at hr0
    exact absurd hr (not_le.mpr hr0)
  rw [if_neg hr0] at hsf
  obtain ⟨hr0pos, hp0⟩ := hok0 (not_lt.mp hr0)
  obtain ⟨ha0, hi0⟩ := allocate_block_direct_head cfg s _ zero_block (by omega) hhole0
    r0 s1 _ heq0 (not_lt.mp hr0)
  have hwd0 := fun x => write_data_block hcfg hext0.wf (cfg.NR_DIRECT_BLOCKS - 1) hcap0
    (by rw [hp0]; exact hr0pos) x
  rw [hp0] at hwd0
  -- the second block, logical index D
  rw [show cfg.NR_DIRECT_BLOCKS - 1 + 1 = cfg.NR_DIRECT_BLOCKS from by omega] at hsf
  generalize memcpy (testfs_read_block cfg s (cfg.NR_DIRECT_BLOCKS - 1) zero_block).2
    (start % cfg.BLOCK_SIZE) buf 0 (cfg.BLOCK_SIZE - start % cfg.BLOCK_SIZE) = x0 at hsf
  obtain ⟨r1, s2, o2, heq1, hext1, _, _, hok1⟩ :=
    allocate_block_spec hcfg (hwd0 x0).1 cfg.NR_DIRECT_BLOCKS hcap1 x0
  rw [write_loop_step cfg buf start size cfg.capacity (write_blocks s1 x0 r0) x0
    cfg.NR_DIRECT_BLOCKS _ (by omega) (by omega) r1 s2 _ heq1] at hsf
  by_cases hr1 : r1 < 0
  · rw [if_pos hr1] at hsf
    simp only [Res.ok.injEq, Prod.mk.injEq] at hsf
    rw [hsf.1] at hr1
    exact absurd hr (not_le.mpr hr1)
  rw [if_neg hr1] at hsf
  obtain ⟨hr1pos, hp1⟩ := hok1 (not_lt.mp hr1)
  have hiA : (write_blocks s1 x0 r0).i_indirect = 0 := hi0.trans hind
  have ha1 : s1.alloc = s2.i_indirect :: r1 :: s2.alloc :=
    allocate_block_indirect_head cfg (write_blocks s1 x0 r0) cfg.NR_DIRECT_BLOCKS x0
      (lt_irrefl _) (by rw [Nat.sub_self]; exact hipos) hiA r1 s2 _ heq1 (not_lt.mp hr1)
  have hwd1 := fun x => write_data_block hcfg hext1.wf cfg.NR_DIRECT_BLOCKS hcap1
    (by rw [hp1]; exact hr1pos) x
  rw [hp1] at hwd1
  have hkeep : phys cfg s2 (cfg.NR_DIRECT_BLOCKS - 1) = r0 := by
    have hA := (hwd0 x0).2.1 (cfg.NR_DIRECT_BLOCKS - 1) hcap0
    rw [hp0] at hA
    rw [hext1.phys_keep _ hcap0 (by rw [hA]; exact hr0pos), hA]
  have hfinal : ∀ x : Block,
      sf = advance_size cfg (write_blocks s2 x r1) start size size →
      s.alloc = phys cfg sf (cfg.NR_DIRECT_BLOCKS - 1) :: sf.i_indirect
          :: phys cfg sf cfg.NR_DIRECT_BLOCKS :: sf.alloc
        ∧ 0 < phys cfg sf (cfg.NR_DIRECT_BLOCKS - 1)
        ∧ 0 < phys cfg sf cfg.NR_DIRECT_BLOCKS
        ∧ phys cfg sf (cfg.NR_DIRECT_BLOCKS - 1) ≠ phys cfg sf cfg.NR_DIRECT_BLOCKS := by
    intro x hx
    have e0 : phys cfg sf (cfg.NR_DIRECT_BLOCKS - 1) = r0 := by
      rw [hx, phys_advance, (hwd1 x).2.1 _ hcap0]
      exact hkeep
    have e1 : phys cfg sf cfg.NR_DIRECT_BLOCKS = r1 := by
      rw [hx, phys_advance, (hwd1 x).2.1 _ hcap1]
      exact hp1
    have e2 : sf.i_indirect = s2.i_indirect := by rw [hx]; rfl
    have e3 : sf.alloc = s2.alloc := by rw [hx]; rfl
    rw [e0, e1, e2, e3]
    refine ⟨?_, hr0pos, hr1pos, ?_⟩
    · rw [ha0, ha1]
    · rw [← hkeep, ← hp1]
      exact phys_inj hcfg hext1.wf hcap0 hcap1 (by rw [hkeep]; exact hr0pos)
        (by rw [hp1]; exact hr1pos) (by omega)
  by_cases hfull : size - (cfg.BLOCK_SIZE - start % cfg.BLOCK_SIZE) ≥ cfg.BLOCK_SIZE
  · rw [if_pos hfull,
      show cfg.BLOCK_SIZE - start % cfg.BLOCK_SIZE + cfg.BLOCK_SIZE = size from by omega,
      write_loop_done] at hsf
    simp only [Res.ok.injEq, Prod.mk.injEq] at hsf
    exact hfinal _ hsf.2.symm
  · rw [if_neg hfull, write_loop_done] at hsf
    simp only [Res.ok.injEq, Prod.mk.injEq] at hsf
    exact hfinal _ hsf.2.symm

/-- Witness of `boundary_write_three_allocations` on the testfs layout: 8193
bytes from offset `9 * 8192` on an empty inode, allocator replies 5, 6, 7. -/
theorem boundary_write_three_allocations_witness :
    (empty_state [5, 6, 7]).alloc
      = (testfs_read_block testfsConfig
          (state_after (empty_state [5, 6, 7])
            (testfs_write_data testfsConfig (empty_state [5, 6, 7]) bytes65_66 73728 8193))
          (testfsConfig.NR_DIRECT_BLOCKS - 1) zero_block).1
        :: (state_after (empty_state [5, 6, 7])
            (testfs_write_data testfsConfig (empty_state [5, 6, 7]) bytes65_66 73728
              8193)).i_indirect
        :: (testfs_read_block testfsConfig
            (state_after (empty_state [5, 6, 7])
              (testfs_write_data testfsConfig (empty_state [5, 6, 7]) bytes65_66 73728 8193))
            testfsConfig.NR_DIRECT_BLOCKS zero_block).1
        :: (state_after (empty_state [5, 6, 7])
            (testfs_write_data testfsConfig (empty_state [5, 6, 7]) bytes65_66 73728 8193)).alloc
    ∧ 0 < (testfs_read_block testfsConfig
        (state_after (empty_state [5, 6, 7])
          (testfs_write_data testfsConfig (empty_state [5, 6, 7]) bytes65_66 73728 8193))
        (testfsConfig.NR_DIRECT_BLOCKS - 1) zero_block).1
    ∧ 0 < (testfs_read_block testfsConfig
        (state_after (empty_state [5, 6, 7])
          (testfs_write_data testfsConfig (empty_state [5, 6, 7]) bytes65_66 73728 8193))
        testfsConfig.NR_DIRECT_BLOCKS zero_block).1
    ∧ (testfs_read_block testfsConfig
        (state_after (empty_state [5, 6, 7])
          (testfs_write_data testfsConfig (empty_state [5, 6, 7]) bytes65_66 73728 8193))
        (testfsConfig.NR_DIRECT_BLOCKS - 1) zero_block).1
      ≠ (testfs_read_block testfsConfig
        (state_after (empty_state [5, 6, 7])
          (testfs_write_data testfsConfig (empty_state [5, 6, 7]) bytes65_66 73728 8193))
        testfsConfig.NR_DIRECT_BLOCKS zero_block).1 :=
  boundary_write_three_allocations testfsConfig testfsConfig_ok (empty_state [5, 6, 7])
    ⟨fun _ => none, WFo_empty testfsConfig _ (fun _ => rfl) rfl rfl (by decide) (by decide)⟩
    bytes65_66 zero_block 73728 8193 8193 (by decide) (by decide) (by decide) rfl (by decide)
    (by decide) (by decide)

/-- The loop of `testfs_write_data`, after the `n` iterations of
`write_steps`, continues from the loop variables that `write_steps` gives. -/
theorem write_loop_steps (cfg : Config) (buf : Block) (start size : Nat) :
    ∀ (n fuel : Nat) (s : State) (block : Block) (blk bw : Nat) (sn : State) (bn : Block)
      (blkn w : Nat),
      write_steps cfg buf start size n s block blk bw = some (sn, bn, blkn, w) →
      write_loop cfg buf start size (n + fuel) s block blk bw
        = write_loop cfg buf start size fuel sn bn blkn w := by
  intro n
  induction n with
  | zero =>
    intro fuel s block blk bw sn bn blkn w h
    rw [write_steps] at h
    simp only [Option.some.injEq, Prod.mk.injEq] at h
    obtain ⟨h1, h2, h3, h4⟩ := h
    rw [Nat.zero_add, h1, h2, h3, h4]
  | succ n ih =>
    intro fuel s block blk bw sn bn blkn w h
    rw [show n + 1 + fuel = (n + fuel) + 1 from by omega, write_loop]
    rw [write_steps] at h
    by_cases he : bw = size
    · rw [if_pos he] at h
      exact Option.noConfusion h
    · rw [if_neg he] at h ⊢
      cases hidx : int_index blk with
      | ok idx =>
        simp only [hidx] at h ⊢
        cases hal : testfs_allocate_block cfg s idx block with
        | ok v =>
          obtain ⟨ret, s1, b1⟩ := v
          simp only [hal] at h ⊢
          by_cases hr : ret < 0
          · rw [if_pos hr] at h
            exact Option.noConfusion h
          · rw [if_neg hr] at h ⊢
            by_cases hfull : size - bw ≥ cfg.BLOCK_SIZE
            · rw [if_pos hfull] at h ⊢
              exact ih fuel _ _ _ _ sn bn blkn w h
            · rw [if_neg hfull] at h ⊢
              exact ih fuel _ _ _ _ sn bn blkn w h
        | assert_failed =>
          simp only [hal] at h
          exact Option.noConfusion h
        | out_of_fuel =>
          simp only [hal] at h
          exact Option.noConfusion h
      | assert_failed =>
        simp only [hidx] at h
        exact Option.noConfusion h
      | out_of_fuel =>
        simp only [hidx] at h
        exact Option.noConfusion h

/-- The `n` iterations of `write_steps` on a well-formed state: the bytes
copied so far are in the file, `byte_written` is on the boundary of
`block_nr`, and `i_size` is untouched. -/
theorem write_steps_spec {cfg : Config} (hcfg : cfg.ok) (buf : Block) (start size : Nat) :
    ∀ (n : Nat) (s : State) (o : Int → Option Slot) (block : Block) (blk bw : Nat)
      (sn : State) (bn : Block) (blkn w : Nat),
      WFo cfg s o → Written cfg s buf start bw → 0 < bw → bw ≤ size →
      (bw < size → start + bw = blk * cfg.BLOCK_SIZE) → blk ≤ cfg.capacity →
      write_steps cfg buf start size n s block blk bw = some (sn, bn, blkn, w) →
      ∃ ow, WFo cfg sn ow ∧ Written cfg sn buf start w ∧ bw ≤ w ∧ w ≤ size
        ∧ (w < size → start + w = blkn * cfg.BLOCK_SIZE ∧ blkn = blk + n)
        ∧ blkn ≤ cfg.capacity ∧ sn.i_size = s.i_size := by
  have hbs := hcfg.bs_pos
  have hcapi := hcfg.cap_int
  intro n
  induction n with
  | zero =>
    intro s o block blk bw sn bn blkn w h hw hbw hle hal hblk hp
    rw [write_steps] at hp
    simp only [Option.some.injEq, Prod.mk.injEq] at hp
    obtain ⟨h1, h2, h3, h4⟩ := hp
    subst h1 h2 h3 h4
    exact ⟨o, h, hw, le_refl _, hle, fun hlt => ⟨hal hlt, rfl⟩, hblk, rfl⟩
  | succ n ih =>
    intro s o block blk bw sn bn blkn w h hw hbw hle hal hblk hp
    rw [write_steps] at hp
    by_cases he : bw = size
    · rw [if_pos he] at hp
      exact Option.noConfusion hp
    · rw [if_neg he, int_index_small blk (by omega)] at hp
      have hlt : bw < size := lt_of_le_of_ne hle he
      have hal1 := hal hlt
      by_cases hcap : blk = cfg.capacity
      · have hoor := allocate_block_out_of_range cfg s blk block (le_of_eq hcap.symm)
        simp only [hoor] at hp
        rw [if_pos (by decide)] at hp
        exact Option.noConfusion hp
      · have hi : blk < cfg.capacity := lt_of_le_of_ne hblk hcap
        have hbefore : ∀ x, x < bw → (start + x) / cfg.BLOCK_SIZE ≠ blk :=
          fun x hx => div_ne_of_lt _ _ _ hbs (by omega)
        by_cases hfull : size - bw ≥ cfg.BLOCK_SIZE
        · obtain ⟨r, s1, o1, heq, hext, _, _, hok⟩ :=
            block_step hcfg h blk hi buf start bw 0 cfg.BLOCK_SIZE hw hbefore
              (by omega) (by omega) block
          simp only [heq] at hp
          by_cases hr : r < 0
          · rw [if_pos hr] at hp
            exact Option.noConfusion hp
          · rw [if_neg hr, if_pos hfull] at hp
            obtain ⟨_, hstep⟩ := hok (not_lt.mp hr)
            obtain ⟨hwf2, hw2⟩ := hstep (testfs_read_block cfg s blk block).2
            obtain ⟨ow, g1, g2, g3, g4, g5, g6, g7⟩ := ih _ o1 _ (blk + 1)
              (bw + cfg.BLOCK_SIZE) sn bn blkn w hwf2 hw2 (by omega) (by omega)
              (fun _ => by rw [Nat.succ_mul]; omega) (by omega) hp
            refine ⟨ow, g1, g2, by omega, g4, fun hlt2 => ⟨(g5 hlt2).1, ?_⟩, g6, ?_⟩
            · have := (g5 hlt2).2
              omega
            · rw [g7]
              show s1.i_size = _
              exact hext.size
        · obtain ⟨r, s1, o1, heq, hext, _, _, hok⟩ :=
            block_step hcfg h blk hi buf start bw 0 (size - bw) hw hbefore
              (by omega) (by omega) block
          simp only [heq] at hp
          by_cases hr : r < 0
          · rw [if_pos hr] at hp
            exact Option.noConfusion hp
          · rw [if_neg hr, if_neg hfull] at hp
            obtain ⟨_, hstep⟩ := hok (not_lt.mp hr)
            obtain ⟨hwf2, hw2⟩ := hstep (testfs_read_block cfg s blk block).2
            have hbs2 : bw + (size - bw) = size := by omega
            rw [hbs2] at hw2
            obtain ⟨ow, g1, g2, g3, g4, g5, g6, g7⟩ := ih _ o1 _ blk size sn bn blkn w hwf2 hw2
              (by omega) (le_refl _) (fun hlt2 => absurd hlt2 (lt_irrefl _)) hblk hp
            refine ⟨ow, g1, g2, by omega, g4, fun hlt2 => ?_, g6, ?_⟩
            · omega
            · rw [g7]
              show s1.i_size = _
              exact hext.size

/-- C5: partial write. On a well-formed inode, take a multi-block call of
`testfs_write_data` (the test of line 293) whose allocation for the first
block succeeds, and let the loop run `n` iterations that allocate and copy
their block, so that `w` bytes are copied, `w ≠ size`, and the loop variables
are `sn`, `bn`, `blk`. If the allocation for the next block `blk` fails with
error `e`, the call returns `e`, the new `i_size` is
`max (old i_size) (start + w)`, the dirty flag is set, the `w` bytes copied
before the failing allocation are in the file (their blocks are mapped and
hold the caller's bytes), and every block mapped when the allocation failed
keeps its mapping and its content: the prefix is not rolled back. -/
theorem partial_write_keeps_written_part (cfg : Config) (hcfg : cfg.ok) (s : State)
    (hwf : WF cfg s) (buf : Block) (start size : Nat)
    (hsz : size < 18446744073709551616)
    (hmulti : (start % cfg.BLOCK_SIZE + size) % 18446744073709551616 > cfg.BLOCK_SIZE)
    (r0 : Int) (s1 : State) (b1 : Block)
    (hfirst : testfs_allocate_block cfg s (start / cfg.BLOCK_SIZE) zero_block
      = .ok (r0, s1, b1))
    (hr0 : 0 ≤ r0)
    (n : Nat) (sn : State) (bn : Block) (blk w : Nat)
    (hreach : write_steps cfg buf start size n
        (write_blocks s1
          (memcpy b1 (start % cfg.BLOCK_SIZE) buf 0 (cfg.BLOCK_SIZE - start % cfg.BLOCK_SIZE))
          r0)
        (memcpy b1 (start % cfg.BLOCK_SIZE) buf 0 (cfg.BLOCK_SIZE - start % cfg.BLOCK_SIZE))
        (start / cfg.BLOCK_SIZE + 1) (cfg.BLOCK_SIZE - start % cfg.BLOCK_SIZE)
      = some (sn, bn, blk, w))
    (hne : w ≠ size)
    (e : Int) (sf : State) (bf : Block)
    (hfail : testfs_allocate_block cfg sn blk bn = .ok (e, sf, bf)) (he : e < 0) :
    (testfs_write_data cfg s buf start size).ret = some e
    ∧ cfg.BLOCK_SIZE - start % cfg.BLOCK_SIZE ≤ w ∧ w < size
    ∧ start + w = blk * cfg.BLOCK_SIZE
    ∧ (state_after s (testfs_write_data cfg s buf start size)).i_size
        = max s.i_size ((start : Int) + w)
    ∧ is_dirty cfg (state_after s (testfs_write_data cfg s buf start size))
    ∧ Written cfg (state_after s (testfs_write_data cfg s buf start size)) buf start w
    ∧ (∀ j, j < cfg.capacity → 0 < phys cfg sn j →
        phys cfg (state_after s (testfs_write_data cfg s buf start size)) j = phys cfg sn j
        ∧ (state_after s (testfs_write_data cfg s buf start size)).disk (phys cfg sn j)
            = sn.disk (phys cfg sn j)) := by
  obtain ⟨o, hw⟩ := hwf
  have hbs := hcfg.bs_pos
  have hbsi := hcfg.bs_int
  have hcapi := hcfg.cap_int
  have hbytes := capacity_bytes_lt hcfg
  have hix : start % cfg.BLOCK_SIZE < cfg.BLOCK_SIZE := Nat.mod_lt _ hbs
  have hm : start % cfg.BLOCK_SIZE + size > cfg.BLOCK_SIZE := by omega
  have hstart : start / cfg.BLOCK_SIZE < cfg.capacity := by
    by_contra hge
    rw [allocate_block_out_of_range cfg s (start / cfg.BLOCK_SIZE) zero_block
      (not_lt.mp hge)] at hfirst
    simp only [Res.ok.injEq, Prod.mk.injEq] at hfirst
    rw [← hfirst.1] at hr0
    exact absurd hr0 (by decide)
  have hidx : int_index (start / cfg.BLOCK_SIZE) = .ok (start / cfg.BLOCK_SIZE) :=
    int_index_small _ (by omega)
  have hdm := Nat.div_add_mod start cfg.BLOCK_SIZE
  have hpos0 : start + 0 = start / cfg.BLOCK_SIZE * cfg.BLOCK_SIZE + start % cfg.BLOCK_SIZE := by
    rw [Nat.mul_comm]
    omega
  have hw0 : Written cfg s buf start 0 := fun x hx => absurd hx (Nat.not_lt_zero x)
  -- the first block
  obtain ⟨r, s1x, o1, heq, hext, _, _, hok⟩ :=
    block_step hcfg hw (start / cfg.BLOCK_SIZE) hstart buf start 0 (start % cfg.BLOCK_SIZE)
      (cfg.BLOCK_SIZE - start % cfg.BLOCK_SIZE) hw0
      (fun x hx => absurd hx (Nat.not_lt_zero x)) hpos0 (by omega) zero_block
  rw [hfirst] at heq
  simp only [Res.ok.injEq, Prod.mk.injEq] at heq
  obtain ⟨e1, e2, e3⟩ := heq
  subst e1 e2
  obtain ⟨_, hstep⟩ := hok hr0
  obtain ⟨hwfA, hwA⟩ := hstep b1
  rw [Nat.zero_add] at hwA
  -- the iterations before the failing allocation
  obtain ⟨ow, hwn, hwrn, g3, g4, g5, g6, g7⟩ := write_steps_spec hcfg buf start size n _ o1 _
    (start / cfg.BLOCK_SIZE + 1) (cfg.BLOCK_SIZE - start % cfg.BLOCK_SIZE) sn bn blk w
    hwfA hwA (by omega) (by omega) (fun _ => by rw [Nat.succ_mul, Nat.mul_comm]; omega)
    (by omega) hreach
  have hlt : w < size := lt_of_le_of_ne g4 hne
  obtain ⟨hal, hblk⟩ := g5 hlt
  have hnc : n + 1 ≤ cfg.capacity := by
    have h1 : n + 1 ≤ start / cfg.BLOCK_SIZE + (n + 1) := Nat.le_add_left _ _
    have h2 : start / cfg.BLOCK_SIZE + (n + 1) = blk := by rw [hblk]; omega
    rw [h2] at h1
    exact le_trans h1 g6
  have hwb : blk * cfg.BLOCK_SIZE ≤ cfg.capacity * cfg.BLOCK_SIZE :=
    Nat.mul_le_mul_right _ g6
  have hw63 : w < 9223372036854775808 := by omega
  have hsn : sn.i_size = s.i_size := by
    rw [g7]
    exact hext.size
  -- the failing allocation
  have hsf : sf.i_size = sn.i_size := allocate_block_size _ _ _ _ _ _ _ hfail
  have hkeep : Written cfg sf buf start w
      ∧ (∀ j, j < cfg.capacity → 0 < phys cfg sn j →
          phys cfg sf j = phys cfg sn j ∧ sf.disk (phys cfg sn j) = sn.disk (phys cfg sn j)) := by
    by_cases hcap : blk = cfg.capacity
    · rw [allocate_block_out_of_range cfg sn blk bn (le_of_eq hcap.symm)] at hfail
      simp only [Res.ok.injEq, Prod.mk.injEq] at hfail
      rw [← hfail.2.1]
      exact ⟨hwrn, fun j _ _ => ⟨rfl, rfl⟩⟩
    · have hi : blk < cfg.capacity := lt_of_le_of_ne g6 hcap
      obtain ⟨rf, sfx, ofx, heqf, hextf, _, hfl, _⟩ :=
        block_step hcfg hwn blk hi buf start w 0 0 hwrn
          (fun x hx => div_ne_of_lt _ _ _ hbs (by omega)) (by omega) (by omega) bn
      rw [hfail] at heqf
      simp only [Res.ok.injEq, Prod.mk.injEq] at heqf
      obtain ⟨f1, f2, _⟩ := heqf
      subst f1 f2
      refine ⟨(hfl he).2, fun j hj hp => ⟨hextf.phys_keep j hj hp, ?_⟩⟩
      exact hextf.data_keep _ _ (phys_owner hcfg hwn j hj hp) (slot_of_not_meta cfg j)
  -- the call
  have hres : testfs_write_data cfg s buf start size
      = .ok (e, advance_size cfg sf start size w) := by
    unfold testfs_write_data
    rw [if_pos hmulti, hidx]
    simp only [hfirst]
    rw [if_neg (not_lt.mpr hr0),
      show cfg.capacity + 1 = n + (cfg.capacity - n + 1) from by omega,
      write_loop_steps cfg buf start size n _ _ _ _ _ sn bn blk w hreach,
      write_loop_step cfg buf start size _ sn bn blk w hne (by omega) e sf bf hfail,
      if_pos he]
  rw [hres]
  refine ⟨rfl, g3, hlt, hal, ?_, advance_size_dirty _ _ _ _ _,
    Written_advance hkeep.1 _ _ _, fun j hj hp => ?_⟩
  · show (advance_size cfg sf start size w).i_size = _
    rw [advance_size_i_size _ _ _ _ _ (by omega) hw63, hsf, hsn]
  · show phys cfg (advance_size cfg sf start size w) j = phys cfg sn j
      ∧ sf.disk (phys cfg sn j) = sn.disk (phys cfg sn j)
    rw [phys_advance]
    exact hkeep.2 j hj hp

/-- Witness of `partial_write_keeps_written_part`: a three-block write of
20000 bytes at offset 0 on the testfs layout, empty inode, allocator replies
5, 6 and then `-28`. The first block gets block 5, one loop iteration gets
block 6, and the allocation for logical block 2 fails after 16384 bytes. -/
theorem partial_write_keeps_written_part_witness :
    (testfs_write_data testfsConfig (empty_state [5, 6, -28]) bytes65 0 20000).ret = some (-28)
    ∧ 16384 < 20000
    ∧ (state_after (empty_state [5, 6, -28])
        (testfs_write_data testfsConfig (empty_state [5, 6, -28]) bytes65 0 20000)).i_size
        = max (empty_state [5, 6, -28]).i_size (((0 : Nat) : Int) + ((16384 : Nat) : Int))
    ∧ is_dirty testfsConfig (state_after (empty_state [5, 6, -28])
        (testfs_write_data testfsConfig (empty_state [5, 6, -28]) bytes65 0 20000))
    ∧ Written testfsConfig (state_after (empty_state [5, 6, -28])
        (testfs_write_data testfsConfig (empty_state [5, 6, -28]) bytes65 0 20000))
        bytes65 0 16384 :=
  let S := empty_state [5, 6, -28]
  let s1 := state_allocated S (testfs_allocate_block testfsConfig S 0 zero_block)
  let b1 := (testfs_read_block testfsConfig S 0 zero_block).2
  let bA := memcpy b1 0 bytes65 0 8192
  let sA := write_blocks s1 bA 5
  let bn := memcpy (testfs_read_block testfsConfig sA 1 bA).2 0 bytes65 8192 8192
  let sn := write_blocks
    (state_allocated S (testfs_allocate_block testfsConfig sA 1 bA)) bn 6
  let sf := state_allocated S (testfs_allocate_block testfsConfig sn 2 bn)
  let bf := (testfs_read_block testfsConfig sn 2 bn).2
  (fun h => ⟨h.1, h.2.2.1, h.2.2.2.2.1, h.2.2.2.2.2.1, h.2.2.2.2.2.2.1⟩)
    (partial_write_keeps_written_part testfsConfig testfsConfig_ok S
      ⟨fun _ => none, WFo_empty testfsConfig _ (fun _ => rfl) rfl rfl (by decide) (by decide)⟩
      bytes65 0 20000 (by decide) (by decide) 5 s1 b1 rfl (by decide)
      1 sn bn 2 16384 rfl (by decide) (-28) sf bf rfl (by decide))

end TestFS
